import Mathlib

/-!
Virtual Bistro: the station manager (order dispatch)

A shallow embedding of `part 4/StationManager.cpp`.  The registry
(`LinkedList<KitchenStation*>`) is a list of stations in registry order, the
dish queue (`std::queue<Dish*>`) is a list whose head is the front, and the
backup pool (`std::vector<Ingredient>`) is a list.  Quantities are the
source's `int`, embedded as `Int`.  The sums that the source accumulates in an
`int` (the `+=` of `addBackupIngredient`, the two counters of the kitchen) are
reduced to 32 bits with `wrapInt`: signed overflow, undefined in the source,
is taken to wrap as it does on two's-complement targets.  The differences the
source computes (a shortage, the record left by a draw) are embedded as exact
integers.  Objects reached through pointers are
embedded as values: every registry entry and every queue entry is taken to be
an object of its own.

The kitchen of `Part 3/Kitchen.cpp` and the recipe book of
`Part 5/RecipeBook.cpp` are embedded in sections of their own further down.
-/

namespace VirtualBistro

/-! ## Data model -/

/-- The value an `int` holds after an operation whose mathematical result is
`x`: the 32-bit two's-complement representative of x, in the range
-2147483648 .. 2147483647.  A result in that range is kept as it is. -/
def wrapInt (x : Int) : Int := (x + 2147483648) % 4294967296 - 2147483648

/-- The record `Ingredient(name, quantity, required_quantity, price)`.  The
price is only ever copied by the station manager; it is kept in hundredths of
the currency unit. -/
structure Ingredient where
  name : String
  quantity : Int
  required_quantity : Int
  price : Nat
  deriving DecidableEq, Repr

/-- The part of a `Dish` the station manager reads: `getName()` and
`getIngredients()` (the recipe). -/
structure Dish where
  name : String
  ingredients : List Ingredient
  deriving DecidableEq, Repr

/-- Modelled from the spec: the class `KitchenStation` (KitchenStation.hpp and
KitchenStation.cpp are not among the sources).  A station owns a name, the
dishes registered at it and its own ingredient stock. -/
structure KitchenStation where
  name : String
  dishes : List Dish
  ingredients_stock : List Ingredient
  deriving DecidableEq, Repr

/-- The state of a `StationManager`: the inherited list of stations,
`dish_queue_` and `backup_ingredients_`.  `draw_log` is a history variable,
not program state: it records, in order, the ingredient name and quantity of
every draw from the backup pool that succeeded; no function reads it. -/
structure StationManager where
  stations : List KitchenStation
  dish_queue : List Dish
  backup_ingredients : List Ingredient
  draw_log : List (String × Int)
  deriving DecidableEq, Repr

/-! ## The station's own operations -/

/-- Modelled from the spec: the stock record of a station for an ingredient
name (`stock: mapping from ingredient name to IngredientRecord`); the first
record of that name. -/
def findStock (stock : List Ingredient) (ingredient_name : String) : Option Ingredient :=
  stock.find? (fun r => decide (r.name = ingredient_name))

/-- On-hand quantity of an ingredient in a stock collection: the quantity of
its record, and 0 when the collection has no record of that name. -/
def stockQuantity (stock : List Ingredient) (ingredient_name : String) : Int :=
  match findStock stock ingredient_name with
  | some r => r.quantity
  | none => 0

/-- Modelled from the spec: a required ingredient is not met by a stock when
the stock has no record of its name or the record's on-hand quantity is below
the required quantity. -/
def lacks (stock : List Ingredient) (req : Ingredient) : Bool :=
  match findStock stock req.name with
  | none => true
  | some r => decide (r.quantity < req.required_quantity)

/-- The dish registered at a station under a name (the first one). -/
def KitchenStation.findDish (s : KitchenStation) (dish_name : String) : Option Dish :=
  s.dishes.find? (fun d => decide (d.name = dish_name))

/-- Modelled from the spec: `KitchenStation::canCompleteOrder(dishName)`, whether
the station "can presently complete the order (all required ingredient
quantities are met)"; a dish that is not registered at the station cannot be
completed there. -/
def KitchenStation.canCompleteOrder (s : KitchenStation) (dish_name : String) : Bool :=
  match s.findDish dish_name with
  | none => false
  | some d => d.ingredients.all (fun req => !lacks s.ingredients_stock req)

/-- Modelled from the spec: consuming one required ingredient, which lowers the
on-hand quantity of the stock record of that name by the required quantity. -/
def consume : List Ingredient → Ingredient → List Ingredient
  | [], _ => []
  | r :: rest, req =>
    if r.name = req.name then
      { r with quantity := r.quantity - req.required_quantity } :: rest
    else r :: consume rest req

/-- Modelled from the spec: `KitchenStation::prepareDish(dishName)`, which
"mutates stock by consuming required quantities on success; must be
consistent with the capability check". -/
def KitchenStation.prepareDish (s : KitchenStation) (dish_name : String) :
    Bool × KitchenStation :=
  if s.canCompleteOrder dish_name then
    match s.findDish dish_name with
    | some d =>
      (true, { s with ingredients_stock := d.ingredients.foldl consume s.ingredients_stock })
    | none => (false, s)
  else (false, s)

/-- Modelled from the spec: merging a record into a stock collection ("merges
quantity into existing stock entry or inserts new"). -/
def mergeStock : List Ingredient → Ingredient → List Ingredient
  | [], ing => [ing]
  | r :: rest, ing =>
    if r.name = ing.name then { r with quantity := r.quantity + ing.quantity } :: rest
    else r :: mergeStock rest ing

/-- Modelled from the spec: `KitchenStation::replenishStationIngredients(record)`. -/
def KitchenStation.replenishStationIngredients (s : KitchenStation) (ing : Ingredient) :
    KitchenStation :=
  { s with ingredients_stock := mergeStock s.ingredients_stock ing }

/-! ## Registry lookups -/

/-- `StationManager::findStation`: the first station of that name, scanning
from the head node. -/
def StationManager.findStation (m : StationManager) (station_name : String) :
    Option KitchenStation :=
  m.stations.find? (fun s => decide (s.name = station_name))

/-- The effect of calling `replenishStationIngredients` through the pointer
that `findStation` returned: the first station of that name is updated in
place. -/
def replenishAtStation (station_name : String) (ing : Ingredient) :
    List KitchenStation → List KitchenStation
  | [] => []
  | s :: rest =>
    if s.name = station_name then s.replenishStationIngredients ing :: rest
    else s :: replenishAtStation station_name ing rest

/-! ## Queue operations -/

/-- `StationManager::clearDishQueue`: pops (and frees) every dish. -/
def StationManager.clearDishQueue (m : StationManager) : StationManager :=
  { m with dish_queue := [] }

/-- `StationManager::setDishQueue`: clears the current queue, then copies the
given one. -/
def StationManager.setDishQueue (m : StationManager) (dish_queue : List Dish) :
    StationManager :=
  { m.clearDishQueue with dish_queue := dish_queue }

/-- The outcome of a `void` operation that may throw `std::invalid_argument`. -/
inductive Outcome where
  | returned
  | invalid_argument (what : String)
  deriving DecidableEq, Repr

/-- `StationManager::addDishToQueue(Dish*)`.  The handle is `none` for a null
pointer.  The result is the outcome together with the manager afterwards. -/
def StationManager.addDishToQueue (m : StationManager) (dish : Option Dish) :
    Outcome × StationManager :=
  match dish with
  | none => (Outcome.invalid_argument "Dish pointer must not be null.", m)
  | some d => (Outcome.returned, { m with dish_queue := m.dish_queue ++ [d] })

/-- `StationManager::addDishToQueue(Dish*, const DietaryRequest&)`.  The
virtual `Dish::dietaryAccommodations` is a parameter: `accommodate request d`
is the dish object after the call.  The third component is the list of dishes
on which the accommodation was invoked. -/
def StationManager.addDishToQueueWithRequest {Request : Type}
    (accommodate : Request → Dish → Dish) (m : StationManager) (dish : Option Dish)
    (request : Request) : Outcome × StationManager × List Dish :=
  match dish with
  | none => (Outcome.invalid_argument "Dish pointer must not be null.", m, [])
  | some d =>
    (Outcome.returned, { m with dish_queue := m.dish_queue ++ [accommodate request d] }, [d])

/-- The station scan of `prepareNextDish`: walking the nodes from the head, the
first station whose `prepareDish` succeeds ends the scan. -/
def prepareScan (dish_name : String) : List KitchenStation → Bool × List KitchenStation
  | [] => (false, [])
  | station :: rest =>
    match station.prepareDish dish_name with
    | (true, station') => (true, station' :: rest)
    | (false, station') =>
      ((prepareScan dish_name rest).1, station' :: (prepareScan dish_name rest).2)

/-- `StationManager::prepareNextDish`. -/
def StationManager.prepareNextDish (m : StationManager) : Bool × StationManager :=
  match m.dish_queue with
  | [] => (false, m)
  | dish :: rest =>
    match prepareScan dish.name m.stations with
    | (true, stations') => (true, { m with stations := stations', dish_queue := rest })
    | (false, stations') => (false, { m with stations := stations' })

/-! ## The backup pool -/

/-- The scan of `backup_ingredients_` in `replenishStationIngredientFromBackup`:
the first record whose name matches and whose quantity is at least `quantity`
is reduced by `quantity` and erased when that leaves 0.  Returns the record as
it was found and the pool afterwards, or `none` when no record qualifies. -/
def drawBackup (ingredient_name : String) (quantity : Int) :
    List Ingredient → Option (Ingredient × List Ingredient)
  | [] => none
  | ingredient :: rest =>
    if ingredient.name = ingredient_name ∧ ingredient.quantity ≥ quantity then
      some (ingredient,
        if ingredient.quantity - quantity = 0 then rest
        else { ingredient with quantity := ingredient.quantity - quantity } :: rest)
    else
      match drawBackup ingredient_name quantity rest with
      | none => none
      | some (found, rest') => some (found, ingredient :: rest')

/-- `StationManager::replenishStationIngredientFromBackup`. -/
def StationManager.replenishStationIngredientFromBackup (m : StationManager)
    (station_name ingredient_name : String) (quantity : Int) : Bool × StationManager :=
  match m.findStation station_name with
  | none => (false, m)
  | some _ =>
    match drawBackup ingredient_name quantity m.backup_ingredients with
    | none => (false, m)
    | some (ingredient, backup') =>
      (true,
        { m with
          stations := replenishAtStation station_name
            ⟨ingredient.name, quantity, 0, ingredient.price⟩ m.stations
          backup_ingredients := backup'
          draw_log := m.draw_log ++ [(ingredient_name, quantity)] })

/-! ## The full processing pass -/

/-- One station's `prepareDish` called through the registry entry at index `i`
(`getEntry(i)`). -/
def prepareDishAt (m : StationManager) (i : Nat) (dish_name : String) :
    Bool × StationManager :=
  match m.stations[i]? with
  | none => (false, m)
  | some kitchenStation =>
    ((kitchenStation.prepareDish dish_name).1,
      { m with stations := m.stations.set i (kitchenStation.prepareDish dish_name).2 })

/-- The loop "Replenish all required ingredients" of `processAllDishes` for the
station at index `i`, over the recipe of the registered dish.  A required
ingredient found in the station's stock is topped up by its shortage when that
is positive, and whether or not that draw succeeds the loop goes on to the next
required ingredient (the `break` leaves the stock scan only).  A required
ingredient not found in the stock is drawn in full, and a failed draw ends the
loop. -/
def replenishRequired (i : Nat) : List Ingredient → StationManager → StationManager
  | [], m => m
  | requiredIngredient :: rest, m =>
    match m.stations[i]? with
    | none => m
    | some kitchenStation =>
      match kitchenStation.ingredients_stock.find?
          (fun stockIngredient => decide (requiredIngredient.name = stockIngredient.name)) with
      | some stockIngredient =>
        let requiredQuantity := requiredIngredient.required_quantity - stockIngredient.quantity
        if requiredQuantity > 0 then
          replenishRequired i rest
            (m.replenishStationIngredientFromBackup kitchenStation.name
              requiredIngredient.name requiredQuantity).2
        else replenishRequired i rest m
      | none =>
        match m.replenishStationIngredientFromBackup kitchenStation.name
            requiredIngredient.name requiredIngredient.required_quantity with
        | (true, m') => replenishRequired i rest m'
        | (false, m') => m'

/-- The loop over `kitchenStation->getDishes()` of `processAllDishes` for the
station at index `i`; the state is the manager and the flag `isPrepared`.  A
registered dish of the ordered name is prepared when the station can complete
the order (the loop then goes on); otherwise the recipe is replenished and the
preparation retried, and a successful retry leaves the loop. -/
def dishLoop (dish_name : String) (i : Nat) :
    List Dish → StationManager × Bool → StationManager × Bool
  | [], st => st
  | station_dish :: rest, (m, isPrepared) =>
    if station_dish.name = dish_name then
      match m.stations[i]? with
      | none => (m, isPrepared)
      | some kitchenStation =>
        if kitchenStation.canCompleteOrder dish_name then
          match prepareDishAt m i dish_name with
          | (true, m') => dishLoop dish_name i rest (m', true)
          | (false, m') => dishLoop dish_name i rest (m', isPrepared)
        else
          match prepareDishAt (replenishRequired i station_dish.ingredients m) i dish_name with
          | (true, m') => (m', true)
          | (false, m') => dishLoop dish_name i rest (m', isPrepared)
    else dishLoop dish_name i rest (m, isPrepared)

/-- The loop `for (int i = 0; i < item_count_; ++i)` of `processAllDishes`, run
over the indices still to visit; it stops at the first station after which
`isPrepared` holds.  Returns the manager and `isPrepared`. -/
def stationLoop (dish_name : String) : List Nat → StationManager → StationManager × Bool
  | [], m => (m, false)
  | i :: later, m =>
    match m.stations[i]? with
    | none => (m, false)
    | some kitchenStation =>
      match dishLoop dish_name i kitchenStation.dishes (m, false) with
      | (m', true) => (m', true)
      | (m', false) => stationLoop dish_name later m'

/-- The per-order procedure of `processAllDishes`: the body of the `while`
loop for the dish at the front, without the queue bookkeeping. -/
def processDish (m : StationManager) (dish : Dish) : StationManager × Bool :=
  stationLoop dish.name (List.range m.stations.length) m

/-- The `while (!dish_queue_.empty())` loop of `processAllDishes`: `queue` is
the content of `dish_queue_` at the loop test, `unPreparedDishes` the local
queue of the dishes that were not prepared.  Each iteration runs the per-order
procedure on the front dish and then pops it from the live queue. -/
def processQueue : List Dish → StationManager → List Dish → StationManager × List Dish
  | [], m, unPreparedDishes => (m, unPreparedDishes)
  | dish :: rest, m, unPreparedDishes =>
    match processDish m dish with
    | (m', true) => processQueue rest { m' with dish_queue := rest } unPreparedDishes
    | (m', false) =>
      processQueue rest { m' with dish_queue := rest } (unPreparedDishes ++ [dish])

/-- `StationManager::processAllDishes`. -/
def StationManager.processAllDishes (m : StationManager) : StationManager :=
  (processQueue m.dish_queue m []).1.setDishQueue (processQueue m.dish_queue m []).2

/-! ## Building a manager -/

/-- Modelled from the spec: the constructor `KitchenStation(name)`, a station
with that name, no registered dish and an empty stock. -/
def KitchenStation.new (name : String) : KitchenStation :=
  { name := name, dishes := [], ingredients_stock := [] }

/-- The default constructor `StationManager()`: an empty station manager. -/
def StationManager.new : StationManager :=
  { stations := [], dish_queue := [], backup_ingredients := [], draw_log := [] }

/-- `StationManager::addStation`: `insert(item_count_, station)`.  Modelled
from the spec: `LinkedList::insert` (LinkedList.hpp is not among the sources)
at position `item_count_` puts the station after the last one and succeeds. -/
def StationManager.addStation (m : StationManager) (station : KitchenStation) :
    Bool × StationManager :=
  (true, { m with stations := m.stations ++ [station] })

/-- `StationManager::addBackupIngredients`. -/
def StationManager.addBackupIngredients (m : StationManager) (ingredients : List Ingredient) :
    Bool × StationManager :=
  if ingredients.isEmpty then (false, m)
  else (true, { m with backup_ingredients := ingredients })

/-! ## The backup pool: adding and clearing -/

/-- The loop of `addBackupIngredient` over `backup_ingredients_`: the first
record of the ingredient's name has its quantity increased by the ingredient's
quantity; when the loop finds none, the ingredient is pushed at the back. -/
def addToBackup : List Ingredient → Ingredient → List Ingredient
  | [], ingredient => [ingredient]
  | backup_ingredient :: rest, ingredient =>
    if backup_ingredient.name = ingredient.name then
      { backup_ingredient with
        quantity := wrapInt (backup_ingredient.quantity + ingredient.quantity) } :: rest
    else backup_ingredient :: addToBackup rest ingredient

/-- `StationManager::addBackupIngredient`. -/
def StationManager.addBackupIngredient (m : StationManager) (ingredient : Ingredient) :
    Bool × StationManager :=
  (true, { m with backup_ingredients := addToBackup m.backup_ingredients ingredient })

/-- `StationManager::clearBackupIngredients`. -/
def StationManager.clearBackupIngredients (m : StationManager) : StationManager :=
  { m with backup_ingredients := [] }

/-! ## The registry: removing, moving and merging stations -/

/-- `StationManager::getStationIndex`: the index of the first station of that
name, counted from the head node; `none` stands for the source's -1. -/
def getStationIndex : List KitchenStation → String → Option Nat
  | [], _ => none
  | s :: rest, name =>
    if s.name = name then some 0 else (getStationIndex rest name).map (fun index => index + 1)

/-- The loop `for (int i = 0; i < item_count_; ++i)` of `removeStation`, from
index `i` on, `fuel` being the number of indices left.  Modelled from the
spec: `LinkedList::remove(i)` (LinkedList.hpp is not among the sources) at a
position that holds an entry takes that entry out of the list and succeeds. -/
def removeStationFrom (m : StationManager) (station_name : String) :
    Nat → Nat → Bool × StationManager
  | 0, _ => (false, m)
  | fuel + 1, i =>
    match m.stations[i]? with
    | none => (false, m)
    | some s =>
      if s.name = station_name then (true, { m with stations := m.stations.eraseIdx i })
      else removeStationFrom m station_name fuel (i + 1)

/-- `StationManager::removeStation`. -/
def StationManager.removeStation (m : StationManager) (station_name : String) :
    Bool × StationManager :=
  removeStationFrom m station_name m.stations.length 0

/-- `StationManager::moveStationToFront`.  The scan from the head node stops at
the first station of that name, which is the one `findStation` returns; it is
taken out at the index `getStationIndex` gives and put back with `insert(0, _)`.
Modelled from the spec: `LinkedList::remove` takes the entry at that position
out of the list, `LinkedList::insert` at position 0 puts the station before the
first one. -/
def StationManager.moveStationToFront (m : StationManager) (station_name : String) :
    Bool × StationManager :=
  match m.findStation station_name with
  | none => (false, m)
  | some station =>
    match m.stations with
    | [] => (false, m)
    | head :: _ =>
      if head.name = station_name then (true, m)
      else
        match getStationIndex m.stations station.name with
        | some pos => (true, { m with stations := station :: m.stations.eraseIdx pos })
        | none => (true, { m with stations := station :: m.stations })

/-- Modelled from the spec: `KitchenStation::assignDishToStation(dish)`.  A
station owns a set of dishes: a dish whose name is already registered is
refused, any other dish is registered after the ones already there. -/
def KitchenStation.assignDishToStation (s : KitchenStation) (dish : Dish) :
    Bool × KitchenStation :=
  if s.dishes.any (fun d => decide (d.name = dish.name)) then (false, s)
  else (true, { s with dishes := s.dishes ++ [dish] })

/-- The two loops of `mergeStations` on the first station: every dish of the
second station is offered to it with `assignDishToStation`, then every stock
record of the second station is handed to it with `replenishStationIngredients`. -/
def mergeInto (station1 station2 : KitchenStation) : KitchenStation :=
  station2.ingredients_stock.foldl (fun s ingredient => s.replenishStationIngredients ingredient)
    (station2.dishes.foldl (fun s dish => (s.assignDishToStation dish).2) station1)

/-- The effect of mutating a station through the pointer that `findStation`
returned: the first station of that name is replaced by its updated state. -/
def updateStation (station_name : String) (f : KitchenStation → KitchenStation) :
    List KitchenStation → List KitchenStation
  | [] => []
  | s :: rest =>
    if s.name = station_name then f s :: rest else s :: updateStation station_name f rest

/-- `StationManager::mergeStations`. -/
def StationManager.mergeStations (m : StationManager) (station_name1 station_name2 : String) :
    Bool × StationManager :=
  match m.findStation station_name1, m.findStation station_name2 with
  | some _, some station2 =>
    (true,
      (StationManager.removeStation
        { m with
          stations := updateStation station_name1
            (fun station1 => mergeInto station1 station2) m.stations }
        station_name2).2)
  | _, _ => (false, m)

/-! ## The recipe book (Part 5) -/

/-- `struct Recipe`.  Its comparison operators look at `name_` only. -/
structure Recipe where
  name_ : String
  difficulty_level_ : Int
  description_ : String
  mastered_ : Bool
deriving DecidableEq, Repr

/-- A subtree of the recipe book as reached through a
`std::shared_ptr<BinaryNode<Recipe>>`: `nil` is the null pointer, a node holds
its left child pointer, its item and its right child pointer
(BinarySearchTree.hpp and BinaryNode.hpp are not among the sources). -/
inductive BinaryNode where
  | nil
  | node (left : BinaryNode) (item : Recipe) (right : BinaryNode)
deriving DecidableEq, Repr

/-- `RecipeBook::findNodeByName`: the node found, `nil` for `nullptr`.  The
comparisons are those of `std::string`. -/
def findNodeByName : BinaryNode → String → BinaryNode
  | BinaryNode.nil, _ => BinaryNode.nil
  | BinaryNode.node left item right, name =>
    if item.name_ = name then BinaryNode.node left item right
    else if item.name_ > name then findNodeByName left name
    else findNodeByName right name

/-- A `RecipeBook`: the tree behind `getRoot()`. -/
structure RecipeBook where
  root : BinaryNode
deriving DecidableEq, Repr

/-- `RecipeBook::findRecipe`. -/
def RecipeBook.findRecipe (book : RecipeBook) (name : String) : BinaryNode :=
  findNodeByName book.root name

/-- The recursive lambda `traverse` of `calculateMasteryPoints`, run on a node
with the current value of the captured counter `mastery_points`; it yields the
counter's value when the call returns. -/
def traverse (target_recipe : Recipe) : BinaryNode → Int → Int
  | BinaryNode.nil, mastery_points => mastery_points
  | BinaryNode.node left item right, mastery_points =>
    traverse target_recipe right
      (traverse target_recipe left
        (if item.difficulty_level_ < target_recipe.difficulty_level_ ∧ item.mastered_ = false
          then mastery_points + 1 else mastery_points))

/-- `RecipeBook::calculateMasteryPoints`. -/
def RecipeBook.calculateMasteryPoints (book : RecipeBook) (name : String) : Int :=
  match book.findRecipe name with
  | BinaryNode.nil => -1
  | BinaryNode.node _ target_recipe _ =>
    if target_recipe.mastered_ then 0
    else traverse target_recipe book.root 0 + 1

/-- The lambda `inOrderTraverse` of `getSortedList`, with the vector `result`
passed through. -/
def inOrderTraverse : BinaryNode → List Recipe → List Recipe
  | BinaryNode.nil, result => result
  | BinaryNode.node left item right, result =>
    inOrderTraverse right (inOrderTraverse left result ++ [item])

/-- `RecipeBook::getSortedList`. -/
def getSortedList (root : BinaryNode) : List Recipe :=
  inOrderTraverse root []

/-- `RecipeBook::buildBalancedTree(vec, start, end)`, with `start`, `end` and
`mid` the source's `int`.  The first argument bounds the depth of the
recursion, and `none` stands for a call that has not returned within it or
that reads `vec[mid]` outside the vector (undefined in the source).  In the
branch that divides, `end - start` is not negative, where the truncating
division of the source and the division of `Int` agree. -/
def buildBalancedTree (vec : List Recipe) : Nat → Int → Int → Option BinaryNode
  | 0, start, end_ => if start > end_ then some BinaryNode.nil else none
  | fuel + 1, start, end_ =>
    if start > end_ then some BinaryNode.nil
    else
      let mid := start + (end_ - start) / 2
      if mid < 0 then none
      else
        match vec[mid.toNat]? with
        | none => none
        | some item =>
          match buildBalancedTree vec fuel start (mid - 1),
              buildBalancedTree vec fuel (mid + 1) end_ with
          | some left, some right => some (BinaryNode.node left item right)
          | _, _ => none

/-- `RecipeBook::clear`. -/
def RecipeBook.clear (_book : RecipeBook) : RecipeBook := { root := BinaryNode.nil }

/-- `RecipeBook::balance`.  The argument `sorted_recipes.size() - 1` is
computed in `size_t` and converted to `int`: for the empty vector this is -1,
and for the sizes that fit an `int` it is the size minus one.  The recursion
is given as many levels as the vector has recipes. -/
def RecipeBook.balance (book : RecipeBook) : Option RecipeBook :=
  (buildBalancedTree (getSortedList book.root) (getSortedList book.root).length 0
      (((getSortedList book.root).length : Int) - 1)).map
    (fun root => { book.clear with root := root })

/-! ## The kitchen (Part 3)

A shallow embedding of `Part 3/Kitchen.cpp`, with the `Dish` of `Part 1`.
`Kitchen` derives from `ArrayBag<Dish>`, whose header is not among the
sources: the members of the bag that `Kitchen.cpp` calls are taken as
parameters.  The definitions live in the namespace `Part3`, the `Dish` of the
station manager being another class. -/

namespace Part3

/-- The enumeration `Dish::CuisineType`. -/
inductive CuisineType where
  | ITALIAN
  | MEXICAN
  | CHINESE
  | INDIAN
  | AMERICAN
  | FRENCH
  | OTHER
deriving DecidableEq, Repr

/-- The class `Dish` of `Part 1/Dish.hpp`.  The preparation time is the
source's `int`.  The price, a `double` in the source, is never computed with
here and is embedded as an integer.  The `operator==` of the `Dish` that
Part 3 stores is declared in a header that is not among the sources: the
theorems on the kitchen take it as a relation between dishes. -/
structure Dish where
  name_ : String
  ingredients_ : List String
  prep_time_ : Int
  price_ : Int
  cuisine_type_ : CuisineType
deriving DecidableEq, Repr

/-- The default constructor `Dish()`. -/
def Dish.new : Dish :=
  { name_ := "UNKNOWN", ingredients_ := [], prep_time_ := 0, price_ := 0,
    cuisine_type_ := CuisineType.OTHER }

/-- `Dish::getPrepTime`. -/
def Dish.getPrepTime (d : Dish) : Int := d.prep_time_

/-- `Dish::getIngredients`. -/
def Dish.getIngredients (d : Dish) : List String := d.ingredients_

/-- `Dish::getCuisineType`. -/
def Dish.getCuisineType (d : Dish) : String :=
  match d.cuisine_type_ with
  | CuisineType.ITALIAN => "ITALIAN"
  | CuisineType.MEXICAN => "MEXICAN"
  | CuisineType.CHINESE => "CHINESE"
  | CuisineType.INDIAN => "INDIAN"
  | CuisineType.AMERICAN => "AMERICAN"
  | CuisineType.FRENCH => "FRENCH"
  | CuisineType.OTHER => "OTHER"

/-- The members of `ArrayBag<Dish>` that `Kitchen.cpp` uses, over any type of
bag states: the state the constructor `ArrayBag<Dish>()` builds,
`getCurrentSize()`, the slot `items_[i]`, `contains`, `add` and `remove`.  The
last two yield their result and the bag afterwards. -/
structure ArrayBagOps (Bag : Type) where
  init : Bag
  getCurrentSize : Bag → Nat
  items_ : Bag → Nat → Dish
  contains : Bag → Dish → Bool
  add : Bag → Dish → Bool × Bag
  remove : Bag → Dish → Bool × Bag

/-- The class `Kitchen`: the `ArrayBag<Dish>` it derives from and its two
private members, both declared `int`: what is written to them is reduced with
`wrapInt`. -/
structure Kitchen (Bag : Type) where
  bag : Bag
  totalprep_time : Int
  countelaborate : Int

/-- The default constructor `Kitchen()`. -/
def Kitchen.new {Bag : Type} (ops : ArrayBagOps Bag) : Kitchen Bag :=
  { bag := ops.init, totalprep_time := 0, countelaborate := 0 }

/-- `Kitchen::newOrder`. -/
def Kitchen.newOrder {Bag : Type} (ops : ArrayBagOps Bag) (k : Kitchen Bag) (dish : Dish) :
    Bool × Kitchen Bag :=
  if ops.contains k.bag dish then (false, k)
  else
    match ops.add k.bag dish with
    | (true, bag) =>
      (true,
        { bag := bag
          totalprep_time := wrapInt (k.totalprep_time + dish.getPrepTime)
          countelaborate :=
            if dish.getIngredients.length ≥ 5 ∧ dish.getPrepTime ≥ 60 then
              wrapInt (k.countelaborate + 1)
            else k.countelaborate })
    | (false, bag) => (false, { k with bag := bag })

/-- `Kitchen::serveDish`.  The parameter is a `const Dish&`: `dish` gives the
value of the referenced object in a given state of the bag, so that an object
of the caller is a constant function and the slot `items_[i]` is read in the
state at hand.  The argument of `remove` is read before the call, the
arguments of the two updates after it. -/
def Kitchen.serveDish {Bag : Type} (ops : ArrayBagOps Bag) (k : Kitchen Bag)
    (dish : Bag → Dish) : Bool × Kitchen Bag :=
  match ops.remove k.bag (dish k.bag) with
  | (true, bag) =>
    (true,
      { bag := bag
        totalprep_time := wrapInt (k.totalprep_time - (dish bag).getPrepTime)
        countelaborate :=
          if (dish bag).getIngredients.length ≥ 5 ∧ (dish bag).getPrepTime ≥ 60 then
            wrapInt (k.countelaborate - 1)
          else k.countelaborate })
  | (false, bag) => (false, { k with bag := bag })

/-- `Kitchen::getPrepTimeSum`. -/
def Kitchen.getPrepTimeSum {Bag : Type} (k : Kitchen Bag) : Int := k.totalprep_time

/-- `Kitchen::elaborateDishCount`. -/
def Kitchen.elaborateDishCount {Bag : Type} (k : Kitchen Bag) : Int := k.countelaborate

/-- The value of `std::round(static_cast<double>(a) / n)` for an `int` a and a
positive `int` n, converted to `int`: the quotient rounded to the nearest
integer, halves away from zero.  The quotient of two 32-bit integers is
neither moved onto nor across a half-integer by its rounding to `double` (a
quotient that is not a half-integer is at least 1/(2n) away from the nearest
one, more than the spacing of the doubles of its size), so the rounding is
computed on the exact quotient. -/
def roundQuotient (a : Int) (n : Nat) : Int :=
  if 0 ≤ a then (2 * a + n) / (2 * n) else -((2 * (-a) + n) / (2 * n))

/-- `Kitchen::calculateAvgPrepTime`. -/
def Kitchen.calculateAvgPrepTime {Bag : Type} (ops : ArrayBagOps Bag) (k : Kitchen Bag) : Int :=
  if ops.getCurrentSize k.bag = 0 then 0
  else roundQuotient k.totalprep_time (ops.getCurrentSize k.bag)

/-- `Kitchen::tallyCuisineTypes`: the loop over the slots `0 .. getCurrentSize() - 1`. -/
def Kitchen.tallyCuisineTypes {Bag : Type} (ops : ArrayBagOps Bag) (k : Kitchen Bag)
    (cuisineType : String) : Int :=
  (List.range (ops.getCurrentSize k.bag)).foldl
    (fun tally i => if (ops.items_ k.bag i).getCuisineType = cuisineType then tally + 1 else tally)
    0

/-- The loop of `releaseDishesBelowPrepTime` from index `i` on, with the bag
and `removed_count` at hand; the first argument bounds the number of
iterations, and `none` stands for a loop that has not ended within it. -/
def releaseBelowLoop {Bag : Type} (ops : ArrayBagOps Bag) (prep_time : Int) :
    Nat → Nat → Bag → Int → Option (Int × Bag)
  | 0, _, _, _ => none
  | fuel + 1, i, bag, removed_count =>
    if i < ops.getCurrentSize bag then
      if (ops.items_ bag i).getPrepTime < prep_time then
        releaseBelowLoop ops prep_time fuel i (ops.remove bag (ops.items_ bag i)).2
          (removed_count + 1)
      else releaseBelowLoop ops prep_time fuel (i + 1) bag removed_count
    else some (removed_count, bag)

/-- `Kitchen::releaseDishesBelowPrepTime`.  The loop calls `remove` of the bag,
not `serveDish`: the two private members are not written. -/
def Kitchen.releaseDishesBelowPrepTime {Bag : Type} (ops : ArrayBagOps Bag) (k : Kitchen Bag)
    (prep_time : Int) : Option (Int × Kitchen Bag) :=
  (releaseBelowLoop ops prep_time (ops.getCurrentSize k.bag + 1) 0 k.bag 0).map
    (fun r => (r.1, { k with bag := r.2 }))

/-- The loop of `releaseDishesOfCuisineType` from index `i` on.  After a
successful `serveDish` the source decrements `i` and the loop header
increments it again: the next iteration looks at the same index.  The first
argument bounds the number of iterations. -/
def releaseCuisineLoop {Bag : Type} (ops : ArrayBagOps Bag) (cuisineType : String) :
    Nat → Nat → Kitchen Bag → Int → Option (Int × Kitchen Bag)
  | 0, _, _, _ => none
  | fuel + 1, i, k, removed_count =>
    if i < ops.getCurrentSize k.bag then
      if (ops.items_ k.bag i).getCuisineType = cuisineType then
        match k.serveDish ops (fun bag => ops.items_ bag i) with
        | (true, k') => releaseCuisineLoop ops cuisineType fuel i k' (removed_count + 1)
        | (false, k') => releaseCuisineLoop ops cuisineType fuel (i + 1) k' removed_count
      else releaseCuisineLoop ops cuisineType fuel (i + 1) k removed_count
    else some (removed_count, k)

/-- `Kitchen::releaseDishesOfCuisineType`. -/
def Kitchen.releaseDishesOfCuisineType {Bag : Type} (ops : ArrayBagOps Bag) (k : Kitchen Bag)
    (cuisineType : String) : Option (Int × Kitchen Bag) :=
  releaseCuisineLoop ops cuisineType (ops.getCurrentSize k.bag + 1) 0 k 0

/-- Modelled from the spec: the array-based bag of `ArrayBag.hpp` (not among
the sources), with its array `items_` and its `item_count_`. -/
structure ArrayBag where
  items_ : Nat → Dish
  item_count_ : Nat

/-- Modelled from the spec: `ArrayBag::getIndexOf`, the first index below
`item_count_` whose slot equals the target; `none` stands for -1.  In this bag
two dishes are equal when all five members are equal. -/
def ArrayBag.getIndexOf (b : ArrayBag) (target : Dish) : Option Nat :=
  (List.range b.item_count_).find? (fun i => decide (b.items_ i = target))

/-- Modelled from the spec: `ArrayBag::contains`. -/
def ArrayBag.contains (b : ArrayBag) (an_entry : Dish) : Bool :=
  (b.getIndexOf an_entry).isSome

/-- Modelled from the spec: `ArrayBag::add`, which stores the entry in the slot
`items_[item_count_]` when the bag has room. -/
def ArrayBag.add (capacity : Nat) (b : ArrayBag) (new_entry : Dish) : Bool × ArrayBag :=
  if b.item_count_ < capacity then
    (true,
      { items_ := Function.update b.items_ b.item_count_ new_entry
        item_count_ := b.item_count_ + 1 })
  else (false, b)

/-- Modelled from the spec: `ArrayBag::remove`, which overwrites the slot of the
first entry equal to the given one with the last entry and decrements
`item_count_`. -/
def ArrayBag.remove (b : ArrayBag) (an_entry : Dish) : Bool × ArrayBag :=
  match b.getIndexOf an_entry with
  | some found_index =>
    (true,
      { items_ := Function.update b.items_ found_index (b.items_ (b.item_count_ - 1))
        item_count_ := b.item_count_ - 1 })
  | none => (false, b)

/-- The array-based bag with room for `capacity` entries (the constant
`DEFAULT_CAPACITY` of the absent header), as a bag for `Kitchen`. -/
def arrayBagOps (capacity : Nat) : ArrayBagOps ArrayBag :=
  { init := { items_ := fun _ => Dish.new, item_count_ := 0 }
    getCurrentSize := fun b => b.item_count_
    items_ := fun b i => b.items_ i
    contains := ArrayBag.contains
    add := ArrayBag.add capacity
    remove := ArrayBag.remove }

end Part3

/-! ## Specification-side notions -/

/-- The outcome of each order of a pass, in queue order: `true` when the
per-order procedure, run in the state the pass has reached, prepared it. -/
def passFlags : List Dish → StationManager → List Bool
  | [], _ => []
  | dish :: rest, m =>
    (processDish m dish).2 :: passFlags rest { (processDish m dish).1 with dish_queue := rest }

/-- The orders of a queue whose outcome flag is `false`, in their original
order. -/
def keepUnprepared : List Dish → List Bool → List Dish
  | dish :: rest, flag :: flags =>
    if flag then keepUnprepared rest flags else dish :: keepUnprepared rest flags
  | _, _ => []

/-- The managers at which the per-order procedure is run during a pass over a
queue, one per order and front first: each is the manager the previous order
left, with that order popped from the live queue. -/
def passStates : List Dish → StationManager → List StationManager
  | [], _ => []
  | dish :: rest, m => m :: passStates rest { (processDish m dish).1 with dish_queue := rest }

/-- The manager after the per-order procedure was run once on each order of a
queue, front first, each order being popped after its run. -/
def passEnd : List Dish → StationManager → StationManager
  | [], m => m
  | dish :: rest, m => passEnd rest { (processDish m dish).1 with dish_queue := rest }

/-- Whether some draw of the loop "Replenish all required ingredients" fails,
for the station at index `i` and the recipe of the registered dish: the loop
of `replenishRequired`, returning whether a call of
`replenishStationIngredientFromBackup` in it returned false. -/
def drawFails (i : Nat) : List Ingredient → StationManager → Bool
  | [], _ => false
  | requiredIngredient :: rest, m =>
    match m.stations[i]? with
    | none => false
    | some kitchenStation =>
      match findStock kitchenStation.ingredients_stock requiredIngredient.name with
      | some stockIngredient =>
        if requiredIngredient.required_quantity - stockIngredient.quantity > 0 then
          !(m.replenishStationIngredientFromBackup kitchenStation.name requiredIngredient.name
              (requiredIngredient.required_quantity - stockIngredient.quantity)).1
            || drawFails i rest
              (m.replenishStationIngredientFromBackup kitchenStation.name
                requiredIngredient.name
                (requiredIngredient.required_quantity - stockIngredient.quantity)).2
        else drawFails i rest m
      | none =>
        !(m.replenishStationIngredientFromBackup kitchenStation.name requiredIngredient.name
            requiredIngredient.required_quantity).1
          || drawFails i rest
            (m.replenishStationIngredientFromBackup kitchenStation.name
              requiredIngredient.name requiredIngredient.required_quantity).2

/-- Whether some station of a registry has a dish of that name among its
registered dishes. -/
def isRegistered (stations : List KitchenStation) (dish_name : String) : Bool :=
  stations.any (fun s => s.dishes.any (fun d => decide (d.name = dish_name)))

/-- What dispatch never changes of a registry: the names of the stations and
the dishes registered at each, in registry order. -/
def registrations (stations : List KitchenStation) : List (String × List Dish) :=
  stations.map (fun s => (s.name, s.dishes))

/-- A relation between the manager before and after that every step of the
per-order procedure respects: it is reflexive and transitive and holds across
each call of `replenishStationIngredientFromBackup` and each call of a
station's `prepareDish`. -/
structure DispatchInvariant (R : StationManager → StationManager → Prop) : Prop where
  refl : ∀ m, R m m
  trans : ∀ a b c, R a b → R b c → R a c
  draw : ∀ m station_name ingredient_name quantity,
    R m (m.replenishStationIngredientFromBackup station_name ingredient_name quantity).2
  prepare : ∀ m i dish_name, R m (prepareDishAt m i dish_name).2

/-- The quantity of an ingredient held in a pool: the sum of the quantities of
the records of that name. -/
def poolQuantity (pool : List Ingredient) (ingredient_name : String) : Int :=
  ((pool.filter (fun r => decide (r.name = ingredient_name))).map Ingredient.quantity).sum

/-- The total amount of an ingredient drawn from the backup pool by the
successful draws recorded in a draw history. -/
def drawnQuantity (log : List (String × Int)) (ingredient_name : String) : Int :=
  ((log.filter (fun e => decide (e.1 = ingredient_name))).map Prod.snd).sum

/-- No record of the pool has a negative quantity. -/
def NonNegative (pool : List Ingredient) : Prop := ∀ r ∈ pool, 0 ≤ r.quantity

/-- What a step of dispatch keeps of the backup pool: records stay
non-negative, and for every ingredient what is left in the pool plus what the
history says was drawn is constant. -/
def NoDoubleSpend (a b : StationManager) : Prop :=
  (NonNegative a.backup_ingredients → NonNegative b.backup_ingredients)
    ∧ ∀ n, poolQuantity b.backup_ingredients n + drawnQuantity b.draw_log n
        = poolQuantity a.backup_ingredients n + drawnQuantity a.draw_log n

/-- The quantity of an ingredient a recipe requires: the sum of the required
quantities of the recipe's entries of that name. -/
def requiredTotal (recipe : List Ingredient) (ingredient_name : String) : Int :=
  ((recipe.filter (fun r => decide (r.name = ingredient_name))).map
    Ingredient.required_quantity).sum

/-- The dish Soup, requiring Water 1. -/
def soup : Dish := ⟨"Soup", [⟨"Water", 0, 1, 10⟩]⟩

/-- The scenario of the spec: two stations registered for Soup; the first has
no Water and the backup pool has none either; the second holds Water 1. -/
def twoSoupStations : StationManager :=
  { stations := [⟨"Stove", [soup], []⟩, ⟨"Range", [soup], [⟨"Water", 1, 0, 10⟩]⟩]
    dish_queue := [soup]
    backup_ingredients := []
    draw_log := [] }

/-- The shortfall of a required ingredient versus a stock: required minus
on-hand when the on-hand quantity is below the requirement, the full required
amount when the stock has no record of the ingredient, and nothing when the
on-hand quantity covers the requirement. -/
def shortfall (stock : List Ingredient) (req : Ingredient) : Int :=
  match findStock stock req.name with
  | none => req.required_quantity
  | some r =>
    if r.quantity < req.required_quantity then req.required_quantity - r.quantity else 0

/-- No two records of a pool share a name. -/
def DistinctNames (pool : List Ingredient) : Prop := (pool.map Ingredient.name).Nodup

/-- A call of one of the four operations that write the backup pool. -/
inductive BackupOp where
  | addBackupIngredients (ingredients : List Ingredient)
  | addBackupIngredient (ingredient : Ingredient)
  | clearBackupIngredients
  | replenishStationIngredientFromBackup (station_name ingredient_name : String)
      (quantity : Int)

/-- The manager after one call of a backup operation. -/
def applyBackupOp (m : StationManager) : BackupOp → StationManager
  | BackupOp.addBackupIngredients ingredients => (m.addBackupIngredients ingredients).2
  | BackupOp.addBackupIngredient ingredient => (m.addBackupIngredient ingredient).2
  | BackupOp.clearBackupIngredients => m.clearBackupIngredients
  | BackupOp.replenishStationIngredientFromBackup station_name ingredient_name quantity =>
    (m.replenishStationIngredientFromBackup station_name ingredient_name quantity).2

/-- The manager after a sequence of calls of backup operations, in order. -/
def runBackupOps (m : StationManager) (ops : List BackupOp) : StationManager :=
  ops.foldl applyBackupOp m

/-- A pool holding Salt 4 and Pepper 2. -/
def saltAndPepper : List Ingredient := [⟨"Salt", 4, 1, 50⟩, ⟨"Pepper", 2, 1, 30⟩]

/-- The registry [A, B, C] of three newly constructed stations. -/
def registryABC : StationManager :=
  { stations := [KitchenStation.new "A", KitchenStation.new "B", KitchenStation.new "C"]
    dish_queue := []
    backup_ingredients := []
    draw_log := [] }

/-- No two stations of a registry have the same name. -/
def DistinctStationNames (stations : List KitchenStation) : Prop :=
  (stations.map KitchenStation.name).Nodup

/-- A call of one of the three operations that add, remove or merge stations. -/
inductive RegistryOp where
  | addStation (station : KitchenStation)
  | removeStation (station_name : String)
  | mergeStations (station_name1 station_name2 : String)

/-- The manager after one call of a registry operation. -/
def applyRegistryOp (m : StationManager) : RegistryOp → StationManager
  | RegistryOp.addStation station => (m.addStation station).2
  | RegistryOp.removeStation station_name => (m.removeStation station_name).2
  | RegistryOp.mergeStations station_name1 station_name2 =>
    (m.mergeStations station_name1 station_name2).2

/-- The manager after a sequence of calls of registry operations, in order. -/
def runRegistryOps (m : StationManager) (ops : List RegistryOp) : StationManager :=
  ops.foldl applyRegistryOp m

/-- Every `addStation` call of the sequence adds a station whose name no
station of the registry has at the time of the call. -/
def FreshAdds : StationManager → List RegistryOp → Prop
  | _, [] => True
  | m, op :: rest =>
    (match op with
      | RegistryOp.addStation station => ∀ x ∈ m.stations, x.name ≠ station.name
      | _ => True)
    ∧ FreshAdds (applyRegistryOp m op) rest

/-- The registry A, B, C in which A stocks Salt 2 and B stocks Salt 3 and
Pepper 1 and has the dish Soup registered. -/
def registryToMerge : StationManager :=
  { stations :=
      [{ name := "A", dishes := [], ingredients_stock := [⟨"Salt", 2, 0, 1⟩] },
       { name := "B", dishes := [soup],
         ingredients_stock := [⟨"Salt", 3, 0, 1⟩, ⟨"Pepper", 1, 0, 1⟩] },
       KitchenStation.new "C"]
    dish_queue := []
    backup_ingredients := []
    draw_log := [] }

/-- Every recipe held in a subtree satisfies a property. -/
def BinaryNode.All (p : Recipe → Prop) : BinaryNode → Prop
  | BinaryNode.nil => True
  | BinaryNode.node left item right => BinaryNode.All p left ∧ p item ∧ BinaryNode.All p right

/-- A recipe tree ordered by name: at every node the names in the left subtree
are smaller than the node's name and the names in the right subtree are
greater. -/
def OrderedByName : BinaryNode → Prop
  | BinaryNode.nil => True
  | BinaryNode.node left item right =>
    BinaryNode.All (fun r => r.name_ < item.name_) left
      ∧ BinaryNode.All (fun r => item.name_ < r.name_) right
      ∧ OrderedByName left ∧ OrderedByName right

/-- The height of a subtree: 0 for the null pointer. -/
def BinaryNode.height : BinaryNode → Nat
  | BinaryNode.nil => 0
  | BinaryNode.node left _ right => 1 + max left.height right.height

/-- A height-balanced tree: at every node the heights of the left and right
subtrees differ by at most 1. -/
def HeightBalanced : BinaryNode → Prop
  | BinaryNode.nil => True
  | BinaryNode.node left _ right =>
    (left.height ≤ right.height + 1 ∧ right.height ≤ left.height + 1)
      ∧ HeightBalanced left ∧ HeightBalanced right

/-- The number of recipes of a list that are not mastered and have a strictly
lower difficulty level than a given one. -/
def unmasteredBelow (recipes : List Recipe) (difficulty_level : Int) : Nat :=
  recipes.countP (fun r => decide (r.difficulty_level_ < difficulty_level) && !r.mastered_)

/-- A recipe with an empty description. -/
def recipeOf (name : String) (difficulty_level : Int) (mastered : Bool) : Recipe :=
  { name_ := name, difficulty_level_ := difficulty_level, description_ := "",
    mastered_ := mastered }

/-- A book of five recipes: Bread (1, not mastered), Cake (2, mastered),
Pasta (3, not mastered) at the root, Soup (2, not mastered), Tart (5, mastered). -/
def fiveRecipes : RecipeBook :=
  { root :=
      BinaryNode.node
        (BinaryNode.node (BinaryNode.node BinaryNode.nil (recipeOf "Bread" 1 false) BinaryNode.nil)
          (recipeOf "Cake" 2 true) BinaryNode.nil)
        (recipeOf "Pasta" 3 false)
        (BinaryNode.node (BinaryNode.node BinaryNode.nil (recipeOf "Soup" 2 false) BinaryNode.nil)
          (recipeOf "Tart" 5 true) BinaryNode.nil) }

/-- A degenerate book: Bread, Cake, Pasta, Soup and Tart chained to the right. -/
def chainOfFive : RecipeBook :=
  { root :=
      BinaryNode.node BinaryNode.nil (recipeOf "Bread" 1 false)
        (BinaryNode.node BinaryNode.nil (recipeOf "Cake" 2 true)
          (BinaryNode.node BinaryNode.nil (recipeOf "Pasta" 3 false)
            (BinaryNode.node BinaryNode.nil (recipeOf "Soup" 2 false)
              (BinaryNode.node BinaryNode.nil (recipeOf "Tart" 5 true) BinaryNode.nil)))) }

namespace Part3

/-- The dishes currently in a bag, slot by slot: `items_[0]` up to
`items_[getCurrentSize() - 1]`. -/
def ArrayBagOps.toList {Bag : Type} (ops : ArrayBagOps Bag) (bag : Bag) : List Dish :=
  (List.range (ops.getCurrentSize bag)).map (ops.items_ bag)

/-- Modelled from the spec: what `Kitchen.cpp` relies on of `ArrayBag<Dish>`
and of the `operator==` of `Dish` (neither header is among the sources);
`same x d` stands for `x == d`, with x a dish in the bag and d the argument.
A dish equals itself.  A new bag is empty; a refused `add` leaves the bag as
it was and an accepted one adds the dish to the dishes in the bag; `remove` of
a dish that no dish in the bag equals returns false and leaves the bag as it
was; otherwise `remove` returns true and takes out the first dish that equals
its argument, the slots before that one keeping their dishes and the dishes
after it staying in the bag, in some order. -/
structure LawfulBag {Bag : Type} (same : Dish → Dish → Prop) (ops : ArrayBagOps Bag) :
    Prop where
  same_refl : ∀ d, same d d
  init_size : ops.getCurrentSize ops.init = 0
  add_false : ∀ bag d, (ops.add bag d).1 = false → (ops.add bag d).2 = bag
  add_true : ∀ bag d, (ops.add bag d).1 = true →
    (ops.toList (ops.add bag d).2).Perm (d :: ops.toList bag)
  remove_absent : ∀ bag d, (∀ x ∈ ops.toList bag, ¬ same x d) → ops.remove bag d = (false, bag)
  remove_first : ∀ bag d pre x post, ops.toList bag = pre ++ x :: post → same x d →
    (∀ y ∈ pre, ¬ same y d) →
    (ops.remove bag d).1 = true
      ∧ ∃ post', ops.toList (ops.remove bag d).2 = pre ++ post' ∧ post'.Perm post

/-- An elaborate dish: 5 or more ingredients and a preparation time of an hour
or more. -/
def Dish.isElaborate (d : Dish) : Bool :=
  decide (d.ingredients_.length ≥ 5) && decide (d.prep_time_ ≥ 60)

/-- The sum of the preparation times of the dishes of a list. -/
def prepTimeSum (dishes : List Dish) : Int := (dishes.map Dish.getPrepTime).sum

/-- The two private members of a kitchen agree with the dishes in its bag. -/
def Kitchen.Consistent {Bag : Type} (ops : ArrayBagOps Bag) (k : Kitchen Bag) : Prop :=
  k.getPrepTimeSum = prepTimeSum (ops.toList k.bag)
    ∧ k.elaborateDishCount = ((ops.toList k.bag).countP Dish.isElaborate : Nat)

/-- The two private members of a kitchen agree with the dishes in its bag as
far as an `int` can: each holds the 32-bit representative of its value. -/
def Kitchen.ConsistentAsInt {Bag : Type} (ops : ArrayBagOps Bag) (k : Kitchen Bag) : Prop :=
  k.getPrepTimeSum = wrapInt (prepTimeSum (ops.toList k.bag))
    ∧ k.elaborateDishCount
        = wrapInt (((ops.toList k.bag).countP Dish.isElaborate : Nat) : Int)

/-- A call of `newOrder` or of `serveDish` with a dish of the caller. -/
inductive KitchenOp where
  | newOrder (dish : Dish)
  | serveDish (dish : Dish)

/-- The kitchen after a call. -/
def applyKitchenOp {Bag : Type} (ops : ArrayBagOps Bag) (k : Kitchen Bag) :
    KitchenOp → Kitchen Bag
  | KitchenOp.newOrder dish => (k.newOrder ops dish).2
  | KitchenOp.serveDish dish => (k.serveDish ops (fun _ => dish)).2

/-- The kitchen after a sequence of calls. -/
def runKitchenOps {Bag : Type} (ops : ArrayBagOps Bag) (k : Kitchen Bag)
    (calls : List KitchenOp) : Kitchen Bag :=
  calls.foldl (applyKitchenOp ops) k

/-- The seven cuisine names `getCuisineType` can return. -/
def cuisineNames : List String :=
  ["ITALIAN", "MEXICAN", "CHINESE", "INDIAN", "AMERICAN", "FRENCH", "OTHER"]

/-- A dish with no ingredient and price 0. -/
def plainDish (name : String) (prep_time : Int) (cuisine_type : CuisineType) : Dish :=
  { name_ := name, ingredients_ := [], prep_time_ := prep_time, price_ := 0,
    cuisine_type_ := cuisine_type }

/-- A dish with five ingredients and price 0. -/
def richDish (name : String) (prep_time : Int) (cuisine_type : CuisineType) : Dish :=
  { name_ := name, ingredients_ := ["a", "b", "c", "d", "e"], prep_time_ := prep_time,
    price_ := 0, cuisine_type_ := cuisine_type }

/-- The dish Pizza: Italian, 10 minutes, no ingredient listed. -/
def pizza : Dish := plainDish "Pizza" 10 CuisineType.ITALIAN

/-- The dish Mole: Mexican, 100 minutes, five ingredients. -/
def mole : Dish := richDish "Mole" 100 CuisineType.MEXICAN

/-- The dish Stew: French, 90 minutes, five ingredients. -/
def stew : Dish := richDish "Stew" 90 CuisineType.FRENCH

/-- The dish Feast: 2147483647 minutes, no ingredient listed. -/
def feast : Dish := plainDish "Feast" 2147483647 CuisineType.OTHER

/-- The dish Toast: 1 minute, no ingredient listed. -/
def toast : Dish := plainDish "Toast" 1 CuisineType.OTHER

/-- The kitchen over the array-based bag with room for ten dishes after
`newOrder` was called with each dish of a list in turn. -/
def kitchenOf (dishes : List Dish) : Kitchen ArrayBag :=
  runKitchenOps (arrayBagOps 10) (Kitchen.new (arrayBagOps 10))
    (dishes.map KitchenOp.newOrder)

end Part3

/-- The dish Chicken with the recipe Salt 5, Pepper 3. -/
def chickenSaltPepper : Dish := ⟨"Chicken", [⟨"Salt", 0, 5, 1⟩, ⟨"Pepper", 0, 3, 1⟩]⟩

/-- The station Grill registers Chicken (Salt 5, Pepper 3) and stocks Salt 1 and
Pepper 0; the backup pool holds Pepper 3 and no Salt; Chicken is ordered. -/
def grillSaltFailsFirst : StationManager :=
  { stations := [⟨"Grill", [chickenSaltPepper], [⟨"Salt", 1, 0, 1⟩, ⟨"Pepper", 0, 0, 1⟩]⟩]
    dish_queue := [chickenSaltPepper]
    backup_ingredients := [⟨"Pepper", 3, 0, 1⟩]
    draw_log := [] }

/-- The dish Chicken with the recipe Pepper 3, Salt 5. -/
def chickenPepperSalt : Dish := ⟨"Chicken", [⟨"Pepper", 0, 3, 1⟩, ⟨"Salt", 0, 5, 1⟩]⟩

/-- The station Grill registers Chicken (Pepper 3, Salt 5) and has an empty
stock; the backup pool holds Pepper 3 and no Salt; Chicken is ordered. -/
def grillEmptyStock : StationManager :=
  { stations := [⟨"Grill", [chickenPepperSalt], []⟩]
    dish_queue := [chickenPepperSalt]
    backup_ingredients := [⟨"Pepper", 3, 0, 1⟩]
    draw_log := [] }

/-- The second manager is reached from the first by calls of
`replenishStationIngredientFromBackup` alone: no station has prepared a dish
in between. -/
inductive DrawsOnly : StationManager → StationManager → Prop where
  | refl (m : StationManager) : DrawsOnly m m
  | draw (m m' : StationManager) (station_name ingredient_name : String) (quantity : Int) :
      DrawsOnly m m' →
      DrawsOnly m
        (m'.replenishStationIngredientFromBackup station_name ingredient_name quantity).2

/-- Every station of the registry registers each dish name at most once. -/
def DishesOnce (stations : List KitchenStation) : Prop :=
  ∀ s ∈ stations, (s.dishes.map Dish.name).Nodup

/-- Three stations: Counter registers no dish, Range registers Soup (Water 1)
and has no Water, Oven registers Soup and holds Water 1; the backup pool holds
Water 1.  Soup is ordered. -/
def threeSoupStations : StationManager :=
  { stations := [⟨"Counter", [], []⟩, ⟨"Range", [soup], []⟩,
      ⟨"Oven", [soup], [⟨"Water", 1, 0, 10⟩]⟩]
    dish_queue := [soup]
    backup_ingredients := [⟨"Water", 1, 0, 10⟩]
    draw_log := [] }

/-- A value that an `int` can hold. -/
def IntRange (x : Int) : Prop := -2147483648 ≤ x ∧ x ≤ 2147483647

/-- Station Grill registered for Chicken (Salt 1) with no stock, the order
Chicken queued, and a backup pool with two records named Salt, of quantity 1
each (told apart by their price). -/
def grillWithTwoSaltRecords : StationManager :=
  { stations := [⟨"Grill", [⟨"Chicken", [⟨"Salt", 0, 1, 50⟩]⟩], []⟩]
    dish_queue := [⟨"Chicken", [⟨"Salt", 0, 1, 50⟩]⟩]
    backup_ingredients := [⟨"Salt", 1, 1, 50⟩, ⟨"Salt", 1, 1, 60⟩]
    draw_log := [] }

/-- The dish Chicken with a recipe that lists Salt three times: 3, 2 and 3. -/
def chickenSaltThrice : Dish :=
  ⟨"Chicken", [⟨"Salt", 0, 3, 1⟩, ⟨"Salt", 0, 2, 1⟩, ⟨"Salt", 0, 3, 1⟩]⟩

/-- Station Grill registers Chicken (Salt 3, Salt 2, Salt 3) and stocks Salt 0;
the backup pool holds two records named Salt, of quantity 2 each; Chicken is
ordered. -/
def grillSaltThrice : StationManager :=
  { stations := [⟨"Grill", [chickenSaltThrice], [⟨"Salt", 0, 0, 1⟩]⟩]
    dish_queue := [chickenSaltThrice]
    backup_ingredients := [⟨"Salt", 2, 0, 1⟩, ⟨"Salt", 2, 0, 1⟩]
    draw_log := [] }

/-- Whether a draw of a quantity of an ingredient from a backup pool can be
made: the pool has a record of that name holding at least the quantity. -/
def canDraw (pool : List Ingredient) (ingredient_name : String) (quantity : Int) : Bool :=
  pool.any (fun b => decide (b.name = ingredient_name ∧ b.quantity ≥ quantity))

/-- Whether every shortfall of a recipe versus a stock can be drawn from a
backup pool: for a required ingredient with a stock record, the on-hand
quantity covers the requirement or the shortage can be drawn; for one without
a stock record, the full required quantity can be drawn. -/
def coverable (stock pool recipe : List Ingredient) : Bool :=
  recipe.all (fun req =>
    match findStock stock req.name with
    | some r =>
      decide (req.required_quantity - r.quantity ≤ 0)
        || canDraw pool req.name (req.required_quantity - r.quantity)
    | none => canDraw pool req.name req.required_quantity)

/-- Whether the station at index `i` is capable of an order in a state of the
manager: it is registered for the dish and either can complete it immediately
or can complete it after all its shortfalls are drawn from backup. -/
def capableAt (dish_name : String) (m : StationManager) (i : Nat) : Bool :=
  match m.stations[i]? with
  | none => false
  | some ks =>
    match ks.findDish dish_name with
    | none => false
    | some d =>
      ks.canCompleteOrder dish_name
        || coverable ks.ingredients_stock m.backup_ingredients d.ingredients

/-- The manager after the draws made for an order at the station at index `i`:
as it was when the station is not registered for the dish or can complete it
immediately, and otherwise after the replenishment loop of that station. -/
def afterReplenishment (dish_name : String) (m : StationManager) (i : Nat) : StationManager :=
  match m.stations[i]? with
  | none => m
  | some ks =>
    match ks.findDish dish_name with
    | none => m
    | some d =>
      if ks.canCompleteOrder dish_name then m else replenishRequired i d.ingredients m

/-- The manager after the stations at the given indices were tried in turn
for an order without preparing it: each keeps what was drawn for it. -/
def passOver (dish_name : String) : List Nat → StationManager → StationManager
  | [], m => m
  | i :: later, m => passOver dish_name later (afterReplenishment dish_name m i)

/-- Every recipe registered at a station lists each ingredient once. -/
def RecipesOnce (stations : List KitchenStation) : Prop :=
  ∀ s ∈ stations, ∀ d ∈ s.dishes, (d.ingredients.map Ingredient.name).Nodup

/-- Two stations both named Grill: the first registers no dish, the second
registers Soup (Water 1); neither has stock; the backup pool holds Water 1;
Soup is ordered. -/
def twoGrills : StationManager :=
  { stations := [⟨"Grill", [], []⟩, ⟨"Grill", [soup], []⟩]
    dish_queue := [soup]
    backup_ingredients := [⟨"Water", 1, 0, 10⟩]
    draw_log := [] }

/-- A registry with no station and a queue holding the one order "X". -/
def emptyRegistryWithX : StationManager :=
  { stations := [], dish_queue := [⟨"X", []⟩], backup_ingredients := [], draw_log := [] }

/-- A manager whose only station, Grill, is registered for Chicken (Salt 1) and
has no stock; nothing is in the backup pool; Chicken and X are queued. -/
def grillWithoutSalt : StationManager :=
  { stations := [⟨"Grill", [⟨"Chicken", [⟨"Salt", 0, 1, 50⟩]⟩], []⟩]
    dish_queue := [⟨"Chicken", [⟨"Salt", 0, 1, 50⟩]⟩, ⟨"X", []⟩]
    backup_ingredients := []
    draw_log := [] }

/-- The dishes queued by `testProcessAllDishes` in `main.cpp`. -/
def testDishes : List Dish :=
  [ ⟨"Grilled Chicken", [⟨"Chicken", 1, 1, 500⟩, ⟨"Salt", 1, 1, 50⟩]⟩,
    ⟨"Beef Wellington", [⟨"Beef", 2, 2, 1000⟩, ⟨"Pastry", 1, 1, 200⟩]⟩,
    ⟨"Vegan Salad", [⟨"Lettuce", 1, 1, 50⟩, ⟨"Tomato", 1, 1, 50⟩]⟩,
    ⟨"Unknown Dish", [⟨"Mystery", 1, 1, 500⟩]⟩ ]

/-- The stations of `testProcessAllDishes` with the stock the test gives them
through `replenishStationIngredients`; the test registers no dish at any of
them. -/
def testStations : List KitchenStation :=
  [ ((KitchenStation.new "Grill Station").replenishStationIngredients
        ⟨"Chicken", 1, 1, 500⟩).replenishStationIngredients ⟨"Salt", 1, 1, 50⟩,
    (KitchenStation.new "Oven Station").replenishStationIngredients ⟨"Beef", 2, 2, 1000⟩,
    ((KitchenStation.new "Salad Station").replenishStationIngredients
        ⟨"Lettuce", 1, 1, 50⟩).replenishStationIngredients ⟨"Tomato", 1, 1, 50⟩,
    KitchenStation.new "Pasta Station" ]

/-- The manager `testProcessAllDishes` has built when it calls
`processAllDishes`: four `addStation` calls, four `addDishToQueue` calls and
one `addBackupIngredients` call with the six-ingredient batch. -/
def testProcessAllDishesSetup : StationManager :=
  let withStations := testStations.foldl (fun m s => (m.addStation s).2) StationManager.new
  let withQueue := testDishes.foldl (fun m d => (m.addDishToQueue (some d)).2) withStations
  (withQueue.addBackupIngredients
    [ ⟨"Chicken", 1, 1, 500⟩, ⟨"Salt", 1, 1, 50⟩, ⟨"Beef", 2, 2, 1000⟩,
      ⟨"Pastry", 1, 1, 200⟩, ⟨"Lettuce", 1, 1, 50⟩, ⟨"Tomato", 1, 1, 50⟩ ]).2

/-- The scenario of the spec: station Grill registered for Chicken (Salt 1)
with no stock, Salt 1 in the backup pool and the order Chicken queued. -/
def grillWithBackupSalt : StationManager :=
  { stations := [⟨"Grill", [⟨"Chicken", [⟨"Salt", 0, 1, 50⟩]⟩], []⟩]
    dish_queue := [⟨"Chicken", [⟨"Salt", 0, 1, 50⟩]⟩]
    backup_ingredients := [⟨"Salt", 1, 1, 50⟩]
    draw_log := [] }

/-! ## The pass keeps exactly the unprepared orders -/

theorem keepUnprepared_sublist (queue : List Dish) (flags : List Bool) :
    (keepUnprepared queue flags).Sublist queue := by
  induction queue generalizing flags with
  | nil => simp [keepUnprepared]
  | cons dish rest ih =>
    cases flags with
    | nil => simp [keepUnprepared]
    | cons flag flags =>
      cases flag
      · simpa [keepUnprepared] using (ih flags).cons₂ dish
      · simpa [keepUnprepared] using (ih flags).cons dish

theorem passFlags_length (queue : List Dish) (m : StationManager) :
    (passFlags queue m).length = queue.length := by
  induction queue generalizing m with
  | nil => rfl
  | cons dish rest ih => simp [passFlags, ih]

theorem processQueue_unprepared (queue : List Dish) (m : StationManager)
    (unPreparedDishes : List Dish) :
    (processQueue queue m unPreparedDishes).2
      = unPreparedDishes ++ keepUnprepared queue (passFlags queue m) := by
  induction queue generalizing m unPreparedDishes with
  | nil => simp [processQueue, passFlags, keepUnprepared]
  | cons dish rest ih =>
    rcases h : processDish m dish with ⟨m', flag⟩
    cases flag <;> simp [processQueue, passFlags, keepUnprepared, h, ih]

theorem processAllDishes_dish_queue (m : StationManager) :
    m.processAllDishes.dish_queue = (processQueue m.dish_queue m []).2 := rfl

/-- C1: after one `processAllDishes` pass the dish queue is the original queue
with the prepared orders filtered out: it consists of exactly the orders whose
per-order procedure did not prepare them (one outcome flag per order of the
original queue), each once and in their original relative order. -/
theorem processAllDishes_stable_filter (m : StationManager) :
    m.processAllDishes.dish_queue = keepUnprepared m.dish_queue (passFlags m.dish_queue m)
      ∧ (passFlags m.dish_queue m).length = m.dish_queue.length
      ∧ m.processAllDishes.dish_queue
          = ((m.dish_queue.zip (passFlags m.dish_queue m)).filter (fun p => !p.2)).map Prod.fst
      ∧ m.processAllDishes.dish_queue.Sublist m.dish_queue := by
  have h : m.processAllDishes.dish_queue
      = keepUnprepared m.dish_queue (passFlags m.dish_queue m) := by
    rw [processAllDishes_dish_queue, processQueue_unprepared]; rfl
  refine ⟨h, passFlags_length _ _, ?_, h ▸ keepUnprepared_sublist _ _⟩
  rw [h]
  generalize passFlags m.dish_queue m = flags
  generalize m.dish_queue = queue
  induction queue generalizing flags with
  | nil => simp [keepUnprepared]
  | cons dish rest ih =>
    cases flags with
    | nil => simp [keepUnprepared]
    | cons flag flags => cases flag <;> simp [keepUnprepared, ih]

/-! ## What dispatch leaves alone -/

theorem map_set_of_eq {α β : Type} (f : α → β) (l : List α) (i : Nat) (a b : α)
    (h : l[i]? = some a) (hf : f b = f a) : (l.set i b).map f = l.map f := by
  induction l generalizing i with
  | nil => simp
  | cons x xs ih =>
    cases i with
    | zero =>
      simp only [List.getElem?_cons_zero, Option.some.injEq] at h
      simp [h, hf]
    | succ j =>
      simp only [List.getElem?_cons_succ] at h
      simp [ih j h]

theorem prepareDish_frame (s : KitchenStation) (dish_name : String) :
    (s.prepareDish dish_name).2.name = s.name
      ∧ (s.prepareDish dish_name).2.dishes = s.dishes := by
  unfold KitchenStation.prepareDish
  split
  · split <;> simp
  · simp

theorem registrations_replenishAtStation (station_name : String) (ing : Ingredient)
    (stations : List KitchenStation) :
    registrations (replenishAtStation station_name ing stations) = registrations stations := by
  induction stations with
  | nil => rfl
  | cons s rest ih =>
    unfold replenishAtStation
    split
    · simp [registrations, KitchenStation.replenishStationIngredients]
    · simpa [registrations] using ih

theorem replenish_frame (m : StationManager) (station_name ingredient_name : String)
    (quantity : Int) :
    registrations (m.replenishStationIngredientFromBackup station_name ingredient_name
        quantity).2.stations = registrations m.stations
      ∧ (m.replenishStationIngredientFromBackup station_name ingredient_name
        quantity).2.dish_queue = m.dish_queue := by
  unfold StationManager.replenishStationIngredientFromBackup
  split
  · simp
  · split
    · simp
    · simp [registrations_replenishAtStation]

theorem prepareDishAt_frame (m : StationManager) (i : Nat) (dish_name : String) :
    registrations (prepareDishAt m i dish_name).2.stations = registrations m.stations
      ∧ (prepareDishAt m i dish_name).2.dish_queue = m.dish_queue := by
  unfold prepareDishAt
  split
  · simp
  · next st h =>
    refine ⟨?_, rfl⟩
    exact map_set_of_eq _ _ _ _ _ h (by
      rw [(prepareDish_frame st dish_name).1, (prepareDish_frame st dish_name).2])

theorem replenishRequired_invariant {R : StationManager → StationManager → Prop}
    (hR : DispatchInvariant R) (i : Nat) (reqs : List Ingredient) (m : StationManager) :
    R m (replenishRequired i reqs m) := by
  induction reqs generalizing m with
  | nil => exact hR.refl m
  | cons req rest ih =>
    unfold replenishRequired
    split
    · exact hR.refl m
    · next ks _ =>
      split
      · next stockIngredient _ =>
        simp only
        split
        · exact hR.trans _ _ _ (hR.draw m ks.name req.name
            (req.required_quantity - stockIngredient.quantity)) (ih _)
        · exact ih m
      · have h1 := hR.draw m ks.name req.name req.required_quantity
        split
        · next m' hm' =>
          rw [hm'] at h1
          exact hR.trans _ _ _ h1 (ih m')
        · next m' hm' =>
          rw [hm'] at h1
          exact h1

theorem dishLoop_invariant {R : StationManager → StationManager → Prop}
    (hR : DispatchInvariant R) (dish_name : String) (i : Nat) (ds : List Dish)
    (m : StationManager) (isPrepared : Bool) :
    R m (dishLoop dish_name i ds (m, isPrepared)).1 := by
  induction ds generalizing m isPrepared with
  | nil => exact hR.refl m
  | cons d rest ih =>
    unfold dishLoop
    split
    · split
      · exact hR.refl m
      · next ks _ =>
        split
        · have h1 := hR.prepare m i dish_name
          split
          · next m' hm' =>
            rw [hm'] at h1
            exact hR.trans _ _ _ h1 (ih m' true)
          · next m' hm' =>
            rw [hm'] at h1
            exact hR.trans _ _ _ h1 (ih m' isPrepared)
        · have h0 := replenishRequired_invariant hR i d.ingredients m
          have h1 := hR.prepare (replenishRequired i d.ingredients m) i dish_name
          split
          · next m' hm' =>
            rw [hm'] at h1
            exact hR.trans _ _ _ h0 h1
          · next m' hm' =>
            rw [hm'] at h1
            exact hR.trans _ _ _ (hR.trans _ _ _ h0 h1) (ih m' isPrepared)
    · exact ih m isPrepared

theorem stationLoop_invariant {R : StationManager → StationManager → Prop}
    (hR : DispatchInvariant R) (dish_name : String) (later : List Nat) (m : StationManager) :
    R m (stationLoop dish_name later m).1 := by
  induction later generalizing m with
  | nil => exact hR.refl m
  | cons i later ih =>
    unfold stationLoop
    split
    · exact hR.refl m
    · next ks _ =>
      have h1 := dishLoop_invariant hR dish_name i ks.dishes m false
      split
      · next m' hm' =>
        rw [hm'] at h1
        exact h1
      · next m' hm' =>
        rw [hm'] at h1
        exact hR.trans _ _ _ h1 (ih m')

theorem processDish_invariant {R : StationManager → StationManager → Prop}
    (hR : DispatchInvariant R) (m : StationManager) (dish : Dish) :
    R m (processDish m dish).1 :=
  stationLoop_invariant hR _ _ _

theorem processQueue_invariant {R : StationManager → StationManager → Prop}
    (hR : DispatchInvariant R)
    (hpop : ∀ (m : StationManager) (queue : List Dish), R m { m with dish_queue := queue })
    (queue : List Dish) (m : StationManager) (unPreparedDishes : List Dish) :
    R m (processQueue queue m unPreparedDishes).1 := by
  induction queue generalizing m unPreparedDishes with
  | nil => exact hR.refl m
  | cons dish rest ih =>
    have h1 := processDish_invariant hR m dish
    rcases hp : processDish m dish with ⟨m', flag⟩
    rw [hp] at h1
    cases flag
    · simp only [processQueue, hp]
      exact hR.trans _ _ _ (hR.trans _ _ _ h1 (hpop m' rest)) (ih _ _)
    · simp only [processQueue, hp]
      exact hR.trans _ _ _ (hR.trans _ _ _ h1 (hpop m' rest)) (ih _ _)

theorem processAllDishes_invariant {R : StationManager → StationManager → Prop}
    (hR : DispatchInvariant R)
    (hpop : ∀ (m : StationManager) (queue : List Dish), R m { m with dish_queue := queue })
    (m : StationManager) : R m m.processAllDishes :=
  hR.trans _ _ _ (processQueue_invariant hR hpop m.dish_queue m []) (hpop _ _)

theorem frame_invariant :
    DispatchInvariant (fun a b =>
      registrations b.stations = registrations a.stations ∧ b.dish_queue = a.dish_queue) where
  refl _ := ⟨rfl, rfl⟩
  trans _ _ _ h1 h2 := ⟨h2.1.trans h1.1, h2.2.trans h1.2⟩
  draw m station_name ingredient_name quantity :=
    replenish_frame m station_name ingredient_name quantity
  prepare m i dish_name := prepareDishAt_frame m i dish_name

theorem processDish_frame (m : StationManager) (dish : Dish) :
    registrations (processDish m dish).1.stations = registrations m.stations
      ∧ (processDish m dish).1.dish_queue = m.dish_queue :=
  processDish_invariant frame_invariant m dish

/-! ## Orders no station is registered for -/

theorem isRegistered_eq_of_registrations (stations stations' : List KitchenStation)
    (h : registrations stations' = registrations stations) (dish_name : String) :
    isRegistered stations' dish_name = isRegistered stations dish_name := by
  have key : ∀ l : List KitchenStation, isRegistered l dish_name
      = (registrations l).any (fun p => p.2.any (fun d => decide (d.name = dish_name))) := by
    intro l
    induction l with
    | nil => rfl
    | cons x xs ih => simp_all [isRegistered, registrations]
  rw [key, key, h]

theorem isRegistered_false_iff (stations : List KitchenStation) (dish_name : String) :
    isRegistered stations dish_name = false
      ↔ ∀ s ∈ stations, ∀ d ∈ s.dishes, d.name ≠ dish_name := by
  simp [isRegistered]

theorem dishLoop_no_match (dish_name : String) (i : Nat) (ds : List Dish)
    (st : StationManager × Bool) (h : ∀ d ∈ ds, d.name ≠ dish_name) :
    dishLoop dish_name i ds st = st := by
  induction ds with
  | nil => simp [dishLoop]
  | cons d rest ih =>
    obtain ⟨m, isPrepared⟩ := st
    have hd : d.name ≠ dish_name := h d (List.mem_cons_self _ _)
    unfold dishLoop
    rw [if_neg hd]
    exact ih (fun x hx => h x (List.mem_cons_of_mem _ hx))

theorem stationLoop_unregistered (dish_name : String) (later : List Nat) (m : StationManager)
    (h : isRegistered m.stations dish_name = false) :
    stationLoop dish_name later m = (m, false) := by
  rw [isRegistered_false_iff] at h
  induction later with
  | nil => simp [stationLoop]
  | cons i later ih =>
    unfold stationLoop
    split
    · rfl
    · next ks hks =>
      rw [dishLoop_no_match dish_name i ks.dishes (m, false)
        (h ks (List.getElem?_mem hks))]
      exact ih

theorem processDish_unregistered (m : StationManager) (dish : Dish)
    (h : isRegistered m.stations dish.name = false) : processDish m dish = (m, false) :=
  stationLoop_unregistered _ _ _ h

theorem processQueue_filter_unregistered (stations₀ : List KitchenStation) (queue : List Dish)
    (m : StationManager) (unPreparedDishes : List Dish)
    (hreg : registrations m.stations = registrations stations₀) :
    (processQueue queue m unPreparedDishes).2.filter
        (fun d => !isRegistered stations₀ d.name)
      = unPreparedDishes.filter (fun d => !isRegistered stations₀ d.name)
        ++ queue.filter (fun d => !isRegistered stations₀ d.name) := by
  induction queue generalizing m unPreparedDishes with
  | nil => simp [processQueue]
  | cons dish rest ih =>
    have hframe := (processDish_frame m dish).1
    by_cases hd : isRegistered stations₀ dish.name = false
    · have hm : isRegistered m.stations dish.name = false := by
        rw [isRegistered_eq_of_registrations _ _ hreg]; exact hd
      simp only [processQueue, processDish_unregistered m dish hm]
      have := ih { m with dish_queue := rest } (unPreparedDishes ++ [dish]) hreg
      simp [this, hd]
    · rcases hp : processDish m dish with ⟨m', flag⟩
      rw [hp] at hframe
      have hd' : isRegistered stations₀ dish.name = true := by simpa using hd
      have hreg' : registrations m'.stations = registrations stations₀ := hframe.trans hreg
      cases flag
      · simp only [processQueue, hp]
        have := ih { m' with dish_queue := rest } (unPreparedDishes ++ [dish]) hreg'
        simp [this, hd']
      · simp only [processQueue, hp]
        have := ih { m' with dish_queue := rest } unPreparedDishes hreg'
        simp [this, hd']

theorem processQueue_all_unregistered (queue : List Dish) (m : StationManager)
    (unPreparedDishes : List Dish)
    (h : ∀ d ∈ queue, isRegistered m.stations d.name = false) :
    (processQueue queue m unPreparedDishes).2 = unPreparedDishes ++ queue
      ∧ (processQueue queue m unPreparedDishes).1.stations = m.stations
      ∧ (processQueue queue m unPreparedDishes).1.backup_ingredients = m.backup_ingredients
      ∧ (processQueue queue m unPreparedDishes).1.draw_log = m.draw_log := by
  induction queue generalizing m unPreparedDishes with
  | nil => simp [processQueue]
  | cons dish rest ih =>
    simp only [processQueue, processDish_unregistered m dish (h dish (List.mem_cons_self _ _))]
    have := ih { m with dish_queue := rest } (unPreparedDishes ++ [dish])
      (fun d hd => h d (List.mem_cons_of_mem _ hd))
    simpa using this

/-- C2: an order whose dish name no station of the registry has among its
registered dishes is still in the queue after `processAllDishes` (the orders of
that kind are kept, each once and in order, whatever happens to the others);
and when this holds for every order of the queue, the pass changes nothing:
queue, backup pool, every station and the draw history are as before.  The
pass is a total function, so no error is raised. -/
theorem processAllDishes_unregistered_kept (m : StationManager) (dish : Dish)
    (hmem : dish ∈ m.dish_queue) (hdish : isRegistered m.stations dish.name = false) :
    dish ∈ m.processAllDishes.dish_queue
      ∧ m.processAllDishes.dish_queue.filter (fun d => !isRegistered m.stations d.name)
          = m.dish_queue.filter (fun d => !isRegistered m.stations d.name)
      ∧ ((∀ d ∈ m.dish_queue, isRegistered m.stations d.name = false)
          → m.processAllDishes = m) := by
  have hfilter : m.processAllDishes.dish_queue.filter
        (fun d => !isRegistered m.stations d.name)
      = m.dish_queue.filter (fun d => !isRegistered m.stations d.name) := by
    rw [processAllDishes_dish_queue, processQueue_filter_unregistered m.stations _ m [] rfl]
    simp
  refine ⟨?_, hfilter, ?_⟩
  · have : dish ∈ m.dish_queue.filter (fun d => !isRegistered m.stations d.name) := by
      simp [List.mem_filter, hmem, hdish]
    rw [← hfilter] at this
    exact (List.mem_filter.mp this).1
  · intro hall
    obtain ⟨h1, h2, h3, h4⟩ := processQueue_all_unregistered m.dish_queue m [] hall
    unfold StationManager.processAllDishes StationManager.setDishQueue
      StationManager.clearDishQueue
    rw [h1]
    cases m
    simp_all

/-- Witness for C2: the empty registry with the order X queued. -/
theorem processAllDishes_unregistered_kept_witness :
    (⟨"X", []⟩ : Dish) ∈ emptyRegistryWithX.dish_queue
      ∧ isRegistered emptyRegistryWithX.stations "X" = false
      ∧ emptyRegistryWithX.processAllDishes.dish_queue = [⟨"X", []⟩]
      ∧ emptyRegistryWithX.processAllDishes = emptyRegistryWithX :=
  ⟨by decide, by decide, by decide,
    (processAllDishes_unregistered_kept emptyRegistryWithX ⟨"X", []⟩ (by decide)
      (by decide)).2.2 (by decide)⟩

/-! ## Queueing and single-shot preparation -/

/-- C9: both `addDishToQueue` overloads signal `invalid_argument` for a null
dish handle and leave the manager (queue, registry, backup pool) as it was,
the second overload without invoking any dietary accommodation; for a non-null
dish the outcome is a normal return and the queue is the old queue with the
dish (after its accommodation, for the second overload) appended at the back,
the rest of the manager unchanged. -/
theorem addDishToQueue_null_or_appended {Request : Type} (accommodate : Request → Dish → Dish)
    (m : StationManager) (request : Request) :
    (∃ what, m.addDishToQueue none = (Outcome.invalid_argument what, m))
      ∧ (∃ what, m.addDishToQueueWithRequest accommodate none request
          = (Outcome.invalid_argument what, m, []))
      ∧ (∀ d : Dish, m.addDishToQueue (some d)
          = (Outcome.returned, { m with dish_queue := m.dish_queue ++ [d] }))
      ∧ (∀ d : Dish, m.addDishToQueueWithRequest accommodate (some d) request
          = (Outcome.returned,
              { m with dish_queue := m.dish_queue ++ [accommodate request d] }, [d])) :=
  ⟨⟨_, rfl⟩, ⟨_, rfl⟩, fun _ => rfl, fun _ => rfl⟩

theorem prepareDish_of_cannot (s : KitchenStation) (dish_name : String)
    (h : s.canCompleteOrder dish_name = false) : s.prepareDish dish_name = (false, s) := by
  simp [KitchenStation.prepareDish, h]

theorem prepareScan_none_can (dish_name : String) (stations : List KitchenStation)
    (h : ∀ s ∈ stations, s.canCompleteOrder dish_name = false) :
    prepareScan dish_name stations = (false, stations) := by
  induction stations with
  | nil => rfl
  | cons s rest ih =>
    have hrest := ih (fun x hx => h x (List.mem_cons_of_mem _ hx))
    simp [prepareScan, prepareDish_of_cannot s dish_name (h s (List.mem_cons_self _ _)), hrest]

/-- C10, counterexample: with an empty registry and the queue [X],
`prepareNextDish` returns false and the queue afterwards is still [X], not the
old queue without its front element; likewise with the station Grill
registered for Chicken but without Salt and the queue [Chicken, X]. -/
theorem prepareNextDish_failure_does_not_pop :
    (emptyRegistryWithX.dish_queue ≠ []
        ∧ emptyRegistryWithX.prepareNextDish.1 = false
        ∧ emptyRegistryWithX.prepareNextDish.2.dish_queue = [⟨"X", []⟩]
        ∧ emptyRegistryWithX.prepareNextDish.2.dish_queue ≠ emptyRegistryWithX.dish_queue.tail)
      ∧ (grillWithoutSalt.dish_queue ≠ []
        ∧ (∀ s ∈ grillWithoutSalt.stations, s.canCompleteOrder "Chicken" = false)
        ∧ grillWithoutSalt.prepareNextDish.1 = false
        ∧ grillWithoutSalt.prepareNextDish.2.dish_queue
            ≠ grillWithoutSalt.dish_queue.tail) := by
  decide

/-- C10, amended: `prepareNextDish` pops the front dish only when a station
prepares it.  On a non-empty queue a `true` result comes with the old queue
without its front element and a `false` result with the queue unchanged; and
when no station can complete the front dish the result is `false` and the
whole manager, the queue with the dish at its front included, is unchanged. -/
theorem prepareNextDish_failure_keeps_queue (m : StationManager) (dish : Dish)
    (rest : List Dish) (hqueue : m.dish_queue = dish :: rest) :
    (m.prepareNextDish.1 = true → m.prepareNextDish.2.dish_queue = rest)
      ∧ (m.prepareNextDish.1 = false → m.prepareNextDish.2.dish_queue = dish :: rest)
      ∧ ((∀ s ∈ m.stations, s.canCompleteOrder dish.name = false)
          → m.prepareNextDish = (false, m)) := by
  have hm : m = { m with dish_queue := dish :: rest } := by
    cases m; simp_all
  unfold StationManager.prepareNextDish
  rw [hqueue]
  refine ⟨?_, ?_, ?_⟩
  · rcases h : prepareScan dish.name m.stations with ⟨flag, stations'⟩
    cases flag <;> simp [h]
  · rcases h : prepareScan dish.name m.stations with ⟨flag, stations'⟩
    cases flag <;> simp [h]
  · intro hnone
    simp only [prepareScan_none_can dish.name m.stations hnone]
    rw [← hm]

/-- Witness for the amended C10: Grill cannot complete Chicken, nothing changes. -/
theorem prepareNextDish_failure_keeps_queue_witness :
    grillWithoutSalt.prepareNextDish = (false, grillWithoutSalt) :=
  (prepareNextDish_failure_keeps_queue grillWithoutSalt ⟨"Chicken", [⟨"Salt", 0, 1, 50⟩]⟩
    [⟨"X", []⟩] rfl).2.2 (by decide)

/-! ## The repository's own test of the pass -/

/-- C5: on the manager built by `testProcessAllDishes`, where no dish was
registered at any station, `processAllDishes` prepares nothing: all four
orders are still queued, in order, so the queue has four elements and its
front is Grilled Chicken, not the single Unknown Dish the test asserts. -/
theorem testProcessAllDishes_queue_after_pass :
    testProcessAllDishesSetup.processAllDishes.dish_queue.map Dish.name
        = ["Grilled Chicken", "Beef Wellington", "Vegan Salad", "Unknown Dish"]
      ∧ testProcessAllDishesSetup.processAllDishes.dish_queue.length = 4
      ∧ testProcessAllDishesSetup.processAllDishes = testProcessAllDishesSetup := by
  decide

/-! ## Drawing from the backup pool -/

theorem drawBackup_split (ingredient_name : String) (quantity : Int) (pre post : List Ingredient)
    (record : Ingredient)
    (hpre : ∀ x ∈ pre, ¬(x.name = ingredient_name ∧ x.quantity ≥ quantity))
    (hname : record.name = ingredient_name) (hquantity : record.quantity ≥ quantity) :
    drawBackup ingredient_name quantity (pre ++ record :: post)
      = some (record,
          pre ++ (if record.quantity - quantity = 0 then []
            else [{ record with quantity := record.quantity - quantity }]) ++ post) := by
  induction pre with
  | nil =>
    simp only [List.nil_append, drawBackup]
    rw [if_pos ⟨hname, hquantity⟩]
    split <;> simp
  | cons x xs ih =>
    have hx := hpre x (List.mem_cons_self _ _)
    rw [List.cons_append, drawBackup, if_neg hx,
      ih (fun y hy => hpre y (List.mem_cons_of_mem _ hy))]
    simp

theorem drawBackup_eq_none_iff (ingredient_name : String) (quantity : Int)
    (pool : List Ingredient) :
    drawBackup ingredient_name quantity pool = none
      ↔ ∀ x ∈ pool, x.name = ingredient_name → x.quantity < quantity := by
  induction pool with
  | nil => simp [drawBackup]
  | cons x xs ih =>
    unfold drawBackup
    split
    · next h =>
      simp only [reduceCtorEq, List.mem_cons, forall_eq_or_imp, false_iff, not_and]
      intro hx
      exact absurd (hx h.1) (not_lt.mpr h.2)
    · next h =>
      have hx : x.name = ingredient_name → x.quantity < quantity := fun hn =>
        lt_of_not_ge (fun hq => h ⟨hn, hq⟩)
      cases hd : drawBackup ingredient_name quantity xs with
      | none =>
        have := ih.mp hd
        simp only [List.mem_cons, forall_eq_or_imp, true_iff]
        exact ⟨hx, this⟩
      | some r =>
        simp only [reduceCtorEq, List.mem_cons, forall_eq_or_imp, false_iff, not_and]
        intro _ hall
        have := ih.mpr hall
        simp [hd] at this

theorem split_of_mem_nodup_names (pool : List Ingredient) (record : Ingredient)
    (hdistinct : (pool.map Ingredient.name).Nodup) (hmem : record ∈ pool) :
    ∃ pre post, pool = pre ++ record :: post
      ∧ (∀ x ∈ pre, x.name ≠ record.name) ∧ (∀ x ∈ post, x.name ≠ record.name) := by
  obtain ⟨pre, post, rfl⟩ := List.append_of_mem hmem
  refine ⟨pre, post, rfl, ?_, ?_⟩
  · intro x hx hxn
    rw [List.map_append, List.map_cons, List.nodup_append] at hdistinct
    exact hdistinct.2.2 (List.mem_map_of_mem _ hx) (hxn ▸ List.mem_cons_self _ _)
  · intro x hx hxn
    rw [List.map_append, List.map_cons, List.nodup_append, List.nodup_cons] at hdistinct
    exact hdistinct.2.1.1 (hxn ▸ List.mem_map_of_mem _ hx)

/-- C7: `replenishStationIngredientFromBackup` returns false exactly when the
station name is not in the registry or the backup pool has no record of the
given name whose quantity reaches the requested one (no record of that name at
all, or only with a smaller quantity); in every other case it returns true.
Whenever it returns false the manager, backup pool and every station's stock
included, is unchanged. -/
theorem replenishFromBackup_failure (m : StationManager)
    (station_name ingredient_name : String) (quantity : Int) :
    ((m.replenishStationIngredientFromBackup station_name ingredient_name quantity).1 = false
        ↔ (m.findStation station_name = none
            ∨ ∀ x ∈ m.backup_ingredients, x.name = ingredient_name → x.quantity < quantity))
      ∧ ((m.replenishStationIngredientFromBackup station_name ingredient_name quantity).1 = true
        ↔ ((∃ station, m.findStation station_name = some station)
            ∧ ∃ x ∈ m.backup_ingredients, x.name = ingredient_name ∧ quantity ≤ x.quantity))
      ∧ ((m.replenishStationIngredientFromBackup station_name ingredient_name quantity).1 = false
        → (m.replenishStationIngredientFromBackup station_name ingredient_name quantity).2
            = m) := by
  have hnone := drawBackup_eq_none_iff ingredient_name quantity m.backup_ingredients
  unfold StationManager.replenishStationIngredientFromBackup
  cases hs : m.findStation station_name with
  | none => simp
  | some station =>
    cases hd : drawBackup ingredient_name quantity m.backup_ingredients with
    | none =>
      have hall := hnone.mp hd
      simp only [reduceCtorEq, false_or, true_iff, Bool.false_eq_true, false_iff, not_and,
        not_exists, implies_true, and_true]
      refine ⟨hall, ?_⟩
      intro _ x hx hxn
      exact not_le.mpr (hall x hx hxn)
    | some r =>
      have hsome : ¬ ∀ x ∈ m.backup_ingredients, x.name = ingredient_name →
          x.quantity < quantity := fun hall => by
        have := hnone.mpr hall
        simp [hd] at this
      simp only [reduceCtorEq, false_or, Bool.true_eq_false, false_iff, true_iff,
        Option.some.injEq, exists_eq', true_and, false_imp_iff, and_true]
      refine ⟨hsome, ?_⟩
      by_contra hcon
      apply hsome
      intro x hx hxn
      by_contra hlt
      exact hcon ⟨x, hx, hxn, not_lt.mp hlt⟩

/-- Witness for C7: a draw of Salt from an empty pool fails and changes nothing. -/
theorem replenishFromBackup_failure_witness :
    (grillWithoutSalt.replenishStationIngredientFromBackup "Grill" "Salt" 1).2
      = grillWithoutSalt :=
  (replenishFromBackup_failure grillWithoutSalt "Grill" "Salt" 1).2.2 (by decide)

/-! ## No double spending of the backup pool -/

theorem poolQuantity_cons (r : Ingredient) (pool : List Ingredient) (n : String) :
    poolQuantity (r :: pool) n = (if r.name = n then r.quantity else 0) + poolQuantity pool n := by
  unfold poolQuantity
  by_cases h : r.name = n <;> simp [List.filter_cons, h]

theorem drawnQuantity_append_single (log : List (String × Int)) (name n : String) (q : Int) :
    drawnQuantity (log ++ [(name, q)]) n = drawnQuantity log n + (if name = n then q else 0) := by
  unfold drawnQuantity
  by_cases h : name = n <;> simp [List.filter_append, List.filter_cons, h]

theorem drawBackup_conserves (ingredient_name : String) (quantity : Int) (pool : List Ingredient)
    (found : Ingredient) (pool' : List Ingredient)
    (h : drawBackup ingredient_name quantity pool = some (found, pool')) :
    (NonNegative pool → NonNegative pool')
      ∧ ∀ n, poolQuantity pool' n + (if ingredient_name = n then quantity else 0)
          = poolQuantity pool n := by
  induction pool generalizing pool' with
  | nil => simp [drawBackup] at h
  | cons x xs ih =>
    unfold drawBackup at h
    split at h
    · next hx =>
      simp only [Option.some.injEq, Prod.mk.injEq] at h
      obtain ⟨-, rfl⟩ := h
      obtain ⟨hname, hq⟩ := hx
      constructor
      · intro hnn
        split
        · exact fun r hr => hnn r (List.mem_cons_of_mem _ hr)
        · intro r hr
          rcases List.mem_cons.mp hr with rfl | hr
          · show 0 ≤ x.quantity - quantity
            omega
          · exact hnn r (List.mem_cons_of_mem _ hr)
      · intro n
        split
        · next hz =>
          rw [poolQuantity_cons, hname]
          split <;> omega
        · rw [poolQuantity_cons, poolQuantity_cons, hname]
          show (if ingredient_name = n then x.quantity - quantity else 0) + _ + _ = _
          split <;> omega
    · cases hd : drawBackup ingredient_name quantity xs with
      | none => simp [hd] at h
      | some r =>
        obtain ⟨found', rest'⟩ := r
        simp only [hd, Option.some.injEq, Prod.mk.injEq] at h
        obtain ⟨rfl, rfl⟩ := h
        obtain ⟨ih1, ih2⟩ := ih rest' hd
        constructor
        · intro hnn r hr
          rcases List.mem_cons.mp hr with rfl | hr
          · exact hnn r (List.mem_cons_self _ _)
          · exact ih1 (fun y hy => hnn y (List.mem_cons_of_mem _ hy)) r hr
        · intro n
          rw [poolQuantity_cons, poolQuantity_cons, ← ih2 n]
          omega

theorem replenish_noDoubleSpend (m : StationManager) (station_name ingredient_name : String)
    (quantity : Int) :
    NoDoubleSpend m
      (m.replenishStationIngredientFromBackup station_name ingredient_name quantity).2 := by
  unfold StationManager.replenishStationIngredientFromBackup
  split
  · exact ⟨id, fun _ => rfl⟩
  · cases hd : drawBackup ingredient_name quantity m.backup_ingredients with
    | none => exact ⟨id, fun _ => rfl⟩
    | some r =>
      obtain ⟨found, pool'⟩ := r
      obtain ⟨h1, h2⟩ := drawBackup_conserves _ _ _ _ _ hd
      refine ⟨h1, fun n => ?_⟩
      show poolQuantity pool' n + drawnQuantity (m.draw_log ++ [(ingredient_name, quantity)]) n
        = _
      rw [drawnQuantity_append_single, ← h2 n]
      omega

theorem prepareDishAt_backup (m : StationManager) (i : Nat) (dish_name : String) :
    (prepareDishAt m i dish_name).2.backup_ingredients = m.backup_ingredients
      ∧ (prepareDishAt m i dish_name).2.draw_log = m.draw_log := by
  unfold prepareDishAt
  split <;> exact ⟨rfl, rfl⟩

theorem noDoubleSpend_invariant : DispatchInvariant NoDoubleSpend where
  refl _ := ⟨id, fun _ => rfl⟩
  trans _ _ _ h1 h2 := ⟨fun h => h2.1 (h1.1 h), fun n => (h2.2 n).trans (h1.2 n)⟩
  draw := replenish_noDoubleSpend
  prepare m i dish_name := by
    obtain ⟨h1, h2⟩ := prepareDishAt_backup m i dish_name
    unfold NoDoubleSpend
    rw [h1, h2]
    exact ⟨id, fun _ => rfl⟩

theorem poolQuantity_nonneg (pool : List Ingredient) (h : NonNegative pool) (n : String) :
    0 ≤ poolQuantity pool n := by
  induction pool with
  | nil => simp [poolQuantity]
  | cons r rest ih =>
    rw [poolQuantity_cons]
    have h1 := h r (List.mem_cons_self _ _)
    have h2 := ih (fun y hy => h y (List.mem_cons_of_mem _ hy))
    split <;> omega

/-- C8: starting from a backup pool without negative quantities, after a
`processAllDishes` pass no backup record has a negative quantity, and for every
ingredient the total amount drawn by the pass (the successful draws the pass
added to the history) is exactly what the pool lost, hence at most the
quantity the pool held before the pass.  During the pass the pool is written
only by `replenishStationIngredientFromBackup`, and every single call of it,
from any state, keeps the records non-negative and draws no more than the pool
holds.  The recipes' required quantities play no part. -/
theorem processAllDishes_no_double_spend (m : StationManager)
    (hpool : NonNegative m.backup_ingredients) :
    NonNegative m.processAllDishes.backup_ingredients
      ∧ (∀ n, drawnQuantity m.processAllDishes.draw_log n - drawnQuantity m.draw_log n
            = poolQuantity m.backup_ingredients n
              - poolQuantity m.processAllDishes.backup_ingredients n)
      ∧ (∀ n, drawnQuantity m.processAllDishes.draw_log n - drawnQuantity m.draw_log n
            ≤ poolQuantity m.backup_ingredients n)
      ∧ (∀ (m₁ : StationManager) (station_name ingredient_name : String) (quantity : Int),
            NonNegative m₁.backup_ingredients →
              NonNegative (m₁.replenishStationIngredientFromBackup station_name
                  ingredient_name quantity).2.backup_ingredients
                ∧ ∀ n, drawnQuantity (m₁.replenishStationIngredientFromBackup station_name
                      ingredient_name quantity).2.draw_log n - drawnQuantity m₁.draw_log n
                    ≤ poolQuantity m₁.backup_ingredients n) := by
  obtain ⟨h1, h2⟩ := processAllDishes_invariant noDoubleSpend_invariant
    (fun m _ => ⟨id, fun _ => rfl⟩) m
  have hafter := h1 hpool
  refine ⟨hafter, fun n => ?_, fun n => ?_, ?_⟩
  · have := h2 n
    omega
  · have := h2 n
    have := poolQuantity_nonneg _ hafter n
    omega
  · intro m₁ station_name ingredient_name quantity hnn
    obtain ⟨g1, g2⟩ := replenish_noDoubleSpend m₁ station_name ingredient_name quantity
    refine ⟨g1 hnn, fun n => ?_⟩
    have := g2 n
    have := poolQuantity_nonneg _ (g1 hnn) n
    omega

/-- Witness for C8: the pass over Grill, Chicken and a pool holding Salt 1. -/
theorem processAllDishes_no_double_spend_witness :
    NonNegative grillWithBackupSalt.backup_ingredients
      ∧ NonNegative grillWithBackupSalt.processAllDishes.backup_ingredients
      ∧ drawnQuantity grillWithBackupSalt.processAllDishes.draw_log "Salt"
          - drawnQuantity grillWithBackupSalt.draw_log "Salt"
        ≤ poolQuantity grillWithBackupSalt.backup_ingredients "Salt" :=
  have h := processAllDishes_no_double_spend grillWithBackupSalt
    (by unfold NonNegative; decide)
  ⟨by unfold NonNegative; decide, h.1, h.2.2.1 "Salt"⟩

/-! ## Stock lookups -/

theorem find?_name_eq_findStock (stock : List Ingredient) (req : Ingredient) :
    stock.find? (fun stockIngredient => decide (req.name = stockIngredient.name))
      = findStock stock req.name := by
  unfold findStock
  congr 1
  funext x
  simp [eq_comm]

theorem findStock_cons (r : Ingredient) (stock : List Ingredient) (n : String) :
    findStock (r :: stock) n = if r.name = n then some r else findStock stock n := by
  unfold findStock
  by_cases h : r.name = n <;> simp [List.find?_cons, h]

theorem findStock_consume (stock : List Ingredient) (req : Ingredient) (n : String) :
    findStock (consume stock req) n
      = if n = req.name then
          (findStock stock n).map
            (fun r => { r with quantity := r.quantity - req.required_quantity })
        else findStock stock n := by
  induction stock with
  | nil => simp [consume, findStock]
  | cons r rest ih =>
    unfold consume
    by_cases hr : r.name = req.name
    · rw [if_pos hr, findStock_cons, findStock_cons]
      by_cases hn : n = req.name
      · simp [hn, hr]
      · have : ¬ r.name = n := fun h => hn (h ▸ hr)
        simp [hn, this]
    · rw [if_neg hr, findStock_cons, findStock_cons, ih]
      by_cases hn : r.name = n
      · have : ¬ n = req.name := fun h => hr (hn.trans h)
        simp [hn, this]
      · simp [hn]

theorem requiredTotal_cons (req : Ingredient) (recipe : List Ingredient) (n : String) :
    requiredTotal (req :: recipe) n
      = (if req.name = n then req.required_quantity else 0) + requiredTotal recipe n := by
  unfold requiredTotal
  by_cases h : req.name = n <;> simp [List.filter_cons, h]

theorem stockQuantity_foldl_consume (recipe stock : List Ingredient)
    (hpresent : ∀ req ∈ recipe, (findStock stock req.name).isSome = true) (n : String) :
    stockQuantity (recipe.foldl consume stock) n
      = stockQuantity stock n - requiredTotal recipe n := by
  induction recipe generalizing stock with
  | nil => simp [requiredTotal]
  | cons req rest ih =>
    rw [List.foldl_cons, ih, requiredTotal_cons]
    · have hreq := hpresent req (List.mem_cons_self _ _)
      unfold stockQuantity
      rw [findStock_consume]
      by_cases hn : n = req.name
      · subst hn
        cases hf : findStock stock req.name with
        | none => simp [hf] at hreq
        | some r => simp; omega
      · have : ¬ req.name = n := fun h => hn h.symm
        simp [hn, this]
    · intro req' hreq'
      rw [findStock_consume]
      have := hpresent req' (List.mem_cons_of_mem _ hreq')
      split
      · simpa using this
      · exact this

theorem isSome_findStock_of_not_lacks (stock : List Ingredient) (req : Ingredient)
    (h : lacks stock req = false) : (findStock stock req.name).isSome = true := by
  unfold lacks at h
  cases hf : findStock stock req.name with
  | none => simp [hf] at h
  | some r => rfl

/-! ## One station's part in the per-order procedure -/

theorem set_of_getElem? {α : Type} (l : List α) (i : Nat) (a : α) (h : l[i]? = some a) :
    l.set i a = l := by
  induction l generalizing i with
  | nil => simp
  | cons x xs ih =>
    cases i with
    | zero =>
      simp only [List.getElem?_cons_zero, Option.some.injEq] at h
      simp [h]
    | succ j =>
      simp only [List.getElem?_cons_succ] at h
      simp [ih j h]

theorem prepareDish_of_can (s : KitchenStation) (dish_name : String) (recipe : Dish)
    (hreg : s.findDish dish_name = some recipe) (h : s.canCompleteOrder dish_name = true) :
    s.prepareDish dish_name
      = (true, { s with
          ingredients_stock := recipe.ingredients.foldl consume s.ingredients_stock }) := by
  simp [KitchenStation.prepareDish, h, hreg]

theorem findDish_of_can (s : KitchenStation) (dish_name : String)
    (h : s.canCompleteOrder dish_name = true) :
    ∃ recipe, s.findDish dish_name = some recipe
      ∧ ∀ req ∈ recipe.ingredients, lacks s.ingredients_stock req = false := by
  unfold KitchenStation.canCompleteOrder at h
  cases hf : s.findDish dish_name with
  | none => simp [hf] at h
  | some recipe =>
    refine ⟨recipe, rfl, ?_⟩
    simpa [hf] using h

theorem prepareDishAt_of_cannot (m : StationManager) (i : Nat) (dish_name : String)
    (ks : KitchenStation) (hks : m.stations[i]? = some ks)
    (h : ks.canCompleteOrder dish_name = false) : prepareDishAt m i dish_name = (false, m) := by
  unfold prepareDishAt
  rw [hks]
  simp only [prepareDish_of_cannot ks dish_name h, set_of_getElem? _ _ _ hks]

theorem prepareDishAt_of_can (m : StationManager) (i : Nat) (dish_name : String)
    (ks : KitchenStation) (hks : m.stations[i]? = some ks)
    (h : ks.canCompleteOrder dish_name = true) :
    prepareDishAt m i dish_name
      = (true, { m with stations := m.stations.set i (ks.prepareDish dish_name).2 }) := by
  obtain ⟨recipe, hreg, -⟩ := findDish_of_can ks dish_name h
  unfold prepareDishAt
  rw [hks]
  simp only [prepareDish_of_can ks dish_name recipe hreg h]

theorem replenish_no_record (m : StationManager) (station_name ingredient_name : String)
    (quantity : Int) (h : ∀ b ∈ m.backup_ingredients, b.name ≠ ingredient_name) :
    m.replenishStationIngredientFromBackup station_name ingredient_name quantity
      = (false, m) := by
  have hd : drawBackup ingredient_name quantity m.backup_ingredients = none :=
    (drawBackup_eq_none_iff _ _ _).mpr (fun x hx hn => absurd hn (h x hx))
  unfold StationManager.replenishStationIngredientFromBackup
  split
  · rfl
  · rw [hd]

theorem replenishRequired_no_backup (i : Nat) (reqs : List Ingredient) (m : StationManager)
    (ks : KitchenStation) (hks : m.stations[i]? = some ks)
    (h : ∀ req ∈ reqs, lacks ks.ingredients_stock req = true →
      ∀ b ∈ m.backup_ingredients, b.name ≠ req.name) :
    replenishRequired i reqs m = m := by
  induction reqs with
  | nil => rfl
  | cons req rest ih =>
    have hrest := ih (fun r hr => h r (List.mem_cons_of_mem _ hr))
    have hreq := h req (List.mem_cons_self _ _)
    unfold replenishRequired
    rw [hks]
    simp only [find?_name_eq_findStock]
    cases hf : findStock ks.ingredients_stock req.name with
    | none =>
      have hl : lacks ks.ingredients_stock req = true := by simp [lacks, hf]
      simp only [replenish_no_record m ks.name req.name _ (hreq hl)]
    | some r =>
      simp only
      split
      · next hpos =>
        have hl : lacks ks.ingredients_stock req = true := by
          simp only [lacks, hf, decide_eq_true_eq]; omega
        rw [replenish_no_record m ks.name req.name _ (hreq hl)]
        exact hrest
      · exact hrest

theorem dishLoop_all_fail (dish_name : String) (i : Nat) (ds : List Dish) (m : StationManager)
    (isPrepared : Bool) (ks : KitchenStation) (hks : m.stations[i]? = some ks)
    (hcannot : ks.canCompleteOrder dish_name = false)
    (hfail : ∀ d ∈ ds, d.name = dish_name → replenishRequired i d.ingredients m = m) :
    dishLoop dish_name i ds (m, isPrepared) = (m, isPrepared) := by
  induction ds with
  | nil => rfl
  | cons d rest ih =>
    have hrest := ih (fun x hx => hfail x (List.mem_cons_of_mem _ hx))
    unfold dishLoop
    split
    · next hd =>
      rw [hks]
      simp only [hcannot, Bool.false_eq_true, if_false,
        hfail d (List.mem_cons_self _ _) hd, prepareDishAt_of_cannot m i dish_name ks hks hcannot]
      exact hrest
    · exact hrest

theorem dishLoop_of_can (dish_name : String) (i : Nat) (ds : List Dish) (m : StationManager)
    (isPrepared : Bool) (ks : KitchenStation) (hks : m.stations[i]? = some ks)
    (hcan : ks.canCompleteOrder dish_name = true) (hset : (ds.map Dish.name).Nodup)
    (hmem : ∃ d ∈ ds, d.name = dish_name) :
    dishLoop dish_name i ds (m, isPrepared)
      = ({ m with stations := m.stations.set i (ks.prepareDish dish_name).2 }, true) := by
  induction ds with
  | nil => simp at hmem
  | cons d rest ih =>
    rw [List.map_cons, List.nodup_cons] at hset
    unfold dishLoop
    split
    · next hd =>
      rw [hks]
      simp only [hcan, if_true, prepareDishAt_of_can m i dish_name ks hks hcan]
      apply dishLoop_no_match
      intro x hx hxn
      exact hset.1 (hd ▸ hxn ▸ List.mem_map_of_mem _ hx)
    · next hd =>
      apply ih hset.2
      obtain ⟨x, hx, hxn⟩ := hmem
      rcases List.mem_cons.mp hx with rfl | hx
      · exact absurd hxn hd
      · exact ⟨x, hx, hxn⟩

theorem eq_of_findDish_of_nodup (s : KitchenStation) (dish_name : String) (recipe d : Dish)
    (hset : (s.dishes.map Dish.name).Nodup) (hreg : s.findDish dish_name = some recipe)
    (hd : d ∈ s.dishes) (hname : d.name = dish_name) : d = recipe := by
  have hrec : recipe ∈ s.dishes := List.mem_of_find?_eq_some hreg
  have hrn : recipe.name = dish_name := by simpa using List.find?_some hreg
  exact List.inj_on_of_nodup_map hset hd hrec (hname.trans hrn.symm)

/-! ## Falling through to the next station -/

/-- C4: in a registry [station1, station2] where both stations are registered
for the ordered dish (each under one entry), station1 cannot complete it and
the backup pool has no record for any ingredient station1 lacks, and station2
can complete it, `processAllDishes` on the queue holding that one order
prepares the order: the queue is empty afterwards, station2 has prepared the
dish, its on-hand quantity of every ingredient lowered by what the recipe
requires of it, and station1, the backup pool and the draw history are exactly
what they were before the pass. -/
theorem processAllDishes_second_station (station1 station2 : KitchenStation) (dish : Dish)
    (backup : List Ingredient) (log : List (String × Int)) (recipe1 : Dish)
    (hreg1 : station1.findDish dish.name = some recipe1)
    (hcannot : station1.canCompleteOrder dish.name = false)
    (hlack : ∀ req ∈ recipe1.ingredients, lacks station1.ingredients_stock req = true →
      ∀ b ∈ backup, b.name ≠ req.name)
    (hcan : station2.canCompleteOrder dish.name = true)
    (hset1 : (station1.dishes.map Dish.name).Nodup)
    (hset2 : (station2.dishes.map Dish.name).Nodup) :
    (StationManager.mk [station1, station2] [dish] backup log).processAllDishes
        = StationManager.mk [station1, (station2.prepareDish dish.name).2] [] backup log
      ∧ ∃ recipe2, station2.findDish dish.name = some recipe2
        ∧ (station2.prepareDish dish.name).2.name = station2.name
        ∧ (station2.prepareDish dish.name).2.dishes = station2.dishes
        ∧ ∀ n, stockQuantity (station2.prepareDish dish.name).2.ingredients_stock n
            = stockQuantity station2.ingredients_stock n - requiredTotal recipe2.ingredients n := by
  obtain ⟨recipe2, hreg2, hmet⟩ := findDish_of_can station2 dish.name hcan
  constructor
  · have h0 : dishLoop dish.name 0 station1.dishes
        (StationManager.mk [station1, station2] [dish] backup log, false)
        = (StationManager.mk [station1, station2] [dish] backup log, false) := by
      apply dishLoop_all_fail dish.name 0 station1.dishes
        (StationManager.mk [station1, station2] [dish] backup log) false station1 rfl hcannot
      intro d hd hname
      have hd' : d = recipe1 := eq_of_findDish_of_nodup station1 dish.name recipe1 d hset1 hreg1
        hd hname
      subst hd'
      exact replenishRequired_no_backup 0 d.ingredients
        (StationManager.mk [station1, station2] [dish] backup log) station1 rfl hlack
    have h1 : dishLoop dish.name 1 station2.dishes
        (StationManager.mk [station1, station2] [dish] backup log, false)
        = (StationManager.mk [station1, (station2.prepareDish dish.name).2] [dish] backup log,
            true) := by
      rw [dishLoop_of_can dish.name 1 station2.dishes
        (StationManager.mk [station1, station2] [dish] backup log) false station2 rfl hcan hset2
        ⟨recipe2, List.mem_of_find?_eq_some hreg2, by simpa using List.find?_some hreg2⟩]
      rfl
    have hrange : List.range 2 = [0, 1] := by decide
    have hp : processDish (StationManager.mk [station1, station2] [dish] backup log) dish
        = (StationManager.mk [station1, (station2.prepareDish dish.name).2] [dish] backup log,
            true) := by
      unfold processDish
      simp only [List.length_cons, List.length_nil, Nat.zero_add, Nat.reduceAdd, hrange]
      unfold stationLoop
      simp only [List.getElem?_cons_zero, h0]
      unfold stationLoop
      simp only [List.getElem?_cons_succ, List.getElem?_cons_zero, h1]
    unfold StationManager.processAllDishes
    simp only [processQueue, hp]
    rfl
  · refine ⟨recipe2, hreg2, ?_⟩
    rw [prepareDish_of_can station2 dish.name recipe2 hreg2 hcan]
    refine ⟨rfl, rfl, fun n => ?_⟩
    exact stockQuantity_foldl_consume _ _
      (fun req hreq => isSome_findStock_of_not_lacks _ _ (hmet req hreq)) n

/-- Witness for C4: Stove has no Water, Range prepares the Soup. -/
theorem processAllDishes_second_station_witness :
    twoSoupStations.processAllDishes
      = StationManager.mk
          [⟨"Stove", [soup], []⟩, ⟨"Range", [soup], [⟨"Water", 0, 0, 10⟩]⟩] [] [] [] :=
  (processAllDishes_second_station ⟨"Stove", [soup], []⟩ ⟨"Range", [soup], [⟨"Water", 1, 0, 10⟩]⟩
    soup [] [] soup (by decide) (by decide) (by decide) (by decide) (by decide) (by decide)).1

/-! ## Replenishing a single station from the backup pool -/

theorem lacks_congr (stock stock' : List Ingredient) (req : Ingredient)
    (h : findStock stock' req.name = findStock stock req.name) :
    lacks stock' req = lacks stock req := by
  unfold lacks; rw [h]

theorem shortfall_congr (stock stock' : List Ingredient) (req : Ingredient)
    (h : findStock stock' req.name = findStock stock req.name) :
    shortfall stock' req = shortfall stock req := by
  unfold shortfall; rw [h]

theorem stockQuantity_congr (stock stock' : List Ingredient) (n : String)
    (h : findStock stock' n = findStock stock n) :
    stockQuantity stock' n = stockQuantity stock n := by
  unfold stockQuantity; rw [h]

theorem findStock_mergeStock (stock : List Ingredient) (ing : Ingredient) (n : String) :
    findStock (mergeStock stock ing) n
      = if n = ing.name then
          some (match findStock stock ing.name with
            | some r => { r with quantity := r.quantity + ing.quantity }
            | none => ing)
        else findStock stock n := by
  induction stock with
  | nil =>
    by_cases hn : n = ing.name
    · simp [mergeStock, findStock, hn]
    · have : ¬ ing.name = n := fun h => hn h.symm
      simp [mergeStock, findStock, hn, this]
  | cons r rest ih =>
    unfold mergeStock
    by_cases hr : r.name = ing.name
    · simp only [if_pos hr, findStock_cons]
      by_cases hn : n = ing.name
      · simp [hn, hr]
      · have : ¬ r.name = n := fun h => hn (h ▸ hr)
        simp [hn, this]
    · simp only [if_neg hr, findStock_cons, ih]
      by_cases hn : r.name = n
      · have : ¬ n = ing.name := fun h => hr (hn.trans h)
        simp [hn, this]
      · simp [hn]

theorem findStock_append (pre post : List Ingredient) (n : String) :
    findStock (pre ++ post) n = (findStock pre n).or (findStock post n) := by
  unfold findStock
  exact List.find?_append

theorem findStock_eq_none_of_names (pool : List Ingredient) (n : String)
    (h : ∀ x ∈ pool, x.name ≠ n) : findStock pool n = none := by
  unfold findStock
  rw [List.find?_eq_none]
  intro x hx
  simpa using h x hx

theorem findStock_of_mem_nodup (pool : List Ingredient) (record : Ingredient)
    (hdistinct : (pool.map Ingredient.name).Nodup) (hmem : record ∈ pool) :
    findStock pool record.name = some record := by
  obtain ⟨pre, post, rfl, hpre, -⟩ := split_of_mem_nodup_names pool record hdistinct hmem
  rw [findStock_append, findStock_eq_none_of_names pre _ hpre, findStock_cons]
  simp

theorem replenish_single (m : StationManager) (station : KitchenStation) (n : String)
    (q : Int) (b : Ingredient) (hst : m.stations = [station])
    (hpool : (m.backup_ingredients.map Ingredient.name).Nodup)
    (hb : b ∈ m.backup_ingredients) (hbn : b.name = n) (hq : q ≤ b.quantity) :
    ∃ backup1,
      m.replenishStationIngredientFromBackup station.name n q
          = (true,
              { m with
                stations := [station.replenishStationIngredients ⟨n, q, 0, b.price⟩]
                backup_ingredients := backup1
                draw_log := m.draw_log ++ [(n, q)] })
        ∧ (backup1.map Ingredient.name).Nodup
        ∧ findStock backup1 n
            = (if b.quantity - q = 0 then none else some { b with quantity := b.quantity - q })
        ∧ (∀ n', n' ≠ n → findStock backup1 n' = findStock m.backup_ingredients n')
        ∧ (∀ x ∈ m.backup_ingredients, x.name ≠ n → x ∈ backup1) := by
  obtain ⟨pre, post, hsplit, hpre, hpost⟩ :=
    split_of_mem_nodup_names m.backup_ingredients b hpool hb
  rw [hbn] at hpre hpost
  refine ⟨pre ++ (if b.quantity - q = 0 then []
      else [{ b with quantity := b.quantity - q }]) ++ post, ?_, ?_, ?_, ?_, ?_⟩
  · unfold StationManager.replenishStationIngredientFromBackup
    have hfind : m.findStation station.name = some station := by
      simp [StationManager.findStation, hst]
    rw [hfind]
    simp only
    rw [hsplit, drawBackup_split n q pre post b (fun x hx h => hpre x hx h.1) hbn hq]
    simp only [hst, replenishAtStation, if_true, hbn]
  · rw [hsplit] at hpool
    split
    · refine hpool.sublist ?_
      simp only [List.append_nil, List.map_append, List.map_cons]
      exact (List.Sublist.refl _).append ((List.Sublist.refl _).cons _)
    · simpa using hpool
  · rw [findStock_append, findStock_append, findStock_eq_none_of_names pre n hpre,
      findStock_eq_none_of_names post n hpost]
    split
    · simp [findStock]
    · simp [findStock, hbn]
  · intro n' hn'
    have hbn' : ¬ b.name = n' := fun h => hn' (h.symm.trans hbn)
    rw [hsplit, findStock_append, findStock_append, findStock_append, findStock_cons,
      if_neg hbn']
    split
    · simp [findStock]
    · simp [findStock, hbn']
  · intro x hx hxn
    rw [hsplit] at hx
    rcases List.mem_append.mp hx with hx | hx
    · simp [hx]
    · rcases List.mem_cons.mp hx with rfl | hx
      · exact absurd hbn hxn
      · simp [hx]

theorem shortfall_of_not_lacks (stock : List Ingredient) (req : Ingredient)
    (h : lacks stock req = false) : shortfall stock req = 0 := by
  unfold lacks at h
  unfold shortfall
  cases hf : findStock stock req.name with
  | none => simp [hf] at h
  | some r =>
    have : ¬ r.quantity < req.required_quantity := by simpa [hf] using h
    simp [this]

theorem replenishRequired_step_lacking (req : Ingredient) (rest : List Ingredient)
    (station : KitchenStation) (m m1 : StationManager) (hst : m.stations = [station])
    (hl : lacks station.ingredients_stock req = true)
    (hrep : m.replenishStationIngredientFromBackup station.name req.name
      (shortfall station.ingredients_stock req) = (true, m1)) :
    replenishRequired 0 (req :: rest) m = replenishRequired 0 rest m1 := by
  rw [replenishRequired]
  simp only [hst, List.getElem?_cons_zero, find?_name_eq_findStock]
  cases hf : findStock station.ingredients_stock req.name with
  | none =>
    have hs : shortfall station.ingredients_stock req = req.required_quantity := by
      simp [shortfall, hf]
    rw [hs] at hrep
    simp only [hrep]
  | some r =>
    have hlt : r.quantity < req.required_quantity := by simpa [lacks, hf] using hl
    have hs : shortfall station.ingredients_stock req = req.required_quantity - r.quantity := by
      simp [shortfall, hf, hlt]
    rw [hs] at hrep
    have hpos : req.required_quantity - r.quantity > 0 := by omega
    simp only [hrep, if_pos hpos]

theorem replenishRequired_step_covered (req : Ingredient) (rest : List Ingredient)
    (station : KitchenStation) (m : StationManager) (hst : m.stations = [station])
    (hl : lacks station.ingredients_stock req = false) :
    replenishRequired 0 (req :: rest) m = replenishRequired 0 rest m := by
  rw [replenishRequired]
  simp only [hst, List.getElem?_cons_zero, find?_name_eq_findStock]
  cases hf : findStock station.ingredients_stock req.name with
  | none => simp [lacks, hf] at hl
  | some r =>
    have hge : ¬ r.quantity < req.required_quantity := by simpa [lacks, hf] using hl
    have hpos : ¬ req.required_quantity - r.quantity > 0 := by omega
    simp only [if_neg hpos]

theorem replenishRequired_single (reqs : List Ingredient) (station : KitchenStation)
    (m : StationManager) (hst : m.stations = [station])
    (hnames : (reqs.map Ingredient.name).Nodup)
    (hpool : (m.backup_ingredients.map Ingredient.name).Nodup)
    (hbackup : ∀ req ∈ reqs, lacks station.ingredients_stock req = true →
      ∃ b ∈ m.backup_ingredients,
        b.name = req.name ∧ shortfall station.ingredients_stock req ≤ b.quantity) :
    ∃ stock',
      (replenishRequired 0 reqs m).stations = [{ station with ingredients_stock := stock' }]
        ∧ (replenishRequired 0 reqs m).dish_queue = m.dish_queue
        ∧ ((replenishRequired 0 reqs m).backup_ingredients.map Ingredient.name).Nodup
        ∧ (∀ n, (∀ req ∈ reqs, req.name ≠ n) →
            findStock stock' n = findStock station.ingredients_stock n)
        ∧ (∀ n, (∀ req ∈ reqs, req.name ≠ n) →
            findStock (replenishRequired 0 reqs m).backup_ingredients n
              = findStock m.backup_ingredients n)
        ∧ (∀ req ∈ reqs, lacks stock' req = false
            ∧ stockQuantity stock' req.name
              = stockQuantity station.ingredients_stock req.name
                + shortfall station.ingredients_stock req)
        ∧ (∀ req ∈ reqs, ∀ b ∈ m.backup_ingredients, b.name = req.name →
            findStock (replenishRequired 0 reqs m).backup_ingredients req.name
              = if lacks station.ingredients_stock req = true
                    ∧ b.quantity = shortfall station.ingredients_stock req then none
                else some
                  { b with quantity := b.quantity - shortfall station.ingredients_stock req }) := by
  induction reqs generalizing station m with
  | nil =>
    refine ⟨station.ingredients_stock, ?_, rfl, hpool, fun _ _ => rfl, fun _ _ => rfl, ?_, ?_⟩
    · simp [replenishRequired, hst]
    · simp
    · simp
  | cons req rest ih =>
    rw [List.map_cons, List.nodup_cons] at hnames
    obtain ⟨hreq_notin, hrest_nodup⟩ := hnames
    have hne : ∀ r ∈ rest, r.name ≠ req.name := fun r hr h =>
      hreq_notin (h ▸ List.mem_map_of_mem _ hr)
    have hne' : ∀ r ∈ rest, req.name ≠ r.name := fun r hr h => hne r hr h.symm
    by_cases hl : lacks station.ingredients_stock req = true
    · obtain ⟨b, hb, hbn, hq⟩ := hbackup req (List.mem_cons_self _ _) hl
      obtain ⟨backup1, hrep, hnodup1, hfind1, hother1, hmem1⟩ :=
        replenish_single m station req.name (shortfall station.ingredients_stock req) b
          hst hpool hb hbn hq
      have hstep := replenishRequired_step_lacking req rest station m _ hst hl hrep
      have key1 : ∀ n, n ≠ req.name →
          findStock (station.replenishStationIngredients
            ⟨req.name, shortfall station.ingredients_stock req, 0, b.price⟩).ingredients_stock n
            = findStock station.ingredients_stock n := by
        intro n hn
        simp [KitchenStation.replenishStationIngredients, findStock_mergeStock, hn]
      obtain ⟨stock', h1, h2, h3, h4, h5, h6, h7⟩ := ih
        (station.replenishStationIngredients
          ⟨req.name, shortfall station.ingredients_stock req, 0, b.price⟩)
        { m with
          stations := [station.replenishStationIngredients
            ⟨req.name, shortfall station.ingredients_stock req, 0, b.price⟩]
          backup_ingredients := backup1
          draw_log := m.draw_log ++ [(req.name, shortfall station.ingredients_stock req)] }
        rfl hrest_nodup hnodup1 (by
          intro r hr hlr
          have hk := key1 r.name (hne r hr)
          rw [lacks_congr _ _ r hk] at hlr
          obtain ⟨b', hb', hbn', hq'⟩ := hbackup r (List.mem_cons_of_mem _ hr) hlr
          refine ⟨b', hmem1 b' hb' (by rw [hbn']; exact hne r hr), hbn', ?_⟩
          rw [shortfall_congr _ _ r hk]; exact hq')
      rw [hstep]
      refine ⟨stock', h1, h2, h3, ?_, ?_, ?_, ?_⟩
      · intro n hn
        rw [h4 n (fun r hr => hn r (List.mem_cons_of_mem _ hr))]
        exact key1 n (fun h => hn req (List.mem_cons_self _ _) h.symm)
      · intro n hn
        rw [h5 n (fun r hr => hn r (List.mem_cons_of_mem _ hr))]
        exact hother1 n (fun h => hn req (List.mem_cons_self _ _) h.symm)
      · intro r hr
        rcases List.mem_cons.mp hr with rfl | hr
        · have hfs := h4 r.name hne
          simp only [KitchenStation.replenishStationIngredients, findStock_mergeStock,
            if_true] at hfs
          cases hf : findStock station.ingredients_stock r.name with
          | none =>
            have hs : shortfall station.ingredients_stock r = r.required_quantity := by
              simp [shortfall, hf]
            rw [hf] at hfs
            simp only [lacks, stockQuantity, hfs, hf, hs]
            simp
          | some x =>
            have hlt : x.quantity < r.required_quantity := by simpa [lacks, hf] using hl
            have hs : shortfall station.ingredients_stock r
                = r.required_quantity - x.quantity := by
              simp [shortfall, hf, hlt]
            rw [hf] at hfs
            simp only [lacks, stockQuantity, hfs, hf, hs]
            simp
        · have hk := key1 r.name (hne r hr)
          obtain ⟨g1, g2⟩ := h6 r hr
          rw [stockQuantity_congr _ _ r.name hk, shortfall_congr _ _ r hk] at g2
          exact ⟨g1, g2⟩
      · intro r hr b0 hb0 hb0n
        rcases List.mem_cons.mp hr with rfl | hr
        · have hbb : b0 = b := List.inj_on_of_nodup_map hpool hb0 hb (hb0n.trans hbn.symm)
          subst hbb
          rw [h5 r.name hne, hfind1]
          by_cases hz : b0.quantity = shortfall station.ingredients_stock r
          · simp [hz, hl]
          · have : ¬ b0.quantity - shortfall station.ingredients_stock r = 0 := by omega
            simp [hz, this]
        · have hk := key1 r.name (hne r hr)
          have := h7 r hr b0 (hmem1 b0 hb0 (by rw [hb0n]; exact hne r hr)) hb0n
          rw [lacks_congr _ _ r hk, shortfall_congr _ _ r hk] at this
          exact this
    · have hl' : lacks station.ingredients_stock req = false := by simpa using hl
      have hstep := replenishRequired_step_covered req rest station m hst hl'
      obtain ⟨stock', h1, h2, h3, h4, h5, h6, h7⟩ := ih station m hst hrest_nodup hpool
        (fun r hr hlr => hbackup r (List.mem_cons_of_mem _ hr) hlr)
      rw [hstep]
      refine ⟨stock', h1, h2, h3, ?_, ?_, ?_, ?_⟩
      · intro n hn
        exact h4 n (fun r hr => hn r (List.mem_cons_of_mem _ hr))
      · intro n hn
        exact h5 n (fun r hr => hn r (List.mem_cons_of_mem _ hr))
      · intro r hr
        rcases List.mem_cons.mp hr with rfl | hr
        · have hk := h4 r.name hne
          rw [lacks_congr _ _ r hk, stockQuantity_congr _ _ r.name hk,
            shortfall_of_not_lacks _ _ hl']
          exact ⟨hl', by omega⟩
        · exact h6 r hr
      · intro r hr b0 hb0 hb0n
        rcases List.mem_cons.mp hr with rfl | hr
        · rw [h5 r.name hne, ← hb0n, findStock_of_mem_nodup _ b0 hpool hb0,
            shortfall_of_not_lacks _ _ hl']
          simp [hl']
        · exact h7 r hr b0 hb0 hb0n

theorem dishLoop_of_replenished (dish_name : String) (i : Nat) (ds : List Dish)
    (m m2 : StationManager) (isPrepared : Bool) (ks : KitchenStation) (recipe : Dish)
    (hks : m.stations[i]? = some ks) (hcannot : ks.canCompleteOrder dish_name = false)
    (hfind : ds.find? (fun d => decide (d.name = dish_name)) = some recipe)
    (hprep : prepareDishAt (replenishRequired i recipe.ingredients m) i dish_name = (true, m2)) :
    dishLoop dish_name i ds (m, isPrepared) = (m2, true) := by
  induction ds with
  | nil => simp at hfind
  | cons d rest ih =>
    unfold dishLoop
    by_cases hd : d.name = dish_name
    · have hrec : d = recipe := by simpa [List.find?_cons, hd] using hfind
      subst hrec
      rw [if_pos hd, hks]
      simp only [hcannot, Bool.false_eq_true, if_false, hprep]
    · rw [if_neg hd]
      apply ih
      simpa [List.find?_cons, hd] using hfind

theorem requiredTotal_of_nodup (recipe : List Ingredient) (req : Ingredient)
    (hnames : (recipe.map Ingredient.name).Nodup) (hreq : req ∈ recipe) :
    requiredTotal recipe req.name = req.required_quantity := by
  induction recipe with
  | nil => simp at hreq
  | cons r rest ih =>
    rw [List.map_cons, List.nodup_cons] at hnames
    rw [requiredTotal_cons]
    rcases List.mem_cons.mp hreq with rfl | hmem
    · have hzero : requiredTotal rest req.name = 0 := by
        unfold requiredTotal
        rw [List.filter_eq_nil_iff.mpr]
        · rfl
        · intro x hx hxn
          exact hnames.1 (by
            have : x.name = req.name := by simpa using hxn
            exact this ▸ List.mem_map_of_mem _ hx)
      simp [hzero]
    · have hne : ¬ r.name = req.name := fun h =>
        hnames.1 (h ▸ List.mem_map_of_mem _ hmem)
      rw [if_neg hne, ih hnames.2 hmem]
      omega

/-- C3, counterexample: a backup pool may hold two records of one
name.  With station Grill registered for Chicken (Salt 1), no stock, and a
pool holding two records Salt 1, every condition of the claim is met (one
station, registered, distinct recipe names, the order cannot presently be
completed, the pool holds a record of at least the shortfall 1), and after the
pass the queue is empty, yet the second record named Salt is still in the pool
with its quantity 1: it was neither reduced by the shortfall nor removed. -/
theorem replenish_then_prepare_duplicate_record :
    grillWithTwoSaltRecords.stations.length = 1
      ∧ (∀ s ∈ grillWithTwoSaltRecords.stations, ∀ dish ∈ grillWithTwoSaltRecords.dish_queue,
          s.findDish dish.name = some dish
            ∧ (dish.ingredients.map Ingredient.name).Nodup
            ∧ s.canCompleteOrder dish.name = false
            ∧ ∀ req ∈ dish.ingredients,
                shortfall s.ingredients_stock req = 1
                  ∧ ∃ b ∈ grillWithTwoSaltRecords.backup_ingredients,
                      b.name = req.name ∧ shortfall s.ingredients_stock req ≤ b.quantity)
      ∧ grillWithTwoSaltRecords.processAllDishes.dish_queue = []
      ∧ grillWithTwoSaltRecords.processAllDishes.backup_ingredients = [⟨"Salt", 1, 1, 60⟩]
      ∧ ⟨"Salt", 1, 1, 60⟩ ∈ grillWithTwoSaltRecords.backup_ingredients := by
  decide

/-- C3, amended: in a registry whose single station is registered for the
ordered dish, the recipe having distinct ingredient names and the backup pool
distinct names, if the station cannot presently complete the dish and the pool holds,
for every recipe ingredient the station lacks, a record with quantity at least
the shortfall, then after `processAllDishes` on the queue holding that one
order: the queue is empty; the station's on-hand quantity of each recipe
ingredient is old on-hand plus shortfall minus required; each backup record of
a recipe ingredient is reduced by exactly the shortfall, and dropped from the
pool when a draw leaves it at 0; the station's name and dishes, its stock of
other ingredients and the pool's records of other names are unchanged. -/
theorem processAllDishes_replenish_then_prepare (station : KitchenStation) (dish recipe : Dish)
    (backup : List Ingredient) (log : List (String × Int))
    (hreg : station.findDish dish.name = some recipe)
    (hnames : (recipe.ingredients.map Ingredient.name).Nodup)
    (hpool : (backup.map Ingredient.name).Nodup)
    (hcannot : station.canCompleteOrder dish.name = false)
    (hbackup : ∀ req ∈ recipe.ingredients, lacks station.ingredients_stock req = true →
      ∃ b ∈ backup, b.name = req.name ∧ shortfall station.ingredients_stock req ≤ b.quantity) :
    ∃ stock',
      (StationManager.mk [station] [dish] backup log).processAllDishes.stations
          = [{ station with ingredients_stock := stock' }]
        ∧ (StationManager.mk [station] [dish] backup log).processAllDishes.dish_queue = []
        ∧ (∀ req ∈ recipe.ingredients,
            stockQuantity stock' req.name
              = stockQuantity station.ingredients_stock req.name
                + shortfall station.ingredients_stock req - req.required_quantity)
        ∧ (∀ req ∈ recipe.ingredients, ∀ b ∈ backup, b.name = req.name →
            findStock (StationManager.mk [station] [dish] backup
                log).processAllDishes.backup_ingredients req.name
              = if lacks station.ingredients_stock req = true
                    ∧ b.quantity = shortfall station.ingredients_stock req then none
                else some
                  { b with quantity := b.quantity - shortfall station.ingredients_stock req })
        ∧ (∀ n, (∀ req ∈ recipe.ingredients, req.name ≠ n) →
            findStock stock' n = findStock station.ingredients_stock n
              ∧ findStock (StationManager.mk [station] [dish] backup
                  log).processAllDishes.backup_ingredients n = findStock backup n) := by
  obtain ⟨stock1, h1, -, -, h4, h5, h6, h7⟩ := replenishRequired_single recipe.ingredients
    station (StationManager.mk [station] [dish] backup log) rfl hnames hpool hbackup
  have hcan1 : (KitchenStation.mk station.name station.dishes stock1).canCompleteOrder
      dish.name = true := by
    have hreg1 : (KitchenStation.mk station.name station.dishes stock1).findDish dish.name
        = some recipe := hreg
    simp only [KitchenStation.canCompleteOrder, hreg1, List.all_eq_true, Bool.not_eq_true']
    exact fun req hreq => (h6 req hreq).1
  have hks1 : (replenishRequired 0 recipe.ingredients
      (StationManager.mk [station] [dish] backup log)).stations[0]?
      = some (KitchenStation.mk station.name station.dishes stock1) := by
    rw [h1]; rfl
  have hprep := prepareDishAt_of_can _ 0 dish.name _ hks1 hcan1
  have hprep' : prepareDishAt (replenishRequired 0 recipe.ingredients
        (StationManager.mk [station] [dish] backup log)) 0 dish.name
      = (true, (prepareDishAt (replenishRequired 0 recipe.ingredients
        (StationManager.mk [station] [dish] backup log)) 0 dish.name).2) := by
    rw [hprep]
  have hloop := dishLoop_of_replenished dish.name 0 station.dishes
    (StationManager.mk [station] [dish] backup log) _ false station recipe rfl hcannot hreg
    hprep'
  have hrange : List.range 1 = [0] := by decide
  have hp : processDish (StationManager.mk [station] [dish] backup log) dish
      = ((prepareDishAt (replenishRequired 0 recipe.ingredients
        (StationManager.mk [station] [dish] backup log)) 0 dish.name).2, true) := by
    unfold processDish
    simp only [List.length_cons, List.length_nil, Nat.zero_add, hrange]
    unfold stationLoop
    simp only [List.getElem?_cons_zero, hloop]
  have hall : (StationManager.mk [station] [dish] backup log).processAllDishes
      = StationManager.mk
          [((KitchenStation.mk station.name station.dishes stock1).prepareDish dish.name).2] []
          (replenishRequired 0 recipe.ingredients
            (StationManager.mk [station] [dish] backup log)).backup_ingredients
          (replenishRequired 0 recipe.ingredients
            (StationManager.mk [station] [dish] backup log)).draw_log := by
    unfold StationManager.processAllDishes
    simp only [processQueue, hp, hprep, StationManager.setDishQueue,
      StationManager.clearDishQueue, h1, List.set_cons_zero]
  have hreg1 : (KitchenStation.mk station.name station.dishes stock1).findDish dish.name
      = some recipe := hreg
  rw [hall, prepareDish_of_can (KitchenStation.mk station.name station.dishes stock1)
    dish.name recipe hreg1 hcan1]
  refine ⟨recipe.ingredients.foldl consume stock1, rfl, rfl, ?_, h7, ?_⟩
  · intro req hreq
    rw [stockQuantity_foldl_consume _ _
      (fun r hr => isSome_findStock_of_not_lacks _ _ (h6 r hr).1),
      requiredTotal_of_nodup _ req hnames hreq, (h6 req hreq).2]
  · intro n hn
    refine ⟨?_, h5 n hn⟩
    rw [← h4 n hn]
    have hfold : ∀ (reqs stock : List Ingredient), (∀ r ∈ reqs, r.name ≠ n) →
        findStock (reqs.foldl consume stock) n = findStock stock n := by
      intro reqs
      induction reqs with
      | nil => intro _ _; rfl
      | cons r rest ih =>
        intro stock hr
        rw [List.foldl_cons, ih _ (fun x hx => hr x (List.mem_cons_of_mem _ hx)),
          findStock_consume, if_neg (fun h => hr r (List.mem_cons_self _ _) h.symm)]
    exact hfold _ _ hn

/-- Witness for C3: station Grill, dish Chicken requiring Salt 1, empty stock,
backup Salt 1. -/
theorem processAllDishes_replenish_then_prepare_witness :
    ∃ stock',
      grillWithBackupSalt.processAllDishes.stations
          = [⟨"Grill", [⟨"Chicken", [⟨"Salt", 0, 1, 50⟩]⟩], stock'⟩]
        ∧ grillWithBackupSalt.processAllDishes.dish_queue = []
        ∧ stockQuantity stock' "Salt" = 0 + 1 - 1
        ∧ findStock grillWithBackupSalt.processAllDishes.backup_ingredients "Salt" = none := by
  obtain ⟨stock', h1, h2, h3, h4, -⟩ := processAllDishes_replenish_then_prepare
    ⟨"Grill", [⟨"Chicken", [⟨"Salt", 0, 1, 50⟩]⟩], []⟩ ⟨"Chicken", [⟨"Salt", 0, 1, 50⟩]⟩
    ⟨"Chicken", [⟨"Salt", 0, 1, 50⟩]⟩ [⟨"Salt", 1, 1, 50⟩] []
    (by decide) (by decide) (by decide) (by decide) (by decide)
  exact ⟨stock', h1, h2, h3 ⟨"Salt", 0, 1, 50⟩ (by decide),
    h4 ⟨"Salt", 0, 1, 50⟩ (by decide) ⟨"Salt", 1, 1, 50⟩ (by decide) rfl⟩

/-! ## Single-shot preparation: what it returns and what it touches -/

theorem prepareDish_unchanged_of_fail (s : KitchenStation) (dish_name : String)
    (h : (s.prepareDish dish_name).1 = false) : (s.prepareDish dish_name).2 = s := by
  unfold KitchenStation.prepareDish at h ⊢
  by_cases hcan : s.canCompleteOrder dish_name = true
  · cases hd : s.findDish dish_name with
    | none => simp [hcan, hd]
    | some d => simp [hcan, hd] at h
  · simp [hcan]

theorem prepareScan_of_first (dish_name : String) (before after : List KitchenStation)
    (s : KitchenStation) (hbefore : ∀ x ∈ before, (x.prepareDish dish_name).1 = false)
    (hs : (s.prepareDish dish_name).1 = true) :
    prepareScan dish_name (before ++ s :: after)
      = (true, before ++ (s.prepareDish dish_name).2 :: after) := by
  induction before with
  | nil =>
    rw [List.nil_append, prepareScan]
    rcases hp : s.prepareDish dish_name with ⟨flag, s'⟩
    rw [hp] at hs
    simp only at hs
    subst hs
    rfl
  | cons x xs ih =>
    have hx := hbefore x (List.mem_cons_self _ _)
    have hx2 := prepareDish_unchanged_of_fail x dish_name hx
    rw [List.cons_append, prepareScan, ih (fun y hy => hbefore y (List.mem_cons_of_mem _ hy))]
    rcases hp : x.prepareDish dish_name with ⟨flag, x'⟩
    rw [hp] at hx hx2
    simp only at hx hx2
    subst hx hx2
    rfl

theorem prepareScan_of_none (dish_name : String) (stations : List KitchenStation)
    (h : ∀ x ∈ stations, (x.prepareDish dish_name).1 = false) :
    prepareScan dish_name stations = (false, stations) := by
  induction stations with
  | nil => rfl
  | cons x xs ih =>
    have hx := h x (List.mem_cons_self _ _)
    have hx2 := prepareDish_unchanged_of_fail x dish_name hx
    rw [prepareScan, ih (fun y hy => h y (List.mem_cons_of_mem _ hy))]
    rcases hp : x.prepareDish dish_name with ⟨flag, x'⟩
    rw [hp] at hx hx2
    simp only at hx hx2
    subst hx hx2
    rfl

theorem first_capable_split (dish_name : String) (stations : List KitchenStation)
    (h : ∃ s ∈ stations, (s.prepareDish dish_name).1 = true) :
    ∃ before s after, stations = before ++ s :: after
      ∧ (∀ x ∈ before, (x.prepareDish dish_name).1 = false)
      ∧ (s.prepareDish dish_name).1 = true := by
  induction stations with
  | nil => simp at h
  | cons x xs ih =>
    by_cases hx : (x.prepareDish dish_name).1 = true
    · exact ⟨[], x, xs, rfl, by simp, hx⟩
    · obtain ⟨s, hs, hsp⟩ := h
      rcases List.mem_cons.mp hs with rfl | hs
      · exact absurd hsp hx
      · obtain ⟨before, s', after, hsplit, hbefore, hs'⟩ := ih ⟨s, hs, hsp⟩
        refine ⟨x :: before, s', after, by rw [hsplit]; rfl, ?_, hs'⟩
        intro y hy
        rcases List.mem_cons.mp hy with rfl | hy
        · simpa using hx
        · exact hbefore y hy

/-- C11: `prepareNextDish` returns false on an empty queue and leaves the
manager as it is; on a non-empty queue a false result comes with the queue
unchanged, the dish still at its front, and a true result with the old queue
without exactly its front element. -/
theorem prepareNextDish_queue_after (m : StationManager) :
    (m.dish_queue = [] → m.prepareNextDish = (false, m))
      ∧ m.prepareNextDish.2.dish_queue
          = (if m.prepareNextDish.1 = true then m.dish_queue.tail else m.dish_queue)
      ∧ ∀ dish rest, m.dish_queue = dish :: rest →
          (m.prepareNextDish.1 = false → m.prepareNextDish.2.dish_queue = dish :: rest)
            ∧ (m.prepareNextDish.1 = true → m.prepareNextDish.2.dish_queue = rest) := by
  have key : ∀ dish rest, m.dish_queue = dish :: rest →
      (m.prepareNextDish.1 = false → m.prepareNextDish.2.dish_queue = dish :: rest)
        ∧ (m.prepareNextDish.1 = true → m.prepareNextDish.2.dish_queue = rest) := by
    intro dish rest hq
    unfold StationManager.prepareNextDish
    rcases hp : prepareScan dish.name m.stations with ⟨flag, stations'⟩
    cases flag <;> simp [hq, hp]
  refine ⟨?_, ?_, key⟩
  · intro hq
    simp [StationManager.prepareNextDish, hq]
  · cases hq : m.dish_queue with
    | nil => simp [StationManager.prepareNextDish, hq]
    | cons dish rest =>
      obtain ⟨k1, k2⟩ := key dish rest hq
      cases hflag : m.prepareNextDish.1 with
      | false => simpa using k1 hflag
      | true => simpa using k2 hflag

/-- Witness for C11: Range prepares the Soup and the queue loses its front;
Grill cannot prepare Chicken and the queue is as before. -/
theorem prepareNextDish_queue_after_witness :
    (twoSoupStations.prepareNextDish.1 = true
        ∧ twoSoupStations.prepareNextDish.2.dish_queue = [])
      ∧ (grillWithoutSalt.prepareNextDish.1 = false
        ∧ grillWithoutSalt.prepareNextDish.2.dish_queue
            = [⟨"Chicken", [⟨"Salt", 0, 1, 50⟩]⟩, ⟨"X", []⟩]) :=
  ⟨⟨by decide, ((prepareNextDish_queue_after twoSoupStations).2.2 soup [] rfl).2 (by decide)⟩,
    ⟨by decide, ((prepareNextDish_queue_after grillWithoutSalt).2.2
      ⟨"Chicken", [⟨"Salt", 0, 1, 50⟩]⟩ [⟨"X", []⟩] rfl).1 (by decide)⟩⟩

/-- C12: on a non-empty queue `prepareNextDish` returns true exactly when some
station's `prepareDish` succeeds for the name of the front dish.  When it does,
the registry afterwards is the old one with the first station, in registry
order, whose `prepareDish` succeeds replaced by the station that call leaves,
which keeps its name and dishes; every other station is as before.  When it
returns false every station is as before.  The backup pool and the draw
history are never changed. -/
theorem prepareNextDish_first_capable (m : StationManager) (dish : Dish) (rest : List Dish)
    (hqueue : m.dish_queue = dish :: rest) :
    (m.prepareNextDish.1 = true ↔ ∃ s ∈ m.stations, (s.prepareDish dish.name).1 = true)
      ∧ (m.prepareNextDish.1 = true →
          ∃ before s after, m.stations = before ++ s :: after
            ∧ (∀ x ∈ before, (x.prepareDish dish.name).1 = false)
            ∧ (s.prepareDish dish.name).1 = true
            ∧ (s.prepareDish dish.name).2.name = s.name
            ∧ (s.prepareDish dish.name).2.dishes = s.dishes
            ∧ m.prepareNextDish.2.stations = before ++ (s.prepareDish dish.name).2 :: after)
      ∧ (m.prepareNextDish.1 = false → m.prepareNextDish.2.stations = m.stations)
      ∧ m.prepareNextDish.2.backup_ingredients = m.backup_ingredients
      ∧ m.prepareNextDish.2.draw_log = m.draw_log := by
  by_cases h : ∃ s ∈ m.stations, (s.prepareDish dish.name).1 = true
  · obtain ⟨before, s, after, hsplit, hbefore, hs⟩ := first_capable_split dish.name m.stations h
    have hscan := prepareScan_of_first dish.name before after s hbefore hs
    rw [← hsplit] at hscan
    have hres : m.prepareNextDish
        = (true, { m with stations := before ++ (s.prepareDish dish.name).2 :: after,
                          dish_queue := rest }) := by
      simp [StationManager.prepareNextDish, hqueue, hscan]
    rw [hres]
    refine ⟨⟨fun _ => h, fun _ => rfl⟩, fun _ => ?_, by simp, rfl, rfl⟩
    exact ⟨before, s, after, hsplit, hbefore, hs, (prepareDish_frame s dish.name).1,
      (prepareDish_frame s dish.name).2, rfl⟩
  · have hnone : ∀ x ∈ m.stations, (x.prepareDish dish.name).1 = false := by
      intro x hx
      by_contra hcon
      exact h ⟨x, hx, by simpa using hcon⟩
    have hscan := prepareScan_of_none dish.name m.stations hnone
    have hm : m = { m with dish_queue := dish :: rest } := by
      cases m; simp_all
    have hres : m.prepareNextDish = (false, m) := by
      simp only [StationManager.prepareNextDish, hqueue, hscan]
      rw [← hm]
    rw [hres]
    exact ⟨⟨fun hc => by simp at hc, fun hc => absurd hc h⟩, fun hc => by simp at hc,
      fun _ => rfl, rfl, rfl⟩

/-- Witness for C12: Stove cannot prepare the Soup, Range can; only Range's
stock changes. -/
theorem prepareNextDish_first_capable_witness :
    twoSoupStations.prepareNextDish.1 = true
      ∧ twoSoupStations.prepareNextDish.2.stations
          = [⟨"Stove", [soup], []⟩, ⟨"Range", [soup], [⟨"Water", 0, 0, 10⟩]⟩]
      ∧ twoSoupStations.prepareNextDish.2.backup_ingredients = [] :=
  have h := prepareNextDish_first_capable twoSoupStations soup [] rfl
  ⟨h.1.mpr ⟨⟨"Range", [soup], [⟨"Water", 1, 0, 10⟩]⟩, by decide, by decide⟩, by decide,
    h.2.2.2.1⟩

/-! ## Adding to the backup pool -/

theorem addToBackup_of_split (pre post : List Ingredient) (b ingredient : Ingredient)
    (hpre : ∀ x ∈ pre, x.name ≠ ingredient.name) (hb : b.name = ingredient.name) :
    addToBackup (pre ++ b :: post) ingredient
      = pre ++ { b with quantity := wrapInt (b.quantity + ingredient.quantity) } :: post := by
  induction pre with
  | nil => simp [addToBackup, hb]
  | cons x xs ih =>
    rw [List.cons_append, addToBackup, if_neg (hpre x (List.mem_cons_self _ _)),
      ih (fun y hy => hpre y (List.mem_cons_of_mem _ hy))]
    rfl

theorem addToBackup_of_absent (pool : List Ingredient) (ingredient : Ingredient)
    (h : ∀ x ∈ pool, x.name ≠ ingredient.name) :
    addToBackup pool ingredient = pool ++ [ingredient] := by
  induction pool with
  | nil => rfl
  | cons x xs ih =>
    rw [addToBackup, if_neg (h x (List.mem_cons_self _ _)),
      ih (fun y hy => h y (List.mem_cons_of_mem _ hy))]
    rfl

theorem wrapInt_of_range (x : Int) (h : IntRange x) : wrapInt x = x := by
  unfold IntRange at h
  unfold wrapInt
  omega

/-- C13, counterexample: on the empty pool, `addBackupIngredient` with
Salt 2147483647 and then with Salt 1 leaves one record named Salt whose
quantity is -2147483648, not 2147483647 + 1: the `+=` is done in an `int`. -/
theorem addBackupIngredient_twice_overflows :
    (∀ x ∈ (StationManager.mk [] [] [] []).backup_ingredients, x.name ≠ "Salt")
      ∧ (((StationManager.mk [] [] [] []).addBackupIngredient
            ⟨"Salt", 2147483647, 0, 1⟩).2.addBackupIngredient
            ⟨"Salt", 1, 0, 1⟩).2.backup_ingredients
          = [⟨"Salt", -2147483648, 0, 1⟩]
      ∧ poolQuantity
          (((StationManager.mk [] [] [] []).addBackupIngredient
            ⟨"Salt", 2147483647, 0, 1⟩).2.addBackupIngredient
            ⟨"Salt", 1, 0, 1⟩).2.backup_ingredients "Salt"
          ≠ 2147483647 + 1 := by
  decide

/-- C13, amended: on a backup pool with no record named n, `addBackupIngredient`
with a record named n and quantity q1, then again with a record named n and
quantity q2, where q1 + q2 is a value an `int` can hold, yields the old pool
followed by one record: the first record given, with quantity q1 + q2.  So the
pool has exactly one record named n, its quantity is q1 + q2, and all earlier
records are unchanged. -/
theorem addBackupIngredient_twice (m : StationManager) (first second : Ingredient)
    (habsent : ∀ x ∈ m.backup_ingredients, x.name ≠ first.name)
    (hsame : second.name = first.name)
    (hrange : IntRange (first.quantity + second.quantity)) :
    ((m.addBackupIngredient first).2.addBackupIngredient second).2.backup_ingredients
        = m.backup_ingredients
          ++ [{ first with quantity := first.quantity + second.quantity }]
      ∧ (((m.addBackupIngredient first).2.addBackupIngredient second).2.backup_ingredients.filter
          (fun r => decide (r.name = first.name))).length = 1
      ∧ poolQuantity
          ((m.addBackupIngredient first).2.addBackupIngredient second).2.backup_ingredients
          first.name = first.quantity + second.quantity := by
  have h1 : (m.addBackupIngredient first).2.backup_ingredients
      = m.backup_ingredients ++ [first] := addToBackup_of_absent _ _ habsent
  have h2 : ((m.addBackupIngredient first).2.addBackupIngredient second).2.backup_ingredients
      = m.backup_ingredients
        ++ [{ first with quantity := first.quantity + second.quantity }] := by
    show addToBackup (m.addBackupIngredient first).2.backup_ingredients second = _
    rw [h1, addToBackup_of_split m.backup_ingredients [] first second
      (fun x hx => by rw [hsame]; exact habsent x hx) hsame.symm, wrapInt_of_range _ hrange]
  have hfilter : m.backup_ingredients.filter (fun r => decide (r.name = first.name)) = [] := by
    rw [List.filter_eq_nil_iff]
    intro x hx
    simpa using habsent x hx
  refine ⟨h2, ?_, ?_⟩
  · rw [h2, List.filter_append, hfilter]
    simp
  · unfold poolQuantity
    rw [h2, List.filter_append, hfilter]
    simp

/-- Witness for C13: Thyme 2 and then Thyme 3 added to a pool of Salt and
Pepper. -/
theorem addBackupIngredient_twice_witness :
    (((StationManager.mk [] [] saltAndPepper []).addBackupIngredient
        ⟨"Thyme", 2, 1, 70⟩).2.addBackupIngredient ⟨"Thyme", 3, 5, 90⟩).2.backup_ingredients
      = saltAndPepper ++ [⟨"Thyme", 2 + 3, 1, 70⟩] :=
  (addBackupIngredient_twice (StationManager.mk [] [] saltAndPepper []) ⟨"Thyme", 2, 1, 70⟩
    ⟨"Thyme", 3, 5, 90⟩ (by decide) rfl (by unfold IntRange; decide)).1

/-- C14, counterexample: on the pool holding Salt 2147483647,
`addBackupIngredient` with Salt 1 returns true and leaves the record with
quantity -2147483648: it has not grown by the new record's quantity. -/
theorem addBackupIngredient_merge_overflows :
    ((StationManager.mk [] [] [⟨"Salt", 2147483647, 0, 1⟩] []).addBackupIngredient
        ⟨"Salt", 1, 0, 1⟩).1 = true
      ∧ ((StationManager.mk [] [] [⟨"Salt", 2147483647, 0, 1⟩] []).addBackupIngredient
        ⟨"Salt", 1, 0, 1⟩).2.backup_ingredients = [⟨"Salt", -2147483648, 0, 1⟩]
      ∧ ((StationManager.mk [] [] [⟨"Salt", 2147483647, 0, 1⟩] []).addBackupIngredient
        ⟨"Salt", 1, 0, 1⟩).2.backup_ingredients ≠ [⟨"Salt", 2147483647 + 1, 0, 1⟩] := by
  decide

/-- C14, amended: `addBackupIngredient` always returns true and writes nothing
but the backup pool.  When a record of the ingredient's name exists, the first
such record has its quantity replaced by the `int` sum of the two quantities,
which is the old quantity increased by the ingredient's quantity whenever that
sum is a value an `int` can hold; its name, price and required_quantity stay
as they were, and the records before and after it are unchanged, so the pool
keeps its length.  When no record has that name, the pool afterwards is the
old pool with the given record appended as it is. -/
theorem addBackupIngredient_merges_or_appends (m : StationManager) (ingredient : Ingredient) :
    (m.addBackupIngredient ingredient).1 = true
      ∧ (m.addBackupIngredient ingredient).2.stations = m.stations
      ∧ (m.addBackupIngredient ingredient).2.dish_queue = m.dish_queue
      ∧ (∀ pre b post, m.backup_ingredients = pre ++ b :: post →
          (∀ x ∈ pre, x.name ≠ ingredient.name) → b.name = ingredient.name →
            (m.addBackupIngredient ingredient).2.backup_ingredients
                = pre ++ { b with quantity := wrapInt (b.quantity + ingredient.quantity) }
                    :: post
              ∧ (IntRange (b.quantity + ingredient.quantity) →
                  (m.addBackupIngredient ingredient).2.backup_ingredients
                    = pre ++ { b with quantity := b.quantity + ingredient.quantity } :: post)
              ∧ (m.addBackupIngredient ingredient).2.backup_ingredients.length
                = m.backup_ingredients.length)
      ∧ ((∀ x ∈ m.backup_ingredients, x.name ≠ ingredient.name) →
          (m.addBackupIngredient ingredient).2.backup_ingredients
            = m.backup_ingredients ++ [ingredient]) := by
  refine ⟨rfl, rfl, rfl, ?_, ?_⟩
  · intro pre b post hsplit hpre hb
    have h : (m.addBackupIngredient ingredient).2.backup_ingredients
        = pre ++ { b with quantity := wrapInt (b.quantity + ingredient.quantity) }
            :: post := by
      show addToBackup m.backup_ingredients ingredient = _
      rw [hsplit, addToBackup_of_split pre post b ingredient hpre hb]
    refine ⟨h, ?_, ?_⟩
    · intro hrange
      rw [h, wrapInt_of_range _ hrange]
    · rw [h, hsplit]
      simp
  · intro habsent
    exact addToBackup_of_absent _ _ habsent

/-- Witness for C14: Pepper 5 added to a pool of Salt 4 and Pepper 2, and Thyme
1 added to the same pool. -/
theorem addBackupIngredient_merges_or_appends_witness :
    ((StationManager.mk [] [] saltAndPepper []).addBackupIngredient
        ⟨"Pepper", 5, 9, 99⟩).2.backup_ingredients
        = [⟨"Salt", 4, 1, 50⟩, ⟨"Pepper", 2 + 5, 1, 30⟩]
      ∧ ((StationManager.mk [] [] saltAndPepper []).addBackupIngredient
        ⟨"Thyme", 1, 1, 70⟩).2.backup_ingredients = saltAndPepper ++ [⟨"Thyme", 1, 1, 70⟩] :=
  have h1 := addBackupIngredient_merges_or_appends (StationManager.mk [] [] saltAndPepper [])
    ⟨"Pepper", 5, 9, 99⟩
  have h2 := addBackupIngredient_merges_or_appends (StationManager.mk [] [] saltAndPepper [])
    ⟨"Thyme", 1, 1, 70⟩
  ⟨(h1.2.2.2.1 [⟨"Salt", 4, 1, 50⟩] ⟨"Pepper", 2, 1, 30⟩ [] rfl (by decide) rfl).2.1
      (by unfold IntRange; decide),
    h2.2.2.2.2 (by decide)⟩

/-- C15: `addBackupIngredients` returns false and leaves the manager, backup
pool included, unchanged when given an empty collection; for every non-empty
collection it returns true and the backup pool afterwards is the given
collection itself, whatever the pool held before, the rest of the manager
staying as it was. -/
theorem addBackupIngredients_replaces (m : StationManager) (ingredients : List Ingredient) :
    (ingredients = [] → m.addBackupIngredients ingredients = (false, m))
      ∧ (ingredients ≠ [] →
          m.addBackupIngredients ingredients
            = (true, { m with backup_ingredients := ingredients })) := by
  constructor
  · intro h
    simp [StationManager.addBackupIngredients, h]
  · intro h
    simp [StationManager.addBackupIngredients, h]

/-- Witness for C15: an empty batch and a one-record batch given to a manager
whose pool holds Salt and Pepper. -/
theorem addBackupIngredients_replaces_witness :
    (StationManager.mk [] [] saltAndPepper []).addBackupIngredients []
        = (false, StationManager.mk [] [] saltAndPepper [])
      ∧ (StationManager.mk [] [] saltAndPepper []).addBackupIngredients [⟨"Thyme", 1, 1, 70⟩]
        = (true, StationManager.mk [] [] [⟨"Thyme", 1, 1, 70⟩] []) :=
  ⟨(addBackupIngredients_replaces (StationManager.mk [] [] saltAndPepper []) []).1 rfl,
    (addBackupIngredients_replaces (StationManager.mk [] [] saltAndPepper [])
      [⟨"Thyme", 1, 1, 70⟩]).2 (by decide)⟩

/-! ## Names in the backup pool -/

theorem mem_names_addToBackup (pool : List Ingredient) (ingredient : Ingredient) (n : String)
    (h : n ∈ (addToBackup pool ingredient).map Ingredient.name) :
    n ∈ pool.map Ingredient.name ∨ n = ingredient.name := by
  induction pool with
  | nil =>
    right
    simpa [addToBackup] using h
  | cons x xs ih =>
    unfold addToBackup at h
    split at h
    · left
      simpa using h
    · rw [List.map_cons, List.mem_cons] at h
      rcases h with h | h
      · left; simp [h]
      · rcases ih h with h' | h'
        · left; simp [List.mem_cons, h']
        · right; exact h'

theorem distinctNames_addToBackup (pool : List Ingredient) (ingredient : Ingredient)
    (h : DistinctNames pool) : DistinctNames (addToBackup pool ingredient) := by
  unfold DistinctNames at h ⊢
  induction pool with
  | nil => simp [addToBackup]
  | cons x xs ih =>
    rw [List.map_cons, List.nodup_cons] at h
    unfold addToBackup
    split
    · rw [List.map_cons, List.nodup_cons]
      exact h
    · next hx =>
      rw [List.map_cons, List.nodup_cons]
      refine ⟨fun hmem => ?_, ih h.2⟩
      rcases mem_names_addToBackup xs ingredient x.name hmem with h' | h'
      · exact h.1 h'
      · exact hx h'

theorem drawBackup_names_sublist (ingredient_name : String) (quantity : Int)
    (pool : List Ingredient) (found : Ingredient) (pool' : List Ingredient)
    (h : drawBackup ingredient_name quantity pool = some (found, pool')) :
    (pool'.map Ingredient.name).Sublist (pool.map Ingredient.name) := by
  induction pool generalizing pool' with
  | nil => simp [drawBackup] at h
  | cons x xs ih =>
    unfold drawBackup at h
    split at h
    · simp only [Option.some.injEq, Prod.mk.injEq] at h
      obtain ⟨-, rfl⟩ := h
      split
      · exact (List.Sublist.refl _).cons _
      · exact List.Sublist.refl _
    · cases hd : drawBackup ingredient_name quantity xs with
      | none => simp [hd] at h
      | some r =>
        obtain ⟨found', rest'⟩ := r
        simp only [hd, Option.some.injEq, Prod.mk.injEq] at h
        obtain ⟨rfl, rfl⟩ := h
        exact (ih rest' hd).cons₂ _

theorem distinctNames_replenish (m : StationManager) (station_name ingredient_name : String)
    (quantity : Int) (h : DistinctNames m.backup_ingredients) :
    DistinctNames (m.replenishStationIngredientFromBackup station_name ingredient_name
      quantity).2.backup_ingredients := by
  unfold StationManager.replenishStationIngredientFromBackup
  split
  · exact h
  · cases hd : drawBackup ingredient_name quantity m.backup_ingredients with
    | none => exact h
    | some r =>
      obtain ⟨found, pool'⟩ := r
      exact List.Nodup.sublist (drawBackup_names_sublist _ _ _ _ _ hd) h

theorem distinctNames_runBackupOps (ops : List BackupOp) (m : StationManager)
    (hstart : DistinctNames m.backup_ingredients)
    (hbatches : ∀ ingredients, BackupOp.addBackupIngredients ingredients ∈ ops →
      DistinctNames ingredients) :
    DistinctNames (runBackupOps m ops).backup_ingredients := by
  induction ops generalizing m with
  | nil => exact hstart
  | cons op rest ih =>
    have hrest : ∀ ingredients, BackupOp.addBackupIngredients ingredients ∈ rest →
        DistinctNames ingredients := fun l hl => hbatches l (List.mem_cons_of_mem _ hl)
    show DistinctNames (runBackupOps (applyBackupOp m op) rest).backup_ingredients
    apply ih _ _ hrest
    cases op with
    | addBackupIngredients ingredients =>
      have hl := hbatches ingredients (List.mem_cons_self _ _)
      show DistinctNames (m.addBackupIngredients ingredients).2.backup_ingredients
      unfold StationManager.addBackupIngredients
      split
      · exact hstart
      · exact hl
    | addBackupIngredient ingredient => exact distinctNames_addToBackup _ _ hstart
    | clearBackupIngredients => exact List.nodup_nil
    | replenishStationIngredientFromBackup station_name ingredient_name quantity =>
      exact distinctNames_replenish m station_name ingredient_name quantity hstart

/-- C16, counterexample: from the empty manager, one `addBackupIngredients`
call with the batch [Salt 1, Salt 2] leaves a backup pool in which two records
share the name Salt. -/
theorem backup_names_not_always_distinct :
    StationManager.new.backup_ingredients = []
      ∧ (runBackupOps StationManager.new
          [BackupOp.addBackupIngredients
            [⟨"Salt", 1, 1, 50⟩, ⟨"Salt", 2, 1, 50⟩]]).backup_ingredients
        = [⟨"Salt", 1, 1, 50⟩, ⟨"Salt", 2, 1, 50⟩]
      ∧ ¬ DistinctNames (runBackupOps StationManager.new
          [BackupOp.addBackupIngredients
            [⟨"Salt", 1, 1, 50⟩, ⟨"Salt", 2, 1, 50⟩]]).backup_ingredients := by
  unfold DistinctNames
  decide

/-- C16, amended: starting from an empty backup pool, after every sequence of
`addBackupIngredients`, `addBackupIngredient`, `clearBackupIngredients` and
`replenishStationIngredientFromBackup` calls in which every collection given to
`addBackupIngredients` has pairwise distinct names, no two records of the
backup pool share a name. -/
theorem backup_names_distinct (m : StationManager) (ops : List BackupOp)
    (hstart : m.backup_ingredients = [])
    (hbatches : ∀ ingredients, BackupOp.addBackupIngredients ingredients ∈ ops →
      DistinctNames ingredients) :
    DistinctNames (runBackupOps m ops).backup_ingredients :=
  distinctNames_runBackupOps ops m (by rw [hstart]; exact List.nodup_nil) hbatches

/-- Witness for the amended C16: a batch, two single additions, a draw that
empties a record, a clear and a last addition, on the manager with the station
Grill. -/
theorem backup_names_distinct_witness :
    DistinctNames (runBackupOps (StationManager.mk [KitchenStation.new "Grill"] [] [] [])
      [BackupOp.addBackupIngredients saltAndPepper,
        BackupOp.addBackupIngredient ⟨"Salt", 1, 1, 50⟩,
        BackupOp.addBackupIngredient ⟨"Thyme", 1, 1, 70⟩,
        BackupOp.replenishStationIngredientFromBackup "Grill" "Pepper" 2,
        BackupOp.clearBackupIngredients,
        BackupOp.addBackupIngredient ⟨"Salt", 1, 1, 50⟩]).backup_ingredients :=
  backup_names_distinct (StationManager.mk [KitchenStation.new "Grill"] [] [] []) _ rfl (by
    intro ingredients h
    simp only [List.mem_cons, BackupOp.addBackupIngredients.injEq, reduceCtorEq,
      List.mem_singleton, or_false, List.not_mem_nil] at h
    subst h
    unfold DistinctNames
    decide)

/-! ## The registry: lookup, removal and moving to the front -/

theorem getElem?_append_length {α : Type} (pre : List α) (x : α) (xs : List α) :
    (pre ++ x :: xs)[pre.length]? = some x := by
  induction pre with
  | nil => simp
  | cons y ys ih => simpa using ih

theorem eraseIdx_append_length {α : Type} (pre : List α) (x : α) (xs : List α) :
    (pre ++ x :: xs).eraseIdx pre.length = pre ++ xs := by
  induction pre with
  | nil => rfl
  | cons y ys ih => simpa using ih

theorem findStation_eq_none_iff (m : StationManager) (station_name : String) :
    m.findStation station_name = none ↔ ∀ s ∈ m.stations, s.name ≠ station_name := by
  unfold StationManager.findStation
  rw [List.find?_eq_none]
  simp

theorem findStation_eq_some_iff (m : StationManager) (station_name : String)
    (station : KitchenStation) :
    m.findStation station_name = some station
      ↔ ∃ before after, m.stations = before ++ station :: after
          ∧ (∀ x ∈ before, x.name ≠ station_name) ∧ station.name = station_name := by
  unfold StationManager.findStation
  rw [List.find?_eq_some]
  constructor
  · rintro ⟨hname, before, after, hsplit, hbefore⟩
    exact ⟨before, after, hsplit, fun x hx => by simpa using hbefore x hx, by simpa using hname⟩
  · rintro ⟨before, after, hsplit, hbefore, hname⟩
    exact ⟨by simpa using hname, before, after, hsplit,
      fun x hx => by simpa using hbefore x hx⟩

theorem first_named_split (stations : List KitchenStation) (station_name : String)
    (h : ∃ s ∈ stations, s.name = station_name) :
    ∃ before s after, stations = before ++ s :: after
      ∧ (∀ x ∈ before, x.name ≠ station_name) ∧ s.name = station_name := by
  cases hf : (StationManager.mk stations [] [] []).findStation station_name with
  | none =>
    obtain ⟨s, hs, hname⟩ := h
    exact absurd hname ((findStation_eq_none_iff _ _).mp hf s hs)
  | some s =>
    obtain ⟨before, after, h1, h2, h3⟩ := (findStation_eq_some_iff _ _ _).mp hf
    exact ⟨before, s, after, h1, h2, h3⟩

theorem getStationIndex_of_split (before after : List KitchenStation) (s : KitchenStation)
    (station_name : String) (hbefore : ∀ x ∈ before, x.name ≠ station_name)
    (hs : s.name = station_name) :
    getStationIndex (before ++ s :: after) station_name = some before.length := by
  induction before with
  | nil => simp [getStationIndex, hs]
  | cons x xs ih =>
    rw [List.cons_append, getStationIndex, if_neg (hbefore x (List.mem_cons_self _ _)),
      ih (fun y hy => hbefore y (List.mem_cons_of_mem _ hy))]
    rfl

theorem removeStationFrom_of_split (m : StationManager) (station_name : String)
    (mid : List KitchenStation) (pre after : List KitchenStation) (s : KitchenStation)
    (fuel : Nat) (hst : m.stations = pre ++ mid ++ s :: after)
    (hmid : ∀ x ∈ mid, x.name ≠ station_name) (hs : s.name = station_name)
    (hfuel : mid.length < fuel) :
    removeStationFrom m station_name fuel pre.length
      = (true, { m with stations := pre ++ mid ++ after }) := by
  induction mid generalizing pre fuel with
  | nil =>
    cases fuel with
    | zero => simp at hfuel
    | succ f =>
      rw [List.append_nil] at hst ⊢
      rw [removeStationFrom, hst, getElem?_append_length]
      simp only [hs, if_true, eraseIdx_append_length]
  | cons x xs ih =>
    cases fuel with
    | zero => simp at hfuel
    | succ f =>
      have hst' : m.stations = pre ++ x :: (xs ++ s :: after) := by
        rw [hst]; simp
      have hx := hmid x (List.mem_cons_self _ _)
      rw [removeStationFrom, hst', getElem?_append_length]
      simp only [if_neg hx]
      have := ih (pre ++ [x]) f (by rw [hst]; simp)
        (fun y hy => hmid y (List.mem_cons_of_mem _ hy))
        (by simpa using hfuel)
      simpa using this

theorem removeStationFrom_of_none (m : StationManager) (station_name : String)
    (rest pre : List KitchenStation) (fuel : Nat) (hst : m.stations = pre ++ rest)
    (hrest : ∀ x ∈ rest, x.name ≠ station_name) :
    removeStationFrom m station_name fuel pre.length = (false, m) := by
  induction rest generalizing pre fuel with
  | nil =>
    cases fuel with
    | zero => rfl
    | succ f =>
      rw [removeStationFrom, hst]
      simp
  | cons x xs ih =>
    cases fuel with
    | zero => rfl
    | succ f =>
      have hx := hrest x (List.mem_cons_self _ _)
      rw [removeStationFrom, hst, getElem?_append_length]
      simp only [if_neg hx]
      have := ih (pre ++ [x]) f (by rw [hst]; simp)
        (fun y hy => hrest y (List.mem_cons_of_mem _ hy))
      simpa using this

theorem removeStation_of_split (m : StationManager) (station_name : String)
    (before after : List KitchenStation) (s : KitchenStation)
    (hst : m.stations = before ++ s :: after) (hbefore : ∀ x ∈ before, x.name ≠ station_name)
    (hs : s.name = station_name) :
    m.removeStation station_name = (true, { m with stations := before ++ after }) := by
  have := removeStationFrom_of_split m station_name before [] after s m.stations.length
    (by simpa using hst) hbefore hs (by rw [hst]; simp)
  simpa [StationManager.removeStation] using this

theorem removeStation_of_none (m : StationManager) (station_name : String)
    (h : ∀ x ∈ m.stations, x.name ≠ station_name) :
    m.removeStation station_name = (false, m) := by
  have := removeStationFrom_of_none m station_name m.stations [] m.stations.length rfl h
  simpa [StationManager.removeStation] using this

/-- C20: `findStation` returns the first station in registry order whose name
equals the given name: the registry splits into stations of other names, the
returned station, and the rest.  It returns the not-found value exactly when
no station of the registry has that name.  It is a `const` member function:
its embedding yields the handle only and no manager, the registry is not
written. -/
theorem findStation_first_match (m : StationManager) (station_name : String) :
    (m.findStation station_name = none ↔ ∀ s ∈ m.stations, s.name ≠ station_name)
      ∧ (∀ station, m.findStation station_name = some station
          ↔ ∃ before after, m.stations = before ++ station :: after
              ∧ (∀ x ∈ before, x.name ≠ station_name) ∧ station.name = station_name)
      ∧ ((∃ s ∈ m.stations, s.name = station_name)
          → ∃ station, m.findStation station_name = some station ∧ station ∈ m.stations
              ∧ station.name = station_name) := by
  refine ⟨findStation_eq_none_iff m station_name, findStation_eq_some_iff m station_name, ?_⟩
  intro h
  obtain ⟨before, s, after, h1, h2, h3⟩ := first_named_split m.stations station_name h
  exact ⟨s, (findStation_eq_some_iff m station_name s).mpr ⟨before, after, h1, h2, h3⟩,
    by rw [h1]; simp, h3⟩

/-- Witness for C20: in [A, B, C] the lookup of "B" returns the station B and
the lookup of "D" the not-found value. -/
theorem findStation_first_match_witness :
    registryABC.findStation "B" = some (KitchenStation.new "B")
      ∧ registryABC.findStation "D" = none :=
  ⟨((findStation_first_match registryABC "B").2.1 (KitchenStation.new "B")).mpr
      ⟨[KitchenStation.new "A"], [KitchenStation.new "C"], rfl, by decide, rfl⟩,
    (findStation_first_match registryABC "D").1.mpr (by decide)⟩

/-- C19: `removeStation` returns true exactly when some station of the registry
has the given name.  When it returns true the registry afterwards is the old
one without the first station of that name, all the others in the same order;
when it returns false the manager is unchanged.  Nothing but the registry is
written. -/
theorem removeStation_first_match (m : StationManager) (station_name : String) :
    ((m.removeStation station_name).1 = true ↔ ∃ s ∈ m.stations, s.name = station_name)
      ∧ ((m.removeStation station_name).1 = false → (m.removeStation station_name).2 = m)
      ∧ (∀ before s after, m.stations = before ++ s :: after →
          (∀ x ∈ before, x.name ≠ station_name) → s.name = station_name →
            m.removeStation station_name = (true, { m with stations := before ++ after }))
      ∧ ((m.removeStation station_name).1 = true →
          ∃ before s after, m.stations = before ++ s :: after
            ∧ (∀ x ∈ before, x.name ≠ station_name) ∧ s.name = station_name
            ∧ (m.removeStation station_name).2 = { m with stations := before ++ after }) := by
  by_cases h : ∃ s ∈ m.stations, s.name = station_name
  · obtain ⟨before, s, after, h1, h2, h3⟩ := first_named_split m.stations station_name h
    have hres := removeStation_of_split m station_name before after s h1 h2 h3
    refine ⟨?_, ?_, ?_, ?_⟩
    · rw [hres]; exact ⟨fun _ => h, fun _ => rfl⟩
    · rw [hres]; intro hc; simp at hc
    · intro before' s' after' g1 g2 g3
      exact removeStation_of_split m station_name before' after' s' g1 g2 g3
    · intro _
      exact ⟨before, s, after, h1, h2, h3, by rw [hres]⟩
  · have hnone : ∀ x ∈ m.stations, x.name ≠ station_name := fun x hx hn => h ⟨x, hx, hn⟩
    have hres := removeStation_of_none m station_name hnone
    refine ⟨?_, ?_, ?_, ?_⟩
    · rw [hres]; exact ⟨fun hc => by simp at hc, fun hc => absurd hc h⟩
    · rw [hres]; intro _; rfl
    · intro before' s' after' g1 g2 g3
      exact absurd g3 (hnone s' (by rw [g1]; simp))
    · rw [hres]; intro hc; simp at hc

/-- Witness for C19: removing "B" from [A, B, C] leaves [A, C]; removing "D"
changes nothing. -/
theorem removeStation_first_match_witness :
    registryABC.removeStation "B"
        = (true, { registryABC with
            stations := [KitchenStation.new "A", KitchenStation.new "C"] })
      ∧ (registryABC.removeStation "D").2 = registryABC :=
  ⟨(removeStation_first_match registryABC "B").2.2.1 [KitchenStation.new "A"]
      (KitchenStation.new "B") [KitchenStation.new "C"] rfl (by decide) rfl,
    (removeStation_first_match registryABC "D").2.1 (by decide)⟩

/-- C18: when no station has the given name `moveStationToFront` returns false
and the manager is unchanged; otherwise it returns true and the registry
afterwards is the first station of that name followed by all the other
stations in their previous relative order, which is the registry as it was
when that station was already first.  Nothing but the registry is written. -/
theorem moveStationToFront_first_match (m : StationManager) (station_name : String) :
    ((∀ s ∈ m.stations, s.name ≠ station_name) →
        m.moveStationToFront station_name = (false, m))
      ∧ (∀ before s after, m.stations = before ++ s :: after →
          (∀ x ∈ before, x.name ≠ station_name) → s.name = station_name →
            m.moveStationToFront station_name
              = (true, { m with stations := s :: (before ++ after) }))
      ∧ (∀ s after, m.stations = s :: after → s.name = station_name →
          m.moveStationToFront station_name = (true, m)) := by
  have hsplit : ∀ before s after, m.stations = before ++ s :: after →
      (∀ x ∈ before, x.name ≠ station_name) → s.name = station_name →
        m.moveStationToFront station_name
          = (true, { m with stations := s :: (before ++ after) }) := by
    intro before s after h1 h2 h3
    have hfind := (findStation_eq_some_iff m station_name s).mpr ⟨before, after, h1, h2, h3⟩
    unfold StationManager.moveStationToFront
    rw [hfind]
    cases before with
    | nil =>
      simp only [List.nil_append] at h1 ⊢
      simp only [h1, h3, if_true]
      cases m
      simp_all
    | cons x xs =>
      have hx := h2 x (List.mem_cons_self _ _)
      have hidx := getStationIndex_of_split (x :: xs) after s s.name
        (fun y hy => by rw [h3]; exact h2 y hy) rfl
      simp only [h1, List.cons_append, if_neg hx]
      rw [← List.cons_append, hidx]
      simp only [eraseIdx_append_length]
      rfl
  refine ⟨?_, hsplit, ?_⟩
  · intro hnone
    unfold StationManager.moveStationToFront
    rw [(findStation_eq_none_iff m station_name).mpr hnone]
  · intro s after h1 h3
    have := hsplit [] s after h1 (by simp) h3
    rw [this]
    cases m
    simp_all

/-- Witness for C18: in [A, B, C], moving "C" gives [C, A, B]. -/
theorem moveStationToFront_first_match_witness :
    registryABC.moveStationToFront "C"
      = (true, { registryABC with
          stations := [KitchenStation.new "C", KitchenStation.new "A",
            KitchenStation.new "B"] }) :=
  (moveStationToFront_first_match registryABC "C").2.1
    [KitchenStation.new "A", KitchenStation.new "B"] (KitchenStation.new "C") [] rfl
    (by decide) rfl

/-! ## Names in the registry -/

theorem assignDishToStation_name (s : KitchenStation) (dish : Dish) :
    (s.assignDishToStation dish).2.name = s.name := by
  unfold KitchenStation.assignDishToStation
  split <;> rfl

theorem mergeInto_name (station1 station2 : KitchenStation) :
    (mergeInto station1 station2).name = station1.name := by
  unfold mergeInto
  have hd : ∀ (ds : List Dish) (s : KitchenStation),
      (ds.foldl (fun s dish => (s.assignDishToStation dish).2) s).name = s.name := by
    intro ds
    induction ds with
    | nil => intro s; rfl
    | cons d rest ih =>
      intro s
      rw [List.foldl_cons, ih, assignDishToStation_name]
  have hi : ∀ (is : List Ingredient) (s : KitchenStation),
      (is.foldl (fun s ingredient => s.replenishStationIngredients ingredient) s).name
        = s.name := by
    intro is
    induction is with
    | nil => intro s; rfl
    | cons i rest ih =>
      intro s
      rw [List.foldl_cons, ih]
      rfl
  rw [hi, hd]

theorem updateStation_names (station_name : String) (f : KitchenStation → KitchenStation)
    (stations : List KitchenStation) (hf : ∀ s, (f s).name = s.name) :
    (updateStation station_name f stations).map KitchenStation.name
      = stations.map KitchenStation.name := by
  induction stations with
  | nil => rfl
  | cons s rest ih =>
    unfold updateStation
    split
    · simp [hf]
    · simp [ih]

theorem removeStation_names_sublist (m : StationManager) (station_name : String) :
    ((m.removeStation station_name).2.stations.map KitchenStation.name).Sublist
      (m.stations.map KitchenStation.name) := by
  by_cases h : ∃ s ∈ m.stations, s.name = station_name
  · obtain ⟨before, s, after, h1, h2, h3⟩ := first_named_split m.stations station_name h
    rw [removeStation_of_split m station_name before after s h1 h2 h3, h1]
    simp only [List.map_append, List.map_cons]
    exact (List.Sublist.refl _).append ((List.Sublist.refl _).cons _)
  · rw [removeStation_of_none m station_name (fun x hx hn => h ⟨x, hx, hn⟩)]

theorem mergeStations_names_sublist (m : StationManager) (station_name1 station_name2 : String) :
    ((m.mergeStations station_name1 station_name2).2.stations.map KitchenStation.name).Sublist
      (m.stations.map KitchenStation.name) := by
  unfold StationManager.mergeStations
  split
  · next station2 _ _ =>
    have h1 := removeStation_names_sublist
      (StationManager.mk
        (updateStation station_name1 (fun station1 => mergeInto station1 station2) m.stations)
        m.dish_queue m.backup_ingredients m.draw_log) station_name2
    have h2 := updateStation_names station_name1 (fun station1 => mergeInto station1 station2)
      m.stations (fun s => mergeInto_name s station2)
    simp only [h2] at h1
    exact h1
  · exact List.Sublist.refl (List.map KitchenStation.name m.stations)

theorem distinctStationNames_runRegistryOps (ops : List RegistryOp) (m : StationManager)
    (hstart : DistinctStationNames m.stations) (hfresh : FreshAdds m ops) :
    DistinctStationNames (runRegistryOps m ops).stations := by
  induction ops generalizing m with
  | nil => exact hstart
  | cons op rest ih =>
    obtain ⟨hop, hrest⟩ := hfresh
    show DistinctStationNames (runRegistryOps (applyRegistryOp m op) rest).stations
    apply ih _ _ hrest
    unfold DistinctStationNames at hstart ⊢
    cases op with
    | addStation station =>
      show ((m.stations ++ [station]).map KitchenStation.name).Nodup
      rw [List.map_append, List.nodup_append]
      refine ⟨hstart, by simp, ?_⟩
      intro a ha hb
      obtain ⟨x, hx, rfl⟩ := List.mem_map.mp ha
      have : x.name = station.name := by simpa using hb
      exact hop x hx this
    | removeStation station_name =>
      exact List.Nodup.sublist (removeStation_names_sublist m station_name) hstart
    | mergeStations station_name1 station_name2 =>
      exact List.Nodup.sublist (mergeStations_names_sublist m station_name1 station_name2)
        hstart

/-- C17, counterexample: from the empty registry, two `addStation` calls with
stations both named Grill leave a registry in which two stations have the same
name. -/
theorem registry_names_not_always_distinct :
    StationManager.new.stations = []
      ∧ (runRegistryOps StationManager.new
          [RegistryOp.addStation (KitchenStation.new "Grill"),
            RegistryOp.addStation (KitchenStation.new "Grill")]).stations.map
          KitchenStation.name = ["Grill", "Grill"]
      ∧ ¬ DistinctStationNames (runRegistryOps StationManager.new
          [RegistryOp.addStation (KitchenStation.new "Grill"),
            RegistryOp.addStation (KitchenStation.new "Grill")]).stations := by
  unfold DistinctStationNames
  decide

/-- C17, amended: starting from an empty registry, after every sequence of
`addStation`, `removeStation` and `mergeStations` calls in which every
`addStation` adds a station whose name is not in the registry at that time, no
two stations in the registry have the same name. -/
theorem registry_names_distinct (m : StationManager) (ops : List RegistryOp)
    (hstart : m.stations = []) (hfresh : FreshAdds m ops) :
    DistinctStationNames (runRegistryOps m ops).stations :=
  distinctStationNames_runRegistryOps ops m
    (by unfold DistinctStationNames; rw [hstart]; exact List.nodup_nil) hfresh

/-- Witness for the amended C17: A and B added, B merged into A, B added
again, A removed. -/
theorem registry_names_distinct_witness :
    DistinctStationNames (runRegistryOps StationManager.new
        [RegistryOp.addStation (KitchenStation.new "A"),
          RegistryOp.addStation (KitchenStation.new "B"),
          RegistryOp.mergeStations "A" "B",
          RegistryOp.addStation (KitchenStation.new "B"),
          RegistryOp.removeStation "A"]).stations
      ∧ (runRegistryOps StationManager.new
        [RegistryOp.addStation (KitchenStation.new "A"),
          RegistryOp.addStation (KitchenStation.new "B"),
          RegistryOp.mergeStations "A" "B",
          RegistryOp.addStation (KitchenStation.new "B"),
          RegistryOp.removeStation "A"]).stations.map KitchenStation.name = ["B"] :=
  ⟨registry_names_distinct StationManager.new _ rfl (by simp only [FreshAdds]; decide),
    by decide⟩

/-! ## Adding stations -/

theorem foldl_addStation (later : List KitchenStation) (m : StationManager) :
    (later.foldl (fun m s => (m.addStation s).2) m).stations = m.stations ++ later := by
  induction later generalizing m with
  | nil => simp
  | cons s rest ih =>
    rw [List.foldl_cons, ih]
    simp [StationManager.addStation]

/-- C21: `addStation` returns true and leaves the old registry with the given
station appended as its last element; the queue and the backup pool are not
touched.  Stations added one after the other therefore stand in the registry,
after the ones already there, in the order in which they were added, which is
the order in which the scans from the head node consult them. -/
theorem addStation_appends_last (m : StationManager) (station : KitchenStation)
    (later : List KitchenStation) :
    m.addStation station = (true, { m with stations := m.stations ++ [station] })
      ∧ (m.addStation station).2.stations.getLast? = some station
      ∧ (later.foldl (fun m s => (m.addStation s).2) m).stations = m.stations ++ later :=
  ⟨rfl, by simp [StationManager.addStation], foldl_addStation later m⟩

/-! ## Merging stations -/

theorem mergeStations_of_none (m : StationManager) (station_name1 station_name2 : String)
    (h : m.findStation station_name1 = none ∨ m.findStation station_name2 = none) :
    m.mergeStations station_name1 station_name2 = (false, m) := by
  unfold StationManager.mergeStations
  split
  · next h1 h2 =>
    rcases h with h | h
    · rw [h1] at h; cases h
    · rw [h2] at h; cases h
  · rfl

/-- C22: when either of the two names is not in the registry, `mergeStations`
returns false and the manager is unchanged: the registry, every station's
registered dishes and every station's stock are what they were. -/
theorem mergeStations_missing_name (m : StationManager) (station_name1 station_name2 : String)
    (h : (∀ s ∈ m.stations, s.name ≠ station_name1)
      ∨ (∀ s ∈ m.stations, s.name ≠ station_name2)) :
    m.mergeStations station_name1 station_name2 = (false, m) :=
  mergeStations_of_none m station_name1 station_name2
    (h.imp (findStation_eq_none_iff m station_name1).mpr
      (findStation_eq_none_iff m station_name2).mpr)

/-- Witness for C22: merging the unknown station Z into A in the registry A, B, C,
and A into the unknown station Z. -/
theorem mergeStations_missing_name_witness :
    registryABC.mergeStations "A" "Z" = (false, registryABC)
      ∧ registryABC.mergeStations "Z" "A" = (false, registryABC) :=
  ⟨mergeStations_missing_name registryABC "A" "Z" (Or.inr (by decide)),
    mergeStations_missing_name registryABC "Z" "A" (Or.inl (by decide))⟩

/-! ## Dispatch never reorders the registry -/

theorem registrations_invariant :
    DispatchInvariant (fun a b => registrations b.stations = registrations a.stations) where
  refl _ := rfl
  trans _ _ _ h1 h2 := h2.trans h1
  draw m station_name ingredient_name quantity :=
    (replenish_frame m station_name ingredient_name quantity).1
  prepare m i dish_name := (prepareDishAt_frame m i dish_name).1

theorem registrations_prepareScan (dish_name : String) (stations : List KitchenStation) :
    registrations (prepareScan dish_name stations).2 = registrations stations := by
  induction stations with
  | nil => rfl
  | cons s rest ih =>
    have hf := prepareDish_frame s dish_name
    unfold prepareScan
    split
    · next station' h =>
      rw [h] at hf
      simp only [registrations, List.map_cons] at *
      rw [hf.1, hf.2]
    · next station' h =>
      rw [h] at hf
      simp only [registrations, List.map_cons] at *
      rw [hf.1, hf.2, ih]

theorem names_of_registrations (stations : List KitchenStation) :
    stations.map KitchenStation.name = (registrations stations).map Prod.fst := by
  simp [registrations]

/-- C24: `processAllDishes` and `prepareNextDish` never change the registry's
sequence of stations.  For every registry, queue and backup pool, the list of
station names, in order, after either operation equals the list before it (and
so does the number of stations). -/
theorem dispatch_keeps_station_sequence (m : StationManager) :
    m.processAllDishes.stations.map KitchenStation.name = m.stations.map KitchenStation.name
      ∧ m.prepareNextDish.2.stations.map KitchenStation.name
          = m.stations.map KitchenStation.name
      ∧ m.processAllDishes.stations.length = m.stations.length
      ∧ m.prepareNextDish.2.stations.length = m.stations.length := by
  have h1 : registrations m.processAllDishes.stations = registrations m.stations :=
    processAllDishes_invariant registrations_invariant (fun _ _ => rfl) m
  have h2 : registrations m.prepareNextDish.2.stations = registrations m.stations := by
    unfold StationManager.prepareNextDish
    split
    · rfl
    · next dish rest _ =>
      have hs := registrations_prepareScan dish.name m.stations
      split
      · next stations' h => rw [h] at hs; exact hs
      · next stations' h => rw [h] at hs; exact hs
  have hlen : ∀ a b : List KitchenStation, registrations a = registrations b →
      a.length = b.length := by
    intro a b h
    have := congrArg List.length h
    simpa [registrations] using this
  exact ⟨by rw [names_of_registrations, h1, ← names_of_registrations],
    by rw [names_of_registrations, h2, ← names_of_registrations],
    hlen _ _ h1, hlen _ _ h2⟩

theorem stockQuantity_mergeStock (stock : List Ingredient) (ing : Ingredient) (n : String) :
    stockQuantity (mergeStock stock ing) n
      = stockQuantity stock n + (if ing.name = n then ing.quantity else 0) := by
  unfold stockQuantity
  rw [findStock_mergeStock]
  by_cases hn : n = ing.name
  · subst hn
    cases h : findStock stock ing.name <;> simp
  · have : ¬ ing.name = n := fun h => hn h.symm
    simp [hn, this]

theorem stockQuantity_foldl_replenish (records : List Ingredient) (s : KitchenStation)
    (n : String) :
    stockQuantity (records.foldl (fun s ingredient => s.replenishStationIngredients ingredient)
        s).ingredients_stock n
      = stockQuantity s.ingredients_stock n + poolQuantity records n := by
  induction records generalizing s with
  | nil => simp [poolQuantity]
  | cons r rest ih =>
    rw [List.foldl_cons, ih, poolQuantity_cons]
    simp only [KitchenStation.replenishStationIngredients, stockQuantity_mergeStock]
    omega

theorem foldl_replenish_dishes (records : List Ingredient) (s : KitchenStation) :
    (records.foldl (fun s ingredient => s.replenishStationIngredients ingredient) s).dishes
      = s.dishes := by
  induction records generalizing s with
  | nil => rfl
  | cons r rest ih => rw [List.foldl_cons, ih]; rfl

theorem assignDishToStation_stock (s : KitchenStation) (dish : Dish) :
    (s.assignDishToStation dish).2.ingredients_stock = s.ingredients_stock := by
  unfold KitchenStation.assignDishToStation
  split <;> rfl

theorem foldl_assign_stock (dishes : List Dish) (s : KitchenStation) :
    (dishes.foldl (fun s dish => (s.assignDishToStation dish).2) s).ingredients_stock
      = s.ingredients_stock := by
  induction dishes generalizing s with
  | nil => rfl
  | cons d rest ih => rw [List.foldl_cons, ih, assignDishToStation_stock]

theorem assignDishToStation_extends (s : KitchenStation) (dish : Dish) :
    s.dishes <+: (s.assignDishToStation dish).2.dishes
      ∧ ∃ d ∈ (s.assignDishToStation dish).2.dishes, d.name = dish.name := by
  unfold KitchenStation.assignDishToStation
  split
  · next h =>
    refine ⟨List.prefix_refl _, ?_⟩
    simpa using h
  · exact ⟨List.prefix_append _ _, dish, by simp, rfl⟩

theorem foldl_assign_dishes (dishes : List Dish) (s : KitchenStation) :
    s.dishes <+: (dishes.foldl (fun s dish => (s.assignDishToStation dish).2) s).dishes
      ∧ ∀ dish ∈ dishes,
          ∃ d ∈ (dishes.foldl (fun s dish => (s.assignDishToStation dish).2) s).dishes,
            d.name = dish.name := by
  induction dishes generalizing s with
  | nil => exact ⟨List.prefix_refl _, by simp⟩
  | cons x rest ih =>
    rw [List.foldl_cons]
    obtain ⟨hp, hx⟩ := assignDishToStation_extends s x
    obtain ⟨hp', hrest⟩ := ih (s.assignDishToStation x).2
    refine ⟨hp.trans hp', ?_⟩
    intro dish hdish
    rcases List.mem_cons.mp hdish with rfl | hmem
    · obtain ⟨d, hd, hname⟩ := hx
      exact ⟨d, hp'.subset hd, hname⟩
    · exact hrest dish hmem

theorem updateStation_eq_map (station_name : String) (f : KitchenStation → KitchenStation)
    (stations : List KitchenStation) (hdistinct : DistinctStationNames stations) :
    updateStation station_name f stations
      = stations.map (fun s => if s.name = station_name then f s else s) := by
  induction stations with
  | nil => rfl
  | cons s rest ih =>
    unfold DistinctStationNames at hdistinct ih
    rw [List.map_cons, List.nodup_cons] at hdistinct
    unfold updateStation
    by_cases hs : s.name = station_name
    · rw [if_pos hs, List.map_cons, if_pos hs]
      congr 1
      symm
      calc rest.map (fun s => if s.name = station_name then f s else s)
          = rest.map id := by
            apply List.map_congr_left
            intro x hx
            have : x.name ≠ station_name := fun h =>
              hdistinct.1 (hs ▸ h ▸ List.mem_map_of_mem _ hx)
            simp [this]
        _ = rest := List.map_id _
    · rw [if_neg hs, List.map_cons, if_neg hs, ih hdistinct.2]

theorem removeStation_eq_filter (m : StationManager) (station_name : String)
    (hdistinct : DistinctStationNames m.stations) :
    (m.removeStation station_name).2.stations
      = m.stations.filter (fun s => !decide (s.name = station_name)) := by
  by_cases h : ∃ s ∈ m.stations, s.name = station_name
  · obtain ⟨before, s, after, h1, h2, h3⟩ := first_named_split m.stations station_name h
    rw [removeStation_of_split m station_name before after s h1 h2 h3, h1]
    unfold DistinctStationNames at hdistinct
    rw [h1, List.map_append, List.map_cons, List.nodup_append] at hdistinct
    have hafter : ∀ x ∈ after, x.name ≠ station_name := fun x hx hn =>
      (List.nodup_cons.mp hdistinct.2.1).1 (h3 ▸ hn ▸ List.mem_map_of_mem _ hx)
    have hb : before.filter (fun s => !decide (s.name = station_name)) = before :=
      List.filter_eq_self.mpr (fun x hx => by simpa using h2 x hx)
    have ha : after.filter (fun s => !decide (s.name = station_name)) = after :=
      List.filter_eq_self.mpr (fun x hx => by simpa using hafter x hx)
    simp [List.filter_append, List.filter_cons, h3, hb, ha]
  · have hnone : ∀ x ∈ m.stations, x.name ≠ station_name := fun x hx hn => h ⟨x, hx, hn⟩
    rw [removeStation_of_none m station_name hnone]
    exact (List.filter_eq_self.mpr (fun x hx => by simpa using hnone x hx)).symm

theorem poolQuantity_eq_stockQuantity (pool : List Ingredient) (n : String)
    (hdistinct : DistinctNames pool) : poolQuantity pool n = stockQuantity pool n := by
  induction pool with
  | nil => rfl
  | cons r rest ih =>
    unfold DistinctNames at hdistinct ih
    rw [List.map_cons, List.nodup_cons] at hdistinct
    rw [poolQuantity_cons, ih hdistinct.2]
    unfold stockQuantity
    rw [findStock_cons]
    by_cases hr : r.name = n
    · have hnone : findStock rest n = none :=
        findStock_eq_none_of_names rest n (fun x hx hn =>
          hdistinct.1 (hr ▸ hn ▸ List.mem_map_of_mem _ hx))
      simp [hr, hnone]
    · simp [hr]

theorem mergeStations_stations (m : StationManager) (station_name1 station_name2 : String)
    (station1 station2 : KitchenStation) (hdistinct : DistinctStationNames m.stations)
    (h1 : m.findStation station_name1 = some station1)
    (h2 : m.findStation station_name2 = some station2) :
    m.mergeStations station_name1 station_name2
      = (true, { m with
          stations := (m.stations.filter (fun s => !decide (s.name = station_name2))).map
            (fun s => if s.name = station_name1 then mergeInto s station2 else s) }) := by
  have hnames := updateStation_names station_name1 (fun s => mergeInto s station2) m.stations
    (fun s => mergeInto_name s station2)
  have hd : DistinctStationNames
      (updateStation station_name1 (fun s => mergeInto s station2) m.stations) := by
    unfold DistinctStationNames
    rw [hnames]
    exact hdistinct
  have hrem := removeStation_eq_filter
    (StationManager.mk (updateStation station_name1 (fun s => mergeInto s station2) m.stations)
      m.dish_queue m.backup_ingredients m.draw_log) station_name2 hd
  have hrest :
      (StationManager.removeStation
        (StationManager.mk
          (updateStation station_name1 (fun s => mergeInto s station2) m.stations)
          m.dish_queue m.backup_ingredients m.draw_log) station_name2).2
        = StationManager.mk
            ((StationManager.removeStation
              (StationManager.mk
                (updateStation station_name1 (fun s => mergeInto s station2) m.stations)
                m.dish_queue m.backup_ingredients m.draw_log) station_name2).2.stations)
            m.dish_queue m.backup_ingredients m.draw_log := by
    by_cases h : ∃ s ∈ updateStation station_name1 (fun s => mergeInto s station2) m.stations,
        s.name = station_name2
    · obtain ⟨before, s, after, e1, e2, e3⟩ := first_named_split _ station_name2 h
      rw [removeStation_of_split _ station_name2 before after s e1 e2 e3]
    · rw [removeStation_of_none _ station_name2 (fun x hx hn => h ⟨x, hx, hn⟩)]
  unfold StationManager.mergeStations
  rw [h1, h2]
  simp only
  rw [hrest, hrem]
  simp only [updateStation_eq_map station_name1 _ m.stations hdistinct, List.filter_map]
  congr 3
  apply List.filter_congr
  intro x _
  simp only [Function.comp]
  by_cases hx : x.name = station_name1
  · simp [hx, mergeInto_name]
  · simp [hx]

/-- C23: for two distinct names A and B both present in a registry with unique
names, `mergeStations(A, B)` returns true.  Afterwards the registry is the old
one without the station named B, in the old order, with the station named A
replaced by its merged state; B is no longer in the registry.  The merged
state of A has had every dish registered at B offered to it through
`assignDishToStation`, so that every such dish name is registered at A, and for
every ingredient name its on-hand quantity is A's old quantity plus the
quantity B held of that ingredient (the on-hand quantity of B's record when B's
stock has one record per name). -/
theorem mergeStations_distinct_names (m : StationManager) (nameA nameB : String)
    (stationA stationB : KitchenStation)
    (hdistinct : DistinctStationNames m.stations) (hne : nameA ≠ nameB)
    (hA : m.findStation nameA = some stationA) (hB : m.findStation nameB = some stationB) :
    (m.mergeStations nameA nameB).1 = true
      ∧ (m.mergeStations nameA nameB).2.stations
          = (m.stations.filter (fun s => !decide (s.name = nameB))).map
              (fun s => if s.name = nameA then mergeInto s stationB else s)
      ∧ (m.mergeStations nameA nameB).2.findStation nameB = none
      ∧ (m.mergeStations nameA nameB).2.stations.map KitchenStation.name
          = (m.stations.map KitchenStation.name).filter (fun n => !decide (n = nameB))
      ∧ (m.mergeStations nameA nameB).2.findStation nameA = some (mergeInto stationA stationB)
      ∧ (mergeInto stationA stationB).dishes
          = (stationB.dishes.foldl (fun s dish => (s.assignDishToStation dish).2)
              stationA).dishes
      ∧ (∀ dish ∈ stationB.dishes,
          ∃ d ∈ (mergeInto stationA stationB).dishes, d.name = dish.name)
      ∧ ∀ n, stockQuantity (mergeInto stationA stationB).ingredients_stock n
            = stockQuantity stationA.ingredients_stock n
                + poolQuantity stationB.ingredients_stock n
          ∧ (DistinctNames stationB.ingredients_stock →
              stockQuantity (mergeInto stationA stationB).ingredients_stock n
                = stockQuantity stationA.ingredients_stock n
                    + stockQuantity stationB.ingredients_stock n) := by
  have hnameA : stationA.name = nameA :=
    ((findStation_eq_some_iff m nameA stationA).mp hA).choose_spec.choose_spec.2.2
  have hdishes : (mergeInto stationA stationB).dishes
      = (stationB.dishes.foldl (fun s dish => (s.assignDishToStation dish).2)
          stationA).dishes := by
    unfold mergeInto
    rw [foldl_replenish_dishes]
  have hstock : ∀ n, stockQuantity (mergeInto stationA stationB).ingredients_stock n
      = stockQuantity stationA.ingredients_stock n
          + poolQuantity stationB.ingredients_stock n := by
    intro n
    unfold mergeInto
    rw [stockQuantity_foldl_replenish, foldl_assign_stock]
  rw [mergeStations_stations m nameA nameB stationA stationB hdistinct hA hB]
  refine ⟨rfl, rfl, ?_, ?_, ?_, hdishes, ?_, fun n => ⟨hstock n, fun hd => ?_⟩⟩
  · rw [findStation_eq_none_iff]
    intro s hs
    simp only [List.mem_map, List.mem_filter] at hs
    obtain ⟨x, ⟨-, hx⟩, rfl⟩ := hs
    have hx' : x.name ≠ nameB := by simpa using hx
    by_cases hxa : x.name = nameA
    · rw [if_pos hxa, mergeInto_name]; exact hx'
    · rw [if_neg hxa]; exact hx'
  · simp only [List.map_map, List.filter_map]
    apply List.map_congr_left
    intro x _
    simp only [Function.comp]
    by_cases hxa : x.name = nameA
    · rw [if_pos hxa, mergeInto_name]
    · rw [if_neg hxa]
  · unfold StationManager.findStation at hA ⊢
    simp only [List.find?_map, List.find?_filter]
    have hpred : ∀ a : KitchenStation, decide ((!decide (a.name = nameB)) = true ∧
          ((fun s => decide (s.name = nameA)) ∘
            fun s => if s.name = nameA then mergeInto s stationB else s) a = true)
        = decide (a.name = nameA) := by
      intro a
      simp only [Function.comp]
      by_cases ha : a.name = nameA
      · simp [ha, mergeInto_name, hne]
      · simp [ha]
    simp only [hpred, hA]
    simp [hnameA]
  · intro dish hdish
    rw [hdishes]
    exact (foldl_assign_dishes stationB.dishes stationA).2 dish hdish
  · rw [hstock n, poolQuantity_eq_stockQuantity _ n hd]

/-- Witness for C23: merging B (Salt 3, Pepper 1, dish Soup) into A (Salt 2)
in the registry A, B, C. -/
theorem mergeStations_distinct_names_witness :
    (registryToMerge.mergeStations "A" "B").2.stations.map KitchenStation.name = ["A", "C"]
      ∧ (registryToMerge.mergeStations "A" "B").2.findStation "A"
          = some { name := "A", dishes := [soup],
                   ingredients_stock := [⟨"Salt", 5, 0, 1⟩, ⟨"Pepper", 1, 0, 1⟩] }
      ∧ stockQuantity [⟨"Salt", 5, 0, 1⟩, ⟨"Pepper", 1, 0, 1⟩] "Salt"
          = stockQuantity [⟨"Salt", 2, 0, 1⟩] "Salt"
              + stockQuantity [⟨"Salt", 3, 0, 1⟩, ⟨"Pepper", 1, 0, 1⟩] "Salt" := by
  have h := mergeStations_distinct_names registryToMerge "A" "B"
    { name := "A", dishes := [], ingredients_stock := [⟨"Salt", 2, 0, 1⟩] }
    { name := "B", dishes := [soup],
      ingredients_stock := [⟨"Salt", 3, 0, 1⟩, ⟨"Pepper", 1, 0, 1⟩] }
    (by unfold DistinctStationNames; decide) (by decide) rfl rfl
  exact ⟨h.2.2.2.1, h.2.2.2.2.1, (h.2.2.2.2.2.2.2 "Salt").2 (by unfold DistinctNames; decide)⟩

/-! ## Mastery points in the recipe book -/

theorem inOrderTraverse_eq (t : BinaryNode) (result : List Recipe) :
    inOrderTraverse t result = result ++ getSortedList t := by
  induction t generalizing result with
  | nil => simp [inOrderTraverse, getSortedList]
  | node left item right ihl ihr =>
    unfold getSortedList
    rw [inOrderTraverse, ihr, ihl, inOrderTraverse, ihr, ihl]
    simp [getSortedList]

theorem getSortedList_node (left right : BinaryNode) (item : Recipe) :
    getSortedList (BinaryNode.node left item right)
      = getSortedList left ++ item :: getSortedList right := by
  rw [getSortedList, inOrderTraverse, inOrderTraverse_eq, inOrderTraverse_eq]
  simp

theorem all_iff_getSortedList (p : Recipe → Prop) (t : BinaryNode) :
    BinaryNode.All p t ↔ ∀ r ∈ getSortedList t, p r := by
  induction t with
  | nil => simp [BinaryNode.All, getSortedList, inOrderTraverse]
  | node left item right ihl ihr =>
    rw [BinaryNode.All, getSortedList_node, ihl, ihr]
    simp only [List.mem_append, List.mem_cons]
    constructor
    · rintro ⟨h1, h2, h3⟩ r (h | rfl | h)
      · exact h1 r h
      · exact h2
      · exact h3 r h
    · intro h
      exact ⟨fun r hr => h r (Or.inl hr), h item (Or.inr (Or.inl rfl)),
        fun r hr => h r (Or.inr (Or.inr hr))⟩

theorem traverse_eq (target_recipe : Recipe) (t : BinaryNode) (mastery_points : Int) :
    traverse target_recipe t mastery_points
      = mastery_points + unmasteredBelow (getSortedList t) target_recipe.difficulty_level_ := by
  induction t generalizing mastery_points with
  | nil => simp [traverse, getSortedList, inOrderTraverse, unmasteredBelow]
  | node left item right ihl ihr =>
    rw [traverse, ihr, ihl, getSortedList_node]
    unfold unmasteredBelow
    rw [List.countP_append, List.countP_cons]
    by_cases h : item.difficulty_level_ < target_recipe.difficulty_level_ ∧ item.mastered_ = false
    · rw [if_pos h]
      simp only [h.1, h.2, decide_True, Bool.not_false, Bool.and_self, if_true]
      push_cast
      omega
    · rw [if_neg h]
      have : (decide (item.difficulty_level_ < target_recipe.difficulty_level_)
          && !item.mastered_) = false := by
        rcases Classical.not_and_iff_or_not_not.mp h with h1 | h2
        · simp [h1]
        · simp at h2; simp [h2]
      simp only [this, Bool.false_eq_true, if_false]
      push_cast
      omega

theorem findNodeByName_of_absent (t : BinaryNode) (name : String)
    (h : ∀ r ∈ getSortedList t, r.name_ ≠ name) : findNodeByName t name = BinaryNode.nil := by
  induction t with
  | nil => rfl
  | node left item right ihl ihr =>
    rw [getSortedList_node] at h
    have hitem : item.name_ ≠ name := h item (by simp)
    rw [findNodeByName, if_neg hitem]
    split
    · exact ihl (fun r hr => h r (by simp [hr]))
    · exact ihr (fun r hr => h r (by simp [hr]))

theorem findNodeByName_of_mem (t : BinaryNode) (name : String) (r : Recipe)
    (hordered : OrderedByName t) (hmem : r ∈ getSortedList t) (hname : r.name_ = name) :
    ∃ left right, findNodeByName t name = BinaryNode.node left r right := by
  induction t with
  | nil => simp [getSortedList, inOrderTraverse] at hmem
  | node left item right ihl ihr =>
    obtain ⟨hl, hr, hol, hor⟩ := hordered
    rw [all_iff_getSortedList] at hl hr
    rw [getSortedList_node, List.mem_append, List.mem_cons] at hmem
    rw [findNodeByName]
    by_cases hitem : item.name_ = name
    · rw [if_pos hitem]
      rcases hmem with h | h | h
      · exact absurd (hl r h) (by rw [hname, hitem]; exact lt_irrefl _)
      · exact ⟨left, right, by rw [h]⟩
      · exact absurd (hr r h) (by rw [hname, hitem]; exact lt_irrefl _)
    · rw [if_neg hitem]
      by_cases hgt : item.name_ > name
      · rw [if_pos hgt]
        rcases hmem with h | h | h
        · exact ihl hol h
        · exact absurd (h ▸ hname) hitem
        · exact absurd (hr r h) (by rw [hname]; exact lt_asymm hgt)
      · rw [if_neg hgt]
        have hlt : item.name_ < name := lt_of_le_of_ne (not_lt.mp hgt) hitem
        rcases hmem with h | h | h
        · exact absurd (hl r h) (by rw [hname]; exact lt_asymm hlt)
        · exact absurd (h ▸ hname) hitem
        · exact ihr hor h

/-- C30: for every recipe tree ordered by name and every name,
`calculateMasteryPoints` returns -1 when no recipe of the tree has that name;
when a recipe of the tree has that name it returns 0 if that recipe is
mastered, and otherwise 1 plus the number of recipes in the tree that are not
mastered and have a strictly lower difficulty level than that recipe. -/
theorem calculateMasteryPoints_by_name (book : RecipeBook) (name : String)
    (hordered : OrderedByName book.root) :
    ((∀ r ∈ getSortedList book.root, r.name_ ≠ name) → book.calculateMasteryPoints name = -1)
      ∧ ∀ r ∈ getSortedList book.root, r.name_ = name →
          (r.mastered_ = true → book.calculateMasteryPoints name = 0)
            ∧ (r.mastered_ = false →
                book.calculateMasteryPoints name
                  = 1 + unmasteredBelow (getSortedList book.root) r.difficulty_level_) := by
  constructor
  · intro h
    unfold RecipeBook.calculateMasteryPoints RecipeBook.findRecipe
    rw [findNodeByName_of_absent book.root name h]
  · intro r hmem hname
    obtain ⟨left, right, hfound⟩ := findNodeByName_of_mem book.root name r hordered hmem hname
    unfold RecipeBook.calculateMasteryPoints RecipeBook.findRecipe
    rw [hfound]
    constructor
    · intro hm
      simp [hm]
    · intro hm
      simp only [hm, Bool.false_eq_true, if_false]
      rw [traverse_eq]
      omega

/-- Witness for C30 on the book of five recipes: Zebra is not in the book,
Cake is mastered, and Pasta is not mastered with Bread and Soup the unmastered
recipes of lower difficulty. -/
theorem calculateMasteryPoints_by_name_witness :
    fiveRecipes.calculateMasteryPoints "Zebra" = -1
      ∧ fiveRecipes.calculateMasteryPoints "Cake" = 0
      ∧ fiveRecipes.calculateMasteryPoints "Pasta" = 3 := by
  have hordered : OrderedByName fiveRecipes.root := by
    simp only [OrderedByName, BinaryNode.All, fiveRecipes, recipeOf, String.lt_iff_toList_lt]
    decide
  exact ⟨(calculateMasteryPoints_by_name fiveRecipes "Zebra" hordered).1 (by decide),
    ((calculateMasteryPoints_by_name fiveRecipes "Cake" hordered).2
      (recipeOf "Cake" 2 true) (by decide) rfl).1 rfl,
    ((calculateMasteryPoints_by_name fiveRecipes "Pasta" hordered).2
      (recipeOf "Pasta" 3 false) (by decide) rfl).2 rfl⟩

/-! ## The bag behind the kitchen -/

theorem toList_length {Bag : Type} (ops : Part3.ArrayBagOps Bag) (bag : Bag) :
    (ops.toList bag).length = ops.getCurrentSize bag := by
  simp [Part3.ArrayBagOps.toList]

theorem toList_getElem? {Bag : Type} (ops : Part3.ArrayBagOps Bag) (bag : Bag) (i : Nat)
    (hi : i < ops.getCurrentSize bag) : (ops.toList bag)[i]? = some (ops.items_ bag i) := by
  simp [Part3.ArrayBagOps.toList, List.getElem?_map, List.getElem?_range hi]

theorem items_of_split {Bag : Type} (ops : Part3.ArrayBagOps Bag) (bag : Bag)
    (pre post : List Part3.Dish) (x : Part3.Dish) (h : ops.toList bag = pre ++ x :: post) :
    pre.length < ops.getCurrentSize bag ∧ ops.items_ bag pre.length = x := by
  have hlen : pre.length < ops.getCurrentSize bag := by
    rw [← toList_length, h]
    simp
  refine ⟨hlen, ?_⟩
  have h1 := toList_getElem? ops bag pre.length hlen
  have hx : (pre ++ x :: post)[pre.length]? = some x := getElem?_append_length pre x post
  rw [h, hx] at h1
  exact (Option.some.inj h1).symm

theorem toList_eq_nil_of_size {Bag : Type} (ops : Part3.ArrayBagOps Bag) (bag : Bag)
    (h : ops.getCurrentSize bag = 0) : ops.toList bag = [] := by
  simp [Part3.ArrayBagOps.toList, h]

theorem find?_range_eq_some (p : Nat → Bool) (n j : Nat) (hj : j < n) (hp : p j = true)
    (hlt : ∀ i, i < j → p i = false) : (List.range n).find? p = some j := by
  induction n with
  | zero => omega
  | succ n ih =>
    rw [List.range_succ, List.find?_append]
    by_cases hjn : j < n
    · rw [ih hjn]; rfl
    · have hjeq : j = n := by omega
      subst hjeq
      have hnone : (List.range j).find? p = none := by
        rw [List.find?_eq_none]
        intro i hi
        simp [hlt i (List.mem_range.mp hi)]
      rw [hnone]
      simp [hp]

theorem map_update_range (f : Nat → Part3.Dish) (j m : Nat) (v : Part3.Dish) :
    (List.range m).map (Function.update f j v) = ((List.range m).map f).set j v := by
  apply List.ext_getElem?
  intro i
  by_cases hi : i < m
  · by_cases hij : j = i
    · subst hij
      rw [List.getElem?_map, List.getElem?_range hi,
        List.getElem?_set_self (by simpa using hi)]
      simp
    · have hij' : i ≠ j := fun h => hij h.symm
      rw [List.getElem?_map, List.getElem?_range hi, List.getElem?_set_ne hij,
        List.getElem?_map, List.getElem?_range hi]
      simp [Function.update, hij']
  · have h1 : ((List.range m).map (Function.update f j v))[i]? = none := by
      apply List.getElem?_eq_none; simp; omega
    have h2 : (((List.range m).map f).set j v)[i]? = none := by
      apply List.getElem?_eq_none; simp; omega
    rw [h1, h2]

theorem arrayBag_toList (capacity : Nat) (b : Part3.ArrayBag) :
    (Part3.arrayBagOps capacity).toList b = (List.range b.item_count_).map b.items_ := rfl

theorem arrayBag_getIndexOf_of_split (b : Part3.ArrayBag) (d : Part3.Dish)
    (pre post : List Part3.Dish)
    (h : (List.range b.item_count_).map b.items_ = pre ++ d :: post) (hpre : d ∉ pre) :
    b.getIndexOf d = some pre.length := by
  have hn : b.item_count_ = pre.length + 1 + post.length := by
    have := congrArg List.length h
    simp at this
    omega
  have hget : ∀ i, i < b.item_count_ →
      (pre ++ d :: post)[i]? = some (b.items_ i) := by
    intro i hi
    rw [← h]
    simp [List.getElem?_map, List.getElem?_range hi]
  unfold Part3.ArrayBag.getIndexOf
  apply find?_range_eq_some
  · omega
  · have := hget pre.length (by omega)
    have hx : (pre ++ d :: post)[pre.length]? = some d := getElem?_append_length pre d post
    rw [hx] at this
    simp [(Option.some.inj this).symm]
  · intro i hi
    have := hget i (by omega)
    rw [List.getElem?_append_left hi] at this
    have hmem : b.items_ i ∈ pre := List.getElem?_mem this
    have hne : b.items_ i ≠ d := fun he => hpre (he ▸ hmem)
    simp [hne]

theorem arrayBagOps_lawful (capacity : Nat) :
    Part3.LawfulBag (fun x d => x = d) (Part3.arrayBagOps capacity) where
  same_refl _ := rfl
  init_size := rfl
  add_false := by
    intro bag d
    show (Part3.ArrayBag.add capacity bag d).1 = false → (Part3.ArrayBag.add capacity bag d).2 = bag
    unfold Part3.ArrayBag.add
    split <;> simp
  add_true := by
    intro bag d
    show (Part3.ArrayBag.add capacity bag d).1 = true →
      ((Part3.arrayBagOps capacity).toList (Part3.ArrayBag.add capacity bag d).2).Perm
        (d :: (Part3.arrayBagOps capacity).toList bag)
    unfold Part3.ArrayBag.add
    split
    · intro _
      simp only [arrayBag_toList, List.range_succ, List.map_append, List.map_cons, List.map_nil,
        Function.update_same]
      have hmap : (List.range bag.item_count_).map
            (Function.update bag.items_ bag.item_count_ d)
          = (List.range bag.item_count_).map bag.items_ := by
        apply List.map_congr_left
        intro i hi
        have : i ≠ bag.item_count_ := by
          have := List.mem_range.mp hi
          omega
        simp [Function.update, this]
      rw [hmap]
      exact List.perm_append_singleton _ _
    · intro h; simp at h
  remove_absent := by
    intro bag d hd
    rw [arrayBag_toList] at hd
    show Part3.ArrayBag.remove bag d = (false, bag)
    have hnone : bag.getIndexOf d = none := by
      unfold Part3.ArrayBag.getIndexOf
      rw [List.find?_eq_none]
      intro i hi
      have : bag.items_ i ≠ d := hd _ (List.mem_map_of_mem _ hi)
      simp [this]
    unfold Part3.ArrayBag.remove
    rw [hnone]
  remove_first := by
    intro bag d pre x post h hx hpre'
    have hx' : d = x := (hx : x = d).symm
    subst hx'
    have hpre : d ∉ pre := fun hmem => hpre' d hmem rfl
    rw [arrayBag_toList] at h
    have hidx := arrayBag_getIndexOf_of_split bag d pre post h hpre
    have hres : Part3.ArrayBag.remove bag d
        = (true, { items_ := Function.update bag.items_ pre.length
                     (bag.items_ (bag.item_count_ - 1))
                   item_count_ := bag.item_count_ - 1 }) := by
      unfold Part3.ArrayBag.remove
      rw [hidx]
    show (Part3.ArrayBag.remove bag d).1 = true
      ∧ ∃ post', (Part3.arrayBagOps capacity).toList (Part3.ArrayBag.remove bag d).2
          = pre ++ post' ∧ post'.Perm post
    rw [hres]
    refine ⟨rfl, ?_⟩
    simp only [arrayBag_toList, map_update_range]
    have hn : bag.item_count_ = pre.length + 1 + post.length := by
      have := congrArg List.length h
      simp at this
      omega
    rcases List.eq_nil_or_concat post with hpost | ⟨mid, last, hpost⟩
    · subst hpost
      refine ⟨[], ?_, List.Perm.refl _⟩
      have hcount : bag.item_count_ - 1 = pre.length := by simp at hn; omega
      have hsucc : bag.item_count_ = pre.length + 1 := by simp at hn; omega
      rw [hsucc, List.range_succ, List.map_append] at h
      have hpre' : (List.range pre.length).map bag.items_ = pre :=
        (List.append_inj h (by simp)).1
      rw [hcount, hpre', List.append_nil]
      apply List.set_eq_of_length_le
      exact le_refl _
    · rw [List.concat_eq_append] at hpost
      subst hpost
      refine ⟨last :: mid, ?_, ?_⟩
      · have hcount : bag.item_count_ - 1 = pre.length + 1 + mid.length := by
          simp at hn; omega
        have hsucc : bag.item_count_ = (pre.length + 1 + mid.length) + 1 := by
          simp at hn; omega
        rw [hsucc, List.range_succ, List.map_append] at h
        have hsplit : (List.range (pre.length + 1 + mid.length)).map bag.items_ ++
            List.map bag.items_ [pre.length + 1 + mid.length]
              = (pre ++ d :: mid) ++ [last] := by
          rw [h]; simp
        have h1 := (List.append_inj hsplit (by simp; omega)).1
        have h2 := (List.append_inj hsplit (by simp; omega)).2
        have hlast : bag.items_ (pre.length + 1 + mid.length) = last := by simpa using h2
        rw [hcount, h1, hlast]
        simp
      · exact (List.perm_append_singleton last mid).symm

/-! ## The two counters of the kitchen -/

theorem first_match_split (p : Part3.Dish → Prop) (l : List Part3.Dish)
    (h : ∃ x ∈ l, p x) :
    ∃ pre x post, l = pre ++ x :: post ∧ p x ∧ ∀ y ∈ pre, ¬ p y := by
  induction l with
  | nil => obtain ⟨x, hx, _⟩ := h; simp at hx
  | cons a rest ih =>
    by_cases ha : p a
    · exact ⟨[], a, rest, by simp, ha, by simp⟩
    · have hrest : ∃ x ∈ rest, p x := by
        obtain ⟨x, hx, hpx⟩ := h
        rcases List.mem_cons.mp hx with h1 | h1
        · exact absurd (h1 ▸ hpx) ha
        · exact ⟨x, h1, hpx⟩
      obtain ⟨pre, x, post, hsplit, hpx, hpre⟩ := ih hrest
      refine ⟨a :: pre, x, post, by simp [hsplit], hpx, ?_⟩
      intro y hy
      rcases List.mem_cons.mp hy with h1 | h1
      · rw [h1]; exact ha
      · exact hpre y h1

theorem prepTimeSum_append (l1 l2 : List Part3.Dish) :
    Part3.prepTimeSum (l1 ++ l2) = Part3.prepTimeSum l1 + Part3.prepTimeSum l2 := by
  simp [Part3.prepTimeSum]

theorem prepTimeSum_cons (d : Part3.Dish) (l : List Part3.Dish) :
    Part3.prepTimeSum (d :: l) = d.getPrepTime + Part3.prepTimeSum l := by
  simp [Part3.prepTimeSum]

theorem prepTimeSum_perm (l1 l2 : List Part3.Dish) (h : l1.Perm l2) :
    Part3.prepTimeSum l1 = Part3.prepTimeSum l2 := by
  unfold Part3.prepTimeSum
  exact (h.map _).sum_eq

theorem isElaborate_iff (d : Part3.Dish) :
    d.isElaborate = true ↔ d.getIngredients.length ≥ 5 ∧ d.getPrepTime ≥ 60 := by
  simp [Part3.Dish.isElaborate, Part3.Dish.getIngredients, Part3.Dish.getPrepTime]

theorem wrapInt_add_left (a b : Int) : wrapInt (wrapInt a + b) = wrapInt (a + b) := by
  unfold wrapInt
  omega

theorem wrapInt_sub_left (a b : Int) : wrapInt (wrapInt a - b) = wrapInt (a - b) := by
  unfold wrapInt
  omega

theorem newOrder_of_contains {Bag : Type} (ops : Part3.ArrayBagOps Bag) (k : Part3.Kitchen Bag)
    (d : Part3.Dish) (h : ops.contains k.bag d = true) : k.newOrder ops d = (false, k) := by
  unfold Part3.Kitchen.newOrder
  rw [if_pos h]

theorem newOrder_of_add_true {Bag : Type} (ops : Part3.ArrayBagOps Bag) (k : Part3.Kitchen Bag)
    (d : Part3.Dish) (bag : Bag) (h : ops.contains k.bag d = false)
    (hadd : ops.add k.bag d = (true, bag)) :
    k.newOrder ops d
      = (true,
          Part3.Kitchen.mk bag (wrapInt (k.totalprep_time + d.getPrepTime))
            (if d.getIngredients.length ≥ 5 ∧ d.getPrepTime ≥ 60 then
              wrapInt (k.countelaborate + 1)
            else k.countelaborate)) := by
  unfold Part3.Kitchen.newOrder
  rw [h, hadd]
  simp

theorem newOrder_of_add_false {Bag : Type} (ops : Part3.ArrayBagOps Bag)
    (k : Part3.Kitchen Bag) (d : Part3.Dish) (bag : Bag) (h : ops.contains k.bag d = false)
    (hadd : ops.add k.bag d = (false, bag)) :
    k.newOrder ops d = (false, Part3.Kitchen.mk bag k.totalprep_time k.countelaborate) := by
  unfold Part3.Kitchen.newOrder
  rw [h, hadd]
  simp

theorem serveDish_of_remove_true {Bag : Type} (ops : Part3.ArrayBagOps Bag)
    (k : Part3.Kitchen Bag) (dish : Bag → Part3.Dish) (bag : Bag)
    (hrem : ops.remove k.bag (dish k.bag) = (true, bag)) :
    k.serveDish ops dish
      = (true,
          Part3.Kitchen.mk bag (wrapInt (k.totalprep_time - (dish bag).getPrepTime))
            (if (dish bag).getIngredients.length ≥ 5 ∧ (dish bag).getPrepTime ≥ 60 then
              wrapInt (k.countelaborate - 1)
            else k.countelaborate)) := by
  unfold Part3.Kitchen.serveDish
  rw [hrem]

theorem serveDish_of_remove_false {Bag : Type} (ops : Part3.ArrayBagOps Bag)
    (k : Part3.Kitchen Bag) (dish : Bag → Part3.Dish) (bag : Bag)
    (hrem : ops.remove k.bag (dish k.bag) = (false, bag)) :
    k.serveDish ops dish = (false, Part3.Kitchen.mk bag k.totalprep_time k.countelaborate) := by
  unfold Part3.Kitchen.serveDish
  rw [hrem]

theorem newOrder_false_unchanged {Bag : Type} {same : Part3.Dish → Part3.Dish → Prop}
    (ops : Part3.ArrayBagOps Bag) (hlawful : Part3.LawfulBag same ops) (k : Part3.Kitchen Bag) (d : Part3.Dish)
    (h : (k.newOrder ops d).1 = false) : (k.newOrder ops d).2 = k := by
  cases hc : ops.contains k.bag d with
  | true => rw [newOrder_of_contains ops k d hc]
  | false =>
    cases hadd : ops.add k.bag d with
    | mk r bag =>
      cases r with
      | true =>
        rw [newOrder_of_add_true ops k d bag hc hadd] at h
        simp at h
      | false =>
        rw [newOrder_of_add_false ops k d bag hc hadd]
        have hbag := hlawful.add_false k.bag d (by rw [hadd])
        rw [hadd] at hbag
        simp only at hbag
        rw [hbag]

theorem serveDish_false_unchanged {Bag : Type} {same : Part3.Dish → Part3.Dish → Prop}
    (ops : Part3.ArrayBagOps Bag) (hlawful : Part3.LawfulBag same ops) (k : Part3.Kitchen Bag) (d : Part3.Dish)
    (h : (k.serveDish ops (fun _ => d)).1 = false) : (k.serveDish ops (fun _ => d)).2 = k := by
  by_cases hmem : ∃ x ∈ ops.toList k.bag, same x d
  · obtain ⟨pre, x, post, hsplit, hx, hpre⟩ := first_match_split (fun x => same x d) _ hmem
    have htrue := (hlawful.remove_first k.bag d pre x post hsplit hx hpre).1
    cases hrem : ops.remove k.bag d with
    | mk r bag =>
      rw [hrem] at htrue
      simp only at htrue
      subst htrue
      rw [serveDish_of_remove_true ops k (fun _ => d) bag hrem] at h
      simp at h
  · rw [serveDish_of_remove_false ops k (fun _ => d) k.bag
      (hlawful.remove_absent k.bag d (fun x hx hs => hmem ⟨x, hx, hs⟩))]

theorem newOrder_consistent {Bag : Type} {same : Part3.Dish → Part3.Dish → Prop}
    (ops : Part3.ArrayBagOps Bag) (hlawful : Part3.LawfulBag same ops) (k : Part3.Kitchen Bag) (d : Part3.Dish)
    (hk : k.ConsistentAsInt ops) : (k.newOrder ops d).2.ConsistentAsInt ops := by
  cases hr : (k.newOrder ops d).1 with
  | false => rw [newOrder_false_unchanged ops hlawful k d hr]; exact hk
  | true =>
    cases hc : ops.contains k.bag d with
    | true => rw [newOrder_of_contains ops k d hc] at hr; simp at hr
    | false =>
      cases hadd : ops.add k.bag d with
      | mk r bag =>
        cases r with
        | false => rw [newOrder_of_add_false ops k d bag hc hadd] at hr; simp at hr
        | true =>
          have hperm := hlawful.add_true k.bag d (by rw [hadd])
          rw [hadd] at hperm
          simp only at hperm
          rw [newOrder_of_add_true ops k d bag hc hadd]
          unfold Part3.Kitchen.ConsistentAsInt Part3.Kitchen.getPrepTimeSum
            Part3.Kitchen.elaborateDishCount at hk ⊢
          simp only
          rw [prepTimeSum_perm _ _ hperm, prepTimeSum_cons, hperm.countP_eq, List.countP_cons,
            hk.1, hk.2]
          refine ⟨?_, ?_⟩
          · rw [wrapInt_add_left]
            congr 1
            omega
          · by_cases he : d.getIngredients.length ≥ 5 ∧ d.getPrepTime ≥ 60
            · rw [if_pos he, if_pos ((isElaborate_iff d).mpr he), wrapInt_add_left]
              push_cast
              rfl
            · have : ¬ d.isElaborate = true := fun hc => he ((isElaborate_iff d).mp hc)
              rw [if_neg he, if_neg this]
              simp

theorem serveDish_consistent {Bag : Type} {same : Part3.Dish → Part3.Dish → Prop}
    (ops : Part3.ArrayBagOps Bag) (hlawful : Part3.LawfulBag same ops)
    (hprep : ∀ x d, same x d → x.getPrepTime = d.getPrepTime)
    (helaborate : ∀ x d, same x d → x.isElaborate = d.isElaborate)
    (k : Part3.Kitchen Bag) (d : Part3.Dish)
    (hk : k.ConsistentAsInt ops) : (k.serveDish ops (fun _ => d)).2.ConsistentAsInt ops := by
  by_cases hmem : ∃ x ∈ ops.toList k.bag, same x d
  · obtain ⟨pre, x, post, hsplit, hx, hpre⟩ := first_match_split (fun x => same x d) _ hmem
    obtain ⟨htrue, post', hlist, hperm⟩ :=
      hlawful.remove_first k.bag d pre x post hsplit hx hpre
    have hxprep := hprep x d hx
    have hxboth := helaborate x d hx
    cases hrem : ops.remove k.bag d with
    | mk r bag =>
      rw [hrem] at htrue hlist
      simp only at htrue hlist
      subst htrue
      rw [serveDish_of_remove_true ops k (fun _ => d) bag hrem]
      unfold Part3.Kitchen.ConsistentAsInt Part3.Kitchen.getPrepTimeSum
        Part3.Kitchen.elaborateDishCount at hk ⊢
      simp only
      rw [hlist, hk.1, hk.2, hsplit, prepTimeSum_append, prepTimeSum_append, prepTimeSum_cons,
        prepTimeSum_perm _ _ hperm, List.countP_append, List.countP_append, List.countP_cons,
        hperm.countP_eq]
      refine ⟨?_, ?_⟩
      · rw [wrapInt_sub_left]
        congr 1
        omega
      · by_cases he : d.getIngredients.length ≥ 5 ∧ d.getPrepTime ≥ 60
        · rw [if_pos he, if_pos (hxboth ▸ (isElaborate_iff d).mpr he), wrapInt_sub_left]
          congr 1
          push_cast
          omega
        · have : ¬ x.isElaborate = true := fun hc => he ((isElaborate_iff d).mp (hxboth ▸ hc))
          rw [if_neg he, if_neg this]
          simp
  · rw [serveDish_of_remove_false ops k (fun _ => d) k.bag
      (hlawful.remove_absent k.bag d (fun x hx hs => hmem ⟨x, hx, hs⟩))]
    exact hk

theorem runKitchenOps_consistent {Bag : Type} {same : Part3.Dish → Part3.Dish → Prop}
    (ops : Part3.ArrayBagOps Bag) (hlawful : Part3.LawfulBag same ops)
    (hprep : ∀ x d, same x d → x.getPrepTime = d.getPrepTime)
    (helaborate : ∀ x d, same x d → x.isElaborate = d.isElaborate)
    (calls : List Part3.KitchenOp) (k : Part3.Kitchen Bag)
    (hk : k.ConsistentAsInt ops) : (Part3.runKitchenOps ops k calls).ConsistentAsInt ops := by
  induction calls generalizing k with
  | nil => exact hk
  | cons call rest ih =>
    unfold Part3.runKitchenOps
    rw [List.foldl_cons]
    apply ih
    cases call with
    | newOrder dish => exact newOrder_consistent ops hlawful k dish hk
    | serveDish dish => exact serveDish_consistent ops hlawful hprep helaborate k dish hk

theorem new_consistent {Bag : Type} {same : Part3.Dish → Part3.Dish → Prop}
    (ops : Part3.ArrayBagOps Bag) (hlawful : Part3.LawfulBag same ops) :
    (Part3.Kitchen.new ops).ConsistentAsInt ops := by
  unfold Part3.Kitchen.ConsistentAsInt Part3.Kitchen.getPrepTimeSum
    Part3.Kitchen.elaborateDishCount Part3.Kitchen.new
  simp only
  rw [toList_eq_nil_of_size ops ops.init hlawful.init_size]
  simp [Part3.prepTimeSum, wrapInt]

/-- C25, counterexample: over the array-based bag, `newOrder` with
Feast (2147483647 minutes) and then with Toast (1 minute), both accepted,
leaves the two dishes in the kitchen, whose preparation times sum to
2147483648, and `getPrepTimeSum` returns -2147483648: `totalprep_time` is an
`int`. -/
theorem kitchen_prep_time_sum_overflows :
    ((Part3.Kitchen.new (Part3.arrayBagOps 10)).newOrder (Part3.arrayBagOps 10)
        Part3.feast).1 = true
      ∧ (((Part3.Kitchen.new (Part3.arrayBagOps 10)).newOrder (Part3.arrayBagOps 10)
          Part3.feast).2.newOrder (Part3.arrayBagOps 10) Part3.toast).1 = true
      ∧ (Part3.arrayBagOps 10).toList (Part3.kitchenOf [Part3.feast, Part3.toast]).bag
          = [Part3.feast, Part3.toast]
      ∧ (Part3.kitchenOf [Part3.feast, Part3.toast]).getPrepTimeSum = -2147483648
      ∧ Part3.prepTimeSum
          ((Part3.arrayBagOps 10).toList (Part3.kitchenOf [Part3.feast, Part3.toast]).bag)
          = 2147483648
      ∧ (Part3.kitchenOf [Part3.feast, Part3.toast]).getPrepTimeSum
          ≠ Part3.prepTimeSum
              ((Part3.arrayBagOps 10).toList
                (Part3.kitchenOf [Part3.feast, Part3.toast]).bag) := by
  decide

/-- C25, amended: for a bag that behaves as an array-based bag and an
`operator==` under which equal dishes have the same preparation time and are
both elaborate or both not, starting from an empty `Kitchen`, after every
sequence of `newOrder` and `serveDish` calls `getPrepTimeSum` is the `int`
that represents the sum of the preparation times of the dishes currently in
the kitchen, and equals that sum whenever the sum is a value an `int` can
hold; `elaborateDishCount` likewise is the `int` that represents the number of
dishes currently in the kitchen that have at least 5 ingredients and a
preparation time of at least 60, and equals that number whenever an `int` can
hold it; a `newOrder` or `serveDish` that returns false leaves the kitchen,
contents and both values, as it was. -/
theorem kitchen_counters_consistent {Bag : Type} {same : Part3.Dish → Part3.Dish → Prop}
    (ops : Part3.ArrayBagOps Bag) (hlawful : Part3.LawfulBag same ops)
    (hprep : ∀ x d, same x d → x.getPrepTime = d.getPrepTime)
    (helaborate : ∀ x d, same x d →
      (decide (x.getIngredients.length ≥ 5) && decide (x.getPrepTime ≥ 60))
        = (decide (d.getIngredients.length ≥ 5) && decide (d.getPrepTime ≥ 60)))
    (calls : List Part3.KitchenOp) :
    (Part3.runKitchenOps ops (Part3.Kitchen.new ops) calls).getPrepTimeSum
        = wrapInt (Part3.prepTimeSum
            (ops.toList (Part3.runKitchenOps ops (Part3.Kitchen.new ops) calls).bag))
      ∧ (IntRange (Part3.prepTimeSum
            (ops.toList (Part3.runKitchenOps ops (Part3.Kitchen.new ops) calls).bag)) →
          (Part3.runKitchenOps ops (Part3.Kitchen.new ops) calls).getPrepTimeSum
            = Part3.prepTimeSum
                (ops.toList (Part3.runKitchenOps ops (Part3.Kitchen.new ops) calls).bag))
      ∧ (Part3.runKitchenOps ops (Part3.Kitchen.new ops) calls).elaborateDishCount
        = wrapInt
            ((((ops.toList (Part3.runKitchenOps ops (Part3.Kitchen.new ops) calls).bag).countP
              (fun d => decide (d.getIngredients.length ≥ 5) && decide (d.getPrepTime ≥ 60))
              : Nat)) : Int)
      ∧ (IntRange
            ((((ops.toList (Part3.runKitchenOps ops (Part3.Kitchen.new ops) calls).bag).countP
              (fun d => decide (d.getIngredients.length ≥ 5) && decide (d.getPrepTime ≥ 60))
              : Nat)) : Int) →
          (Part3.runKitchenOps ops (Part3.Kitchen.new ops) calls).elaborateDishCount
            = ((ops.toList (Part3.runKitchenOps ops (Part3.Kitchen.new ops) calls).bag).countP
                (fun d => decide (d.getIngredients.length ≥ 5) && decide (d.getPrepTime ≥ 60))
                : Nat))
      ∧ ∀ (k : Part3.Kitchen Bag) (d : Part3.Dish),
          ((k.newOrder ops d).1 = false → (k.newOrder ops d).2 = k)
            ∧ ((k.serveDish ops (fun _ => d)).1 = false →
                (k.serveDish ops (fun _ => d)).2 = k) := by
  have h := runKitchenOps_consistent ops hlawful hprep helaborate calls (Part3.Kitchen.new ops)
    (new_consistent ops hlawful)
  have h2 : (Part3.runKitchenOps ops (Part3.Kitchen.new ops) calls).elaborateDishCount
      = wrapInt
          ((((ops.toList (Part3.runKitchenOps ops (Part3.Kitchen.new ops) calls).bag).countP
            (fun d => decide (d.getIngredients.length ≥ 5) && decide (d.getPrepTime ≥ 60))
            : Nat)) : Int) := h.2
  refine ⟨h.1, fun hrange => ?_, h2, fun hrange => ?_, fun k d =>
    ⟨newOrder_false_unchanged ops hlawful k d, serveDish_false_unchanged ops hlawful k d⟩⟩
  · rw [h.1, wrapInt_of_range _ hrange]
  · rw [h2, wrapInt_of_range _ hrange]

/-! ## Releasing dishes below a preparation time -/

theorem releaseBelowLoop_spec {Bag : Type} {same : Part3.Dish → Part3.Dish → Prop}
    (ops : Part3.ArrayBagOps Bag) (hlawful : Part3.LawfulBag same ops)
    (hprep : ∀ x d, same x d → x.getPrepTime = d.getPrepTime) (prep_time : Int) (n : Nat) :
    ∀ (fuel i : Nat) (bag : Bag) (removed_count : Int) (pre rest : List Part3.Dish),
      ops.toList bag = pre ++ rest → pre.length = i → rest.length = n → n < fuel →
      (∀ d ∈ pre, prep_time ≤ d.getPrepTime) →
      ∃ bag', Part3.releaseBelowLoop ops prep_time fuel i bag removed_count
          = some (removed_count
              + (rest.countP (fun d => decide (d.getPrepTime < prep_time)) : Nat), bag')
        ∧ (ops.toList bag').Perm
            (pre ++ rest.filter (fun d => decide (prep_time ≤ d.getPrepTime))) := by
  induction n with
  | zero =>
    intro fuel i bag removed_count pre rest hlist hi hrest hfuel _
    have hnil : rest = [] := List.eq_nil_of_length_eq_zero hrest
    subst hnil
    cases fuel with
    | zero => omega
    | succ fuel =>
      have hsize : ¬ i < ops.getCurrentSize bag := by
        rw [← toList_length, hlist]
        simp [hi]
      refine ⟨bag, ?_, ?_⟩
      · rw [Part3.releaseBelowLoop, if_neg hsize]
        simp
      · rw [hlist]
        simp
  | succ n ih =>
    intro fuel i bag removed_count pre rest hlist hi hrest hfuel hpre
    cases rest with
    | nil => simp at hrest
    | cons x post =>
      have hpost : post.length = n := by simpa using hrest
      cases fuel with
      | zero => omega
      | succ fuel =>
        obtain ⟨hsize, hitem⟩ := items_of_split ops bag pre post x hlist
        rw [hi] at hsize hitem
        rw [Part3.releaseBelowLoop, if_pos hsize, hitem]
        by_cases hx : x.getPrepTime < prep_time
        · rw [if_pos hx]
          have hxpre : ∀ y ∈ pre, ¬ same y x := fun y hmem hs => by
            have h1 := hpre y hmem
            have h2 := hprep y x hs
            omega
          obtain ⟨-, post', hlist', hperm⟩ :=
            hlawful.remove_first bag x pre x post hlist (hlawful.same_refl x) hxpre
          obtain ⟨bag', hloop, hfinal⟩ := ih fuel i (ops.remove bag x).2 (removed_count + 1)
            pre post' hlist' hi (by rw [hperm.length_eq, hpost]) (by omega) hpre
          refine ⟨bag', ?_, ?_⟩
          · rw [hloop, hperm.countP_eq, List.countP_cons]
            simp only [hx, decide_True, if_true]
            push_cast
            congr 2
            omega
          · have hx' : ¬ prep_time ≤ x.getPrepTime := by omega
            rw [List.filter_cons_of_neg (by simpa using hx')]
            exact hfinal.trans ((hperm.filter _).append_left pre)
        · rw [if_neg hx]
          have hx' : prep_time ≤ x.getPrepTime := by omega
          obtain ⟨bag', hloop, hfinal⟩ := ih fuel (i + 1) bag removed_count (pre ++ [x]) post
            (by rw [hlist]; simp) (by simp [hi]) hpost (by omega)
            (fun d hd => by
              rcases List.mem_append.mp hd with h1 | h1
              · exact hpre d h1
              · rw [List.mem_singleton.mp h1]; exact hx')
          refine ⟨bag', ?_, ?_⟩
          · rw [hloop, List.countP_cons]
            simp [hx]
          · rw [List.filter_cons_of_pos (by simpa using hx')]
            simpa using hfinal

/-- C27: for a bag that behaves as an array-based bag and an `operator==` under
which equal dishes have the same preparation time, every kitchen and every
threshold t, `releaseDishesBelowPrepTime(t)` ends and returns the number of
dishes that had a preparation time strictly less than t; the dishes in the
kitchen afterwards are, up to their order, the dishes that had a preparation
time of at least t: none of them has a preparation time less than t and every
dish with a preparation time of at least t is still in the kitchen. -/
theorem releaseDishesBelowPrepTime_removes_below {Bag : Type} {same : Part3.Dish → Part3.Dish → Prop}
    (ops : Part3.ArrayBagOps Bag) (hlawful : Part3.LawfulBag same ops)
    (hprep : ∀ x d, same x d → x.getPrepTime = d.getPrepTime)
    (k : Part3.Kitchen Bag) (t : Int) :
    ∃ k' : Part3.Kitchen Bag, k.releaseDishesBelowPrepTime ops t
        = some ((((ops.toList k.bag).countP (fun d => decide (d.getPrepTime < t)) : Nat) : Int),
            k')
      ∧ (ops.toList k'.bag).Perm
          ((ops.toList k.bag).filter (fun d => decide (t ≤ d.getPrepTime)))
      ∧ (∀ d ∈ ops.toList k'.bag, ¬ d.getPrepTime < t)
      ∧ (∀ d ∈ ops.toList k.bag, t ≤ d.getPrepTime → d ∈ ops.toList k'.bag) := by
  obtain ⟨bag', hloop, hfinal⟩ := releaseBelowLoop_spec ops hlawful hprep t
    (ops.toList k.bag).length
    (ops.getCurrentSize k.bag + 1) 0 k.bag 0 [] (ops.toList k.bag) rfl rfl rfl
    (by rw [toList_length]; omega) (by simp)
  refine ⟨{ k with bag := bag' }, ?_, by simpa using hfinal, ?_, ?_⟩
  · unfold Part3.Kitchen.releaseDishesBelowPrepTime
    rw [hloop]
    simp
  · intro d hd
    have := (hfinal.mem_iff).mp hd
    simp only [List.nil_append, List.mem_filter, decide_eq_true_eq] at this
    omega
  · intro d hd ht
    apply (hfinal.mem_iff).mpr
    simp only [List.nil_append, List.mem_filter, decide_eq_true_eq]
    exact ⟨hd, ht⟩

/-! ## Releasing the dishes of a cuisine type -/

theorem foldl_tally (p : Part3.Dish → Prop) [DecidablePred p] (f : Nat → Part3.Dish)
    (l : List Nat) (tally : Int) :
    l.foldl (fun tally i => if p (f i) then tally + 1 else tally) tally
      = tally + ((l.map f).countP (fun d => decide (p d)) : Nat) := by
  induction l generalizing tally with
  | nil => simp
  | cons i rest ih =>
    rw [List.foldl_cons, ih, List.map_cons, List.countP_cons]
    by_cases h : p (f i)
    · simp only [h, if_true, decide_True]
      push_cast
      omega
    · simp [h]

theorem tallyCuisineTypes_eq {Bag : Type} (ops : Part3.ArrayBagOps Bag) (k : Part3.Kitchen Bag)
    (c : String) :
    k.tallyCuisineTypes ops c
      = (((ops.toList k.bag).countP (fun d => decide (d.getCuisineType = c)) : Nat) : Int) := by
  unfold Part3.Kitchen.tallyCuisineTypes
  rw [foldl_tally (fun d => d.getCuisineType = c)]
  simp [Part3.ArrayBagOps.toList]

theorem getCuisineType_mem (d : Part3.Dish) : d.getCuisineType ∈ Part3.cuisineNames := by
  unfold Part3.Dish.getCuisineType Part3.cuisineNames
  cases d.cuisine_type_ <;> simp

theorem serveDish_slot {Bag : Type} {same : Part3.Dish → Part3.Dish → Prop}
    (ops : Part3.ArrayBagOps Bag) (hlawful : Part3.LawfulBag same ops) (k : Part3.Kitchen Bag) (pre post : List Part3.Dish)
    (x : Part3.Dish) (hlist : ops.toList k.bag = pre ++ x :: post)
    (hx : ∀ y ∈ pre, ¬ same y x) :
    ∃ (k' : Part3.Kitchen Bag) (post' : List Part3.Dish),
      k.serveDish ops (fun bag => ops.items_ bag pre.length) = (true, k')
        ∧ ops.toList k'.bag = pre ++ post' ∧ post'.Perm post := by
  obtain ⟨-, hitem⟩ := items_of_split ops k.bag pre post x hlist
  obtain ⟨htrue, post', hlist', hperm⟩ :=
    hlawful.remove_first k.bag x pre x post hlist (hlawful.same_refl x) hx
  cases hrem : ops.remove k.bag x with
  | mk r bag =>
    rw [hrem] at htrue hlist'
    simp only at htrue hlist'
    subst htrue
    have hrem' : ops.remove k.bag ((fun bag => ops.items_ bag pre.length) k.bag)
        = (true, bag) := by
      simp only [hitem]
      exact hrem
    exact ⟨_, post', serveDish_of_remove_true ops k _ bag hrem', hlist', hperm⟩

theorem releaseCuisineLoop_spec {Bag : Type} {same : Part3.Dish → Part3.Dish → Prop}
    (ops : Part3.ArrayBagOps Bag) (hlawful : Part3.LawfulBag same ops)
    (hcuisine : ∀ x d, same x d → x.getCuisineType = d.getCuisineType) (c : String) (n : Nat) :
    ∀ (fuel i : Nat) (k : Part3.Kitchen Bag) (removed_count : Int)
      (pre rest : List Part3.Dish),
      ops.toList k.bag = pre ++ rest → pre.length = i → rest.length = n → n < fuel →
      (∀ d ∈ pre, d.getCuisineType ≠ c) →
      ∃ k' : Part3.Kitchen Bag, Part3.releaseCuisineLoop ops c fuel i k removed_count
          = some (removed_count
              + ((rest.countP (fun d => decide (d.getCuisineType = c)) : Nat) : Int), k')
        ∧ (ops.toList k'.bag).Perm
            (pre ++ rest.filter (fun d => !decide (d.getCuisineType = c))) := by
  induction n with
  | zero =>
    intro fuel i k removed_count pre rest hlist hi hrest hfuel _
    have hnil : rest = [] := List.eq_nil_of_length_eq_zero hrest
    subst hnil
    cases fuel with
    | zero => omega
    | succ fuel =>
      have hsize : ¬ i < ops.getCurrentSize k.bag := by
        rw [← toList_length, hlist]
        simp [hi]
      refine ⟨k, ?_, ?_⟩
      · rw [Part3.releaseCuisineLoop, if_neg hsize]
        simp
      · rw [hlist]
        simp
  | succ n ih =>
    intro fuel i k removed_count pre rest hlist hi hrest hfuel hpre
    cases rest with
    | nil => simp at hrest
    | cons x post =>
      have hpost : post.length = n := by simpa using hrest
      cases fuel with
      | zero => omega
      | succ fuel =>
        obtain ⟨hsize, hitem⟩ := items_of_split ops k.bag pre post x hlist
        rw [hi] at hsize hitem
        rw [Part3.releaseCuisineLoop, if_pos hsize, hitem]
        by_cases hx : x.getCuisineType = c
        · rw [if_pos hx]
          have hxpre : ∀ y ∈ pre, ¬ same y x := fun y hmem hs =>
            hpre y hmem ((hcuisine y x hs).trans hx)
          obtain ⟨k1, post', hserve, hlist', hperm⟩ :=
            serveDish_slot ops hlawful k pre post x hlist hxpre
          rw [hi] at hserve
          rw [hserve]
          simp only
          obtain ⟨k', hloop, hfinal⟩ := ih fuel i k1 (removed_count + 1)
            pre post' hlist' hi (by rw [hperm.length_eq, hpost]) (by omega) hpre
          refine ⟨k', ?_, ?_⟩
          · rw [hloop, hperm.countP_eq, List.countP_cons]
            simp only [hx, decide_True, if_true]
            push_cast
            congr 2
            omega
          · rw [List.filter_cons_of_neg (by simp [hx])]
            exact hfinal.trans ((hperm.filter _).append_left pre)
        · rw [if_neg hx]
          obtain ⟨k', hloop, hfinal⟩ := ih fuel (i + 1) k removed_count (pre ++ [x]) post
            (by rw [hlist]; simp) (by simp [hi]) hpost (by omega)
            (fun d hd => by
              rcases List.mem_append.mp hd with h1 | h1
              · exact hpre d h1
              · rw [List.mem_singleton.mp h1]; exact hx)
          refine ⟨k', ?_, ?_⟩
          · rw [hloop, List.countP_cons]
            simp [hx]
          · rw [List.filter_cons_of_pos (by simp [hx])]
            simpa using hfinal

theorem releaseCuisineLoop_no_match {Bag : Type} (ops : Part3.ArrayBagOps Bag) (c : String)
    (k : Part3.Kitchen Bag) (removed_count : Int)
    (hnone : ∀ d : Part3.Dish, d.getCuisineType ≠ c) :
    ∀ (fuel i : Nat), ops.getCurrentSize k.bag - i < fuel →
      Part3.releaseCuisineLoop ops c fuel i k removed_count = some (removed_count, k) := by
  intro fuel
  induction fuel with
  | zero => intro i h; omega
  | succ fuel ih =>
    intro i h
    rw [Part3.releaseCuisineLoop]
    by_cases hsize : i < ops.getCurrentSize k.bag
    · rw [if_pos hsize, if_neg (hnone _)]
      exact ih (i + 1) (by omega)
    · rw [if_neg hsize]

/-- C28: for a bag that behaves as an array-based bag and an `operator==` under
which equal dishes have the same cuisine type, every kitchen and every
string c, `releaseDishesOfCuisineType(c)` ends and returns the number of
dishes whose cuisine type string equals c, which is the value
`tallyCuisineTypes(c)` had before the call; afterwards `tallyCuisineTypes(c)`
is 0 and the dishes in the kitchen are, up to their order, the dishes of the
other cuisine types, each of which is still in the kitchen.  When c is not one
of the seven upper-case cuisine names, 0 is returned and the kitchen is
unchanged. -/
theorem releaseDishesOfCuisineType_removes_cuisine {Bag : Type} {same : Part3.Dish → Part3.Dish → Prop}
    (ops : Part3.ArrayBagOps Bag) (hlawful : Part3.LawfulBag same ops)
    (hcuisine : ∀ x d, same x d → x.getCuisineType = d.getCuisineType)
    (k : Part3.Kitchen Bag) (c : String) :
    ∃ k' : Part3.Kitchen Bag,
      k.releaseDishesOfCuisineType ops c = some (k.tallyCuisineTypes ops c, k')
        ∧ k.tallyCuisineTypes ops c
            = (((ops.toList k.bag).countP (fun d => decide (d.getCuisineType = c)) : Nat) : Int)
        ∧ k'.tallyCuisineTypes ops c = 0
        ∧ (ops.toList k'.bag).Perm
            ((ops.toList k.bag).filter (fun d => !decide (d.getCuisineType = c)))
        ∧ (∀ d ∈ ops.toList k.bag, d.getCuisineType ≠ c → d ∈ ops.toList k'.bag)
        ∧ (c ∉ Part3.cuisineNames → k.releaseDishesOfCuisineType ops c = some (0, k)) := by
  obtain ⟨k', hloop, hfinal⟩ := releaseCuisineLoop_spec ops hlawful hcuisine c
    (ops.toList k.bag).length
    (ops.getCurrentSize k.bag + 1) 0 k 0 [] (ops.toList k.bag) rfl rfl rfl
    (by rw [toList_length]; omega) (by simp)
  simp only [List.nil_append, zero_add] at hloop hfinal
  refine ⟨k', ?_, tallyCuisineTypes_eq ops k c, ?_, hfinal, ?_, ?_⟩
  · unfold Part3.Kitchen.releaseDishesOfCuisineType
    rw [hloop, tallyCuisineTypes_eq]
  · rw [tallyCuisineTypes_eq, hfinal.countP_eq]
    have : ((ops.toList k.bag).filter (fun d => !decide (d.getCuisineType = c))).countP
        (fun d => decide (d.getCuisineType = c)) = 0 := by
      rw [List.countP_eq_zero]
      intro d hd
      simp only [List.mem_filter] at hd
      simpa using hd.2
    rw [this]
    rfl
  · intro d hd hc
    apply (hfinal.mem_iff).mpr
    simp only [List.mem_filter]
    exact ⟨hd, by simp [hc]⟩
  · intro hc
    unfold Part3.Kitchen.releaseDishesOfCuisineType
    exact releaseCuisineLoop_no_match ops c k 0
      (fun d hd => hc (hd ▸ getCuisineType_mem d)) _ 0 (by omega)

/-- Witness for C25 over the array-based bag: Pizza and Mole are ordered,
Pizza is ordered again (refused), Pizza is served, Stew is served (refused);
the kitchen then holds Mole alone. -/
theorem kitchen_counters_consistent_witness :
    (Part3.runKitchenOps (Part3.arrayBagOps 10) (Part3.Kitchen.new (Part3.arrayBagOps 10))
        [Part3.KitchenOp.newOrder Part3.pizza, Part3.KitchenOp.newOrder Part3.mole,
          Part3.KitchenOp.newOrder Part3.pizza, Part3.KitchenOp.serveDish Part3.pizza,
          Part3.KitchenOp.serveDish Part3.stew]).getPrepTimeSum
        = Part3.prepTimeSum ((Part3.arrayBagOps 10).toList
            (Part3.runKitchenOps (Part3.arrayBagOps 10)
              (Part3.Kitchen.new (Part3.arrayBagOps 10))
              [Part3.KitchenOp.newOrder Part3.pizza, Part3.KitchenOp.newOrder Part3.mole,
                Part3.KitchenOp.newOrder Part3.pizza, Part3.KitchenOp.serveDish Part3.pizza,
                Part3.KitchenOp.serveDish Part3.stew]).bag)
      ∧ (Part3.arrayBagOps 10).toList
          (Part3.runKitchenOps (Part3.arrayBagOps 10) (Part3.Kitchen.new (Part3.arrayBagOps 10))
            [Part3.KitchenOp.newOrder Part3.pizza, Part3.KitchenOp.newOrder Part3.mole,
              Part3.KitchenOp.newOrder Part3.pizza, Part3.KitchenOp.serveDish Part3.pizza,
              Part3.KitchenOp.serveDish Part3.stew]).bag = [Part3.mole]
      ∧ (Part3.runKitchenOps (Part3.arrayBagOps 10) (Part3.Kitchen.new (Part3.arrayBagOps 10))
          [Part3.KitchenOp.newOrder Part3.pizza, Part3.KitchenOp.newOrder Part3.mole,
            Part3.KitchenOp.newOrder Part3.pizza, Part3.KitchenOp.serveDish Part3.pizza,
            Part3.KitchenOp.serveDish Part3.stew]).getPrepTimeSum = 100
      ∧ (Part3.runKitchenOps (Part3.arrayBagOps 10) (Part3.Kitchen.new (Part3.arrayBagOps 10))
          [Part3.KitchenOp.newOrder Part3.pizza, Part3.KitchenOp.newOrder Part3.mole,
            Part3.KitchenOp.newOrder Part3.pizza, Part3.KitchenOp.serveDish Part3.pizza,
            Part3.KitchenOp.serveDish Part3.stew]).elaborateDishCount = 1 :=
  ⟨(kitchen_counters_consistent (Part3.arrayBagOps 10) (arrayBagOps_lawful 10)
      (fun _ _ h => by rw [h]) (fun _ _ h => by rw [h]) _).2.1
      (by unfold IntRange; decide),
    by decide, by decide, by decide⟩

/-- Witness for C27 over the array-based bag: releasing the dishes below 50
minutes from the kitchen holding Pizza (10) and Mole (100) returns 1 and
leaves Mole. -/
theorem releaseDishesBelowPrepTime_removes_below_witness :
    (∃ k' : Part3.Kitchen Part3.ArrayBag,
      (Part3.kitchenOf [Part3.pizza, Part3.mole]).releaseDishesBelowPrepTime
          (Part3.arrayBagOps 10) 50
        = some (((((Part3.arrayBagOps 10).toList
              (Part3.kitchenOf [Part3.pizza, Part3.mole]).bag).countP
            (fun d => decide (d.getPrepTime < 50)) : Nat) : Int), k')
      ∧ ((Part3.arrayBagOps 10).toList k'.bag).Perm
          (((Part3.arrayBagOps 10).toList (Part3.kitchenOf [Part3.pizza, Part3.mole]).bag).filter
            (fun d => decide (50 ≤ d.getPrepTime))))
      ∧ ((Part3.kitchenOf [Part3.pizza, Part3.mole]).releaseDishesBelowPrepTime
            (Part3.arrayBagOps 10) 50).map
          (fun r => (r.1, (Part3.arrayBagOps 10).toList r.2.bag))
        = some (1, [Part3.mole]) := by
  obtain ⟨k', h1, h2, -⟩ := releaseDishesBelowPrepTime_removes_below (Part3.arrayBagOps 10)
    (arrayBagOps_lawful 10) (fun _ _ h => by rw [h])
    (Part3.kitchenOf [Part3.pizza, Part3.mole]) 50
  exact ⟨⟨k', h1, h2⟩, by decide⟩

/-- Witness for C28 over the array-based bag: releasing the Mexican dishes
from the kitchen holding Pizza, Mole and Stew returns 1 and leaves Pizza and
Stew; releasing the cuisine type "mexican", which is none of the seven names,
returns 0 and leaves the three dishes. -/
theorem releaseDishesOfCuisineType_removes_cuisine_witness :
    (∃ k' : Part3.Kitchen Part3.ArrayBag,
      (Part3.kitchenOf [Part3.pizza, Part3.mole, Part3.stew]).releaseDishesOfCuisineType
          (Part3.arrayBagOps 10) "MEXICAN"
        = some ((Part3.kitchenOf [Part3.pizza, Part3.mole, Part3.stew]).tallyCuisineTypes
            (Part3.arrayBagOps 10) "MEXICAN", k')
      ∧ k'.tallyCuisineTypes (Part3.arrayBagOps 10) "MEXICAN" = 0)
      ∧ ((Part3.kitchenOf [Part3.pizza, Part3.mole, Part3.stew]).releaseDishesOfCuisineType
            (Part3.arrayBagOps 10) "MEXICAN").map
          (fun r => (r.1, (Part3.arrayBagOps 10).toList r.2.bag))
        = some (1, [Part3.pizza, Part3.stew])
      ∧ ((Part3.kitchenOf [Part3.pizza, Part3.mole, Part3.stew]).releaseDishesOfCuisineType
            (Part3.arrayBagOps 10) "mexican").map
          (fun r => (r.1, (Part3.arrayBagOps 10).toList r.2.bag))
        = some (0, [Part3.pizza, Part3.mole, Part3.stew]) := by
  obtain ⟨k', h1, -, h3, -⟩ := releaseDishesOfCuisineType_removes_cuisine
    (Part3.arrayBagOps 10) (arrayBagOps_lawful 10) (fun _ _ h => by rw [h])
    (Part3.kitchenOf [Part3.pizza, Part3.mole, Part3.stew]) "MEXICAN"
  exact ⟨⟨k', h1, h3⟩, by decide, by decide⟩

/-! ## The counters after a release by preparation time -/

theorem releaseDishesBelowPrepTime_frame {Bag : Type} (ops : Part3.ArrayBagOps Bag)
    (k : Part3.Kitchen Bag) (t : Int) :
    (k.releaseDishesBelowPrepTime ops t).map
        (fun r => (r.2.getPrepTimeSum, r.2.elaborateDishCount))
      = (k.releaseDishesBelowPrepTime ops t).map
          (fun _ => (k.getPrepTimeSum, k.elaborateDishCount)) := by
  unfold Part3.Kitchen.releaseDishesBelowPrepTime
  cases Part3.releaseBelowLoop ops t (ops.getCurrentSize k.bag + 1) 0 k.bag 0 <;> rfl

/-- C26, which the code does not meet: `releaseDishesBelowPrepTime` takes the
dishes out with `remove` of the bag and never writes the two counters, so for
every bag, kitchen and threshold `getPrepTimeSum` and `elaborateDishCount`
return afterwards what they returned before.  From the kitchen in which Stew
(90 minutes, five ingredients) was ordered, `releaseDishesBelowPrepTime(100)`
returns 1 and leaves no dish, and `getPrepTimeSum` still returns 90 and
`elaborateDishCount` still returns 1, where the dishes in the kitchen sum to 0
and number no elaborate dish. -/
theorem releaseDishesBelowPrepTime_stale_counters :
    (∀ (Bag : Type) (ops : Part3.ArrayBagOps Bag) (k : Part3.Kitchen Bag) (t : Int),
        (k.releaseDishesBelowPrepTime ops t).map
            (fun r => (r.2.getPrepTimeSum, r.2.elaborateDishCount))
          = (k.releaseDishesBelowPrepTime ops t).map
              (fun _ => (k.getPrepTimeSum, k.elaborateDishCount)))
      ∧ ((Part3.kitchenOf [Part3.stew]).releaseDishesBelowPrepTime (Part3.arrayBagOps 10) 100).map
          (fun r => (r.1, (Part3.arrayBagOps 10).toList r.2.bag, r.2.getPrepTimeSum,
            Part3.prepTimeSum ((Part3.arrayBagOps 10).toList r.2.bag),
            r.2.elaborateDishCount,
            ((Part3.arrayBagOps 10).toList r.2.bag).countP Part3.Dish.isElaborate))
        = some (1, [], 90, 0, 1, 0) :=
  ⟨fun _ ops k t => releaseDishesBelowPrepTime_frame ops k t, by decide⟩

/-! ## The average preparation time -/

theorem ediv_bounds (b : Int) (n : Nat) (hn : 0 < n) :
    ∃ m : Int, 2 * (b / (2 * (n : Int)) * n) + m = b ∧ 0 ≤ m ∧ m < 2 * n := by
  have hpos : (0 : Int) < 2 * (n : Int) := by positivity
  refine ⟨b % (2 * (n : Int)), ?_, Int.emod_nonneg _ (ne_of_gt hpos), Int.emod_lt_of_pos _ hpos⟩
  have := Int.ediv_add_emod b (2 * (n : Int))
  linarith

theorem roundQuotient_nearest (a : Int) (n : Nat) (hn : 0 < n) :
    2 * |Part3.roundQuotient a n * n - a| ≤ n
      ∧ (2 * |Part3.roundQuotient a n * n - a| = n → |a| < |Part3.roundQuotient a n * n|)
      ∧ (0 ≤ a → 0 ≤ Part3.roundQuotient a n) := by
  have hn' : (0 : Int) < n := by exact_mod_cast hn
  unfold Part3.roundQuotient
  by_cases ha : 0 ≤ a
  · simp only [if_pos ha]
    obtain ⟨m, hm, h0, h1⟩ := ediv_bounds (2 * a + n) n hn
    generalize (2 * a + ↑n) / (2 * (n : Int)) * ↑n = P at hm ⊢
    refine ⟨?_, ?_, fun _ => Int.ediv_nonneg (by linarith) (by linarith)⟩
    · rcases abs_cases (P - a) with ⟨h, _⟩ | ⟨h, _⟩ <;> rw [h] <;> linarith
    · intro htie
      rcases abs_cases (P - a) with ⟨h, _⟩ | ⟨h, _⟩
      · rw [h] at htie
        rw [abs_of_nonneg ha, abs_of_nonneg (by linarith)]
        linarith
      · rw [h] at htie
        linarith
  · simp only [if_neg ha]
    push_neg at ha
    obtain ⟨m, hm, h0, h1⟩ := ediv_bounds (2 * (-a) + n) n hn
    rw [neg_mul]
    generalize (2 * (-a) + ↑n) / (2 * (n : Int)) * ↑n = P at hm ⊢
    refine ⟨?_, ?_, fun h => absurd h (by linarith)⟩
    · rcases abs_cases (-P - a) with ⟨h, _⟩ | ⟨h, _⟩ <;> rw [h] <;> linarith
    · intro htie
      rcases abs_cases (-P - a) with ⟨h, _⟩ | ⟨h, _⟩
      · rw [h] at htie
        linarith
      · rw [h] at htie
        rw [abs_of_neg ha, abs_neg, abs_of_nonneg (by linarith)]
        linarith

theorem calculateAvgPrepTime_of_consistent {Bag : Type} (ops : Part3.ArrayBagOps Bag)
    (k : Part3.Kitchen Bag) (hk : k.Consistent ops) :
    (ops.getCurrentSize k.bag = 0 → k.calculateAvgPrepTime ops = 0)
      ∧ (0 < ops.getCurrentSize k.bag →
          k.calculateAvgPrepTime ops
              = Part3.roundQuotient (Part3.prepTimeSum (ops.toList k.bag))
                  (ops.toList k.bag).length
            ∧ ((∀ d ∈ ops.toList k.bag, 0 ≤ d.getPrepTime) →
                0 ≤ k.calculateAvgPrepTime ops)) := by
  unfold Part3.Kitchen.calculateAvgPrepTime
  refine ⟨fun h => by rw [if_pos h], fun h => ?_⟩
  have hsum : k.totalprep_time = Part3.prepTimeSum (ops.toList k.bag) := hk.1
  rw [if_neg (by omega), toList_length, hsum]
  refine ⟨rfl, fun hall => (roundQuotient_nearest _ _ h).2.2 ?_⟩
  unfold Part3.prepTimeSum
  apply List.sum_nonneg
  intro x hx
  obtain ⟨d, hd, rfl⟩ := List.mem_map.mp hx
  exact hall d hd

/-- C29, which the code does not meet: `calculateAvgPrepTime` divides the
counter `totalprep_time`, which `releaseDishesBelowPrepTime` leaves as it was.
From the kitchen in which Pizza (10 minutes) and Mole (100 minutes) were
ordered, after `releaseDishesBelowPrepTime(50)` the kitchen holds Mole alone
and `calculateAvgPrepTime` returns 110, where the sum of the preparation times
of the dishes in the kitchen divided by their number is 100. -/
theorem calculateAvgPrepTime_after_release :
    ((Part3.kitchenOf [Part3.pizza, Part3.mole]).releaseDishesBelowPrepTime
          (Part3.arrayBagOps 10) 50).map
        (fun r => ((Part3.arrayBagOps 10).toList r.2.bag,
          r.2.calculateAvgPrepTime (Part3.arrayBagOps 10),
          Part3.roundQuotient (Part3.prepTimeSum ((Part3.arrayBagOps 10).toList r.2.bag))
            ((Part3.arrayBagOps 10).toList r.2.bag).length))
      = some ([Part3.mole], 110, 100) := by
  decide

/-! ## Balancing the recipe book -/

theorem take_drop_split (vec : List Recipe) (s a b : Nat) (item : Recipe)
    (hitem : vec[s + a]? = some item) :
    (vec.drop s).take a ++ item :: (vec.drop (s + a + 1)).take b
      = (vec.drop s).take (a + 1 + b) := by
  have hlt : s + a < vec.length := by
    rcases Nat.lt_or_ge (s + a) vec.length with h | h
    · exact h
    · rw [List.getElem?_eq_none h] at hitem; cases hitem
  have hget : vec[s + a] = item := by
    rw [List.getElem?_eq_getElem hlt] at hitem
    exact Option.some.inj hitem
  have hdrop : (vec.drop s).drop a = item :: vec.drop (s + a + 1) := by
    rw [List.drop_drop, ← hget]
    exact List.drop_eq_getElem_cons hlt
  rw [show a + 1 + b = a + (b + 1) by omega, List.take_add, hdrop, List.take_succ_cons]

theorem pow_height_bounds (a b hl hr : Nat) (hab : a ≤ b) (hba : b ≤ a + 1)
    (hl1 : a + 1 ≤ 2 ^ hl) (hl2 : 2 ^ hl ≤ 2 * a + 1)
    (hr1 : b + 1 ≤ 2 ^ hr) (hr2 : 2 ^ hr ≤ 2 * b + 1) :
    hl ≤ hr ∧ hr ≤ hl + 1
      ∧ (a + b + 1) + 1 ≤ 2 ^ (1 + max hl hr) ∧ 2 ^ (1 + max hl hr) ≤ 2 * (a + b + 1) + 1 := by
  have h1 : hl ≤ hr := by
    by_contra hc
    have hlt : hr + 1 ≤ hl := by omega
    have hpow : 2 ^ (hr + 1) ≤ 2 ^ hl := Nat.pow_le_pow_right (by decide) hlt
    rw [Nat.pow_succ] at hpow
    omega
  have h2 : hr ≤ hl + 1 := by
    by_contra hc
    have hlt : hl + 2 ≤ hr := by omega
    have hpow : 2 ^ (hl + 2) ≤ 2 ^ hr := Nat.pow_le_pow_right (by decide) hlt
    rw [Nat.pow_succ, Nat.pow_succ] at hpow
    omega
  refine ⟨h1, h2, ?_, ?_⟩
  · rw [Nat.max_eq_right h1, Nat.add_comm 1 hr, Nat.pow_succ]
    omega
  · rw [Nat.max_eq_right h1, Nat.add_comm 1 hr, Nat.pow_succ]
    rcases Nat.eq_or_lt_of_le hab with heq | hlt
    · omega
    · cases hr with
      | zero => simp at hr1; omega
      | succ k =>
        rw [Nat.pow_succ] at hr1 hr2 ⊢
        omega

theorem buildBalancedTree_spec (vec : List Recipe) :
    ∀ (fuel n s : Nat), n ≤ fuel → s + n ≤ vec.length →
      ∃ t, buildBalancedTree vec fuel (s : Int) ((s : Int) + n - 1) = some t
        ∧ getSortedList t = (vec.drop s).take n
        ∧ HeightBalanced t
        ∧ n + 1 ≤ 2 ^ t.height ∧ 2 ^ t.height ≤ 2 * n + 1 := by
  intro fuel
  induction fuel with
  | zero =>
    intro n s hn _
    have hn0 : n = 0 := by omega
    subst hn0
    refine ⟨BinaryNode.nil, ?_, ?_, trivial, ?_, ?_⟩
    · rw [buildBalancedTree, if_pos (by omega)]
    · simp [getSortedList, inOrderTraverse]
    · simp [BinaryNode.height]
    · simp [BinaryNode.height]
  | succ fuel ih =>
    intro n s hn hlen
    by_cases hn0 : n = 0
    · subst hn0
      refine ⟨BinaryNode.nil, ?_, ?_, trivial, ?_, ?_⟩
      · rw [buildBalancedTree, if_pos (by omega)]
      · simp [getSortedList, inOrderTraverse]
      · simp [BinaryNode.height]
      · simp [BinaryNode.height]
    · have hmid : (s : Int) + ((s : Int) + n - 1 - s) / 2 = ((s + (n - 1) / 2 : Nat) : Int) := by
        omega
      have hlt : s + (n - 1) / 2 < vec.length := by omega
      obtain ⟨left, hleft, hlist_l, hbal_l, hl1, hl2⟩ := ih ((n - 1) / 2) s (by omega) (by omega)
      obtain ⟨right, hright, hlist_r, hbal_r, hr1, hr2⟩ :=
        ih (n - 1 - (n - 1) / 2) (s + (n - 1) / 2 + 1) (by omega) (by omega)
      have hleft' : buildBalancedTree vec fuel (s : Int) (((s + (n - 1) / 2 : Nat) : Int) - 1)
          = some left := by
        rw [← hleft]
        congr 1
      have hright' : buildBalancedTree vec fuel (((s + (n - 1) / 2 : Nat) : Int) + 1)
          ((s : Int) + n - 1) = some right := by
        rw [← hright]
        congr 1
        omega
      have hitem : vec[s + (n - 1) / 2]? = some (vec[s + (n - 1) / 2]) :=
        List.getElem?_eq_getElem hlt
      refine ⟨BinaryNode.node left (vec[s + (n - 1) / 2]) right, ?_, ?_, ?_, ?_⟩
      · rw [buildBalancedTree, if_neg (by omega)]
        simp only [hmid]
        rw [if_neg (by omega), Int.toNat_ofNat, hitem]
        simp only [hleft', hright']
      · rw [getSortedList_node, hlist_l, hlist_r, take_drop_split vec s _ _ _ hitem]
        congr 1
        omega
      · have hb := pow_height_bounds ((n - 1) / 2) (n - 1 - (n - 1) / 2) left.height right.height
          (by omega) (by omega) hl1 hl2 hr1 hr2
        exact ⟨⟨by omega, by omega⟩, hbal_l, hbal_r⟩
      · have hb := pow_height_bounds ((n - 1) / 2) (n - 1 - (n - 1) / 2) left.height right.height
          (by omega) (by omega) hl1 hl2 hr1 hr2
        have hsum : (n - 1) / 2 + (n - 1 - (n - 1) / 2) + 1 = n := by omega
        rw [hsum] at hb
        exact ⟨hb.2.2.1, hb.2.2.2⟩

theorem balance_spec (book : RecipeBook) :
    ∃ root, book.balance = some { root := root }
      ∧ getSortedList root = getSortedList book.root ∧ HeightBalanced root := by
  obtain ⟨t, hbuild, hlist, hbal, -, -⟩ := buildBalancedTree_spec (getSortedList book.root)
    (getSortedList book.root).length (getSortedList book.root).length 0 (le_refl _) (by omega)
  refine ⟨t, ?_, by simpa using hlist, hbal⟩
  unfold RecipeBook.balance
  have harg : (((getSortedList book.root).length : Int) - 1)
      = ((0 : Nat) : Int) + ((getSortedList book.root).length : Int) - 1 := by omega
  rw [harg]
  have h0 : (0 : Int) = ((0 : Nat) : Int) := rfl
  rw [h0, hbuild]
  rfl

/-- C31: for every recipe tree, `balance()` returns and the tree afterwards is
height-balanced: at every node the heights of the left and right subtrees
differ by at most 1.  More generally `buildBalancedTree` over the indices
`start .. start + n - 1` of any vector that has them, with
`mid = start + (end - start) / 2`, yields such a tree (the empty tree for
n = 0, which is the call `(0, -1)` that `balance()` makes on an empty book). -/
theorem balance_height_balanced (book : RecipeBook) (vec : List Recipe) (start n : Nat) :
    (∃ balanced, book.balance = some balanced ∧ HeightBalanced balanced.root)
      ∧ (RecipeBook.mk BinaryNode.nil).balance = some (RecipeBook.mk BinaryNode.nil)
      ∧ (start + n ≤ vec.length →
          ∃ t, buildBalancedTree vec n (start : Int) ((start : Int) + n - 1) = some t
            ∧ HeightBalanced t) := by
  refine ⟨?_, by decide, ?_⟩
  · obtain ⟨root, h1, -, h3⟩ := balance_spec book
    exact ⟨{ root := root }, h1, h3⟩
  · intro h
    obtain ⟨t, h1, -, h3, -⟩ := buildBalancedTree_spec vec n n start (le_refl _) h
    exact ⟨t, h1, h3⟩

/-- Witness for C31: the five recipes chained to the right, a tree of height
5, are rebuilt as a tree of height 3; `buildBalancedTree` over the indices
1 .. 3 of their sorted list. -/
theorem balance_height_balanced_witness :
    chainOfFive.root.height = 5
      ∧ chainOfFive.balance.map (fun b => b.root.height) = some 3
      ∧ ∃ t, buildBalancedTree (getSortedList chainOfFive.root) 3 ((1 : Nat) : Int)
            (((1 : Nat) : Int) + (3 : Nat) - 1) = some t
          ∧ HeightBalanced t :=
  ⟨by decide, by decide,
    (balance_height_balanced chainOfFive (getSortedList chainOfFive.root) 1 3).2.2 (by decide)⟩

theorem orderedByName_iff_pairwise (t : BinaryNode) :
    OrderedByName t ↔ (getSortedList t).Pairwise (fun a b => a.name_ < b.name_) := by
  induction t with
  | nil => simp [OrderedByName, getSortedList, inOrderTraverse]
  | node left item right ihl ihr =>
    rw [OrderedByName, getSortedList_node, List.pairwise_append, List.pairwise_cons,
      all_iff_getSortedList, all_iff_getSortedList, ihl, ihr]
    constructor
    · rintro ⟨hl, hr, hpl, hpr⟩
      refine ⟨hpl, ⟨hr, hpr⟩, ?_⟩
      intro a ha b hb
      rcases List.mem_cons.mp hb with rfl | hb'
      · exact hl a ha
      · exact lt_trans (hl a ha) (hr b hb')
    · rintro ⟨hpl, ⟨hr, hpr⟩, hcross⟩
      exact ⟨fun a ha => hcross a ha item (List.mem_cons_self _ _), hr, hpl, hpr⟩

theorem findNodeByName_found (t : BinaryNode) (name : String) (left right : BinaryNode)
    (r : Recipe) (h : findNodeByName t name = BinaryNode.node left r right) :
    r ∈ getSortedList t ∧ r.name_ = name := by
  induction t with
  | nil => simp [findNodeByName] at h
  | node l item rr ihl ihr =>
    rw [getSortedList_node]
    rw [findNodeByName] at h
    by_cases hitem : item.name_ = name
    · rw [if_pos hitem] at h
      injection h with _ h2 _
      subst h2
      exact ⟨by simp, hitem⟩
    · rw [if_neg hitem] at h
      by_cases hgt : item.name_ > name
      · rw [if_pos hgt] at h
        exact ⟨by simp [(ihl h).1], (ihl h).2⟩
      · rw [if_neg hgt] at h
        exact ⟨by simp [(ihr h).1], (ihr h).2⟩

theorem findNodeByName_iff (t : BinaryNode) (name : String) (r : Recipe)
    (hordered : OrderedByName t) :
    (∃ left right, findNodeByName t name = BinaryNode.node left r right)
      ↔ (r ∈ getSortedList t ∧ r.name_ = name) :=
  ⟨fun ⟨left, right, h⟩ => findNodeByName_found t name left right r h,
    fun ⟨hmem, hname⟩ => findNodeByName_of_mem t name r hordered hmem hname⟩

theorem findNodeByName_eq_nil_iff (t : BinaryNode) (name : String)
    (hordered : OrderedByName t) :
    findNodeByName t name = BinaryNode.nil ↔ ∀ r ∈ getSortedList t, r.name_ ≠ name := by
  constructor
  · intro h r hmem hname
    obtain ⟨left, right, hfound⟩ := findNodeByName_of_mem t name r hordered hmem hname
    rw [h] at hfound
    cases hfound
  · exact findNodeByName_of_absent t name

/-- C32: `balance()` preserves the tree's contents and order.  For every tree
it returns, and the in-order traversal (`getSortedList`) of the tree afterwards
equals the in-order traversal before it, so the tree holds the same recipes.
When the tree was a binary search tree by name it remains one, and
`findRecipe` returns a node for exactly the same names as before, holding the
same recipe. -/
theorem balance_preserves_order (book : RecipeBook) :
    ∃ balanced, book.balance = some balanced
      ∧ getSortedList balanced.root = getSortedList book.root
      ∧ (∀ r, r ∈ getSortedList balanced.root ↔ r ∈ getSortedList book.root)
      ∧ (OrderedByName book.root →
          OrderedByName balanced.root
            ∧ (∀ name, balanced.findRecipe name = BinaryNode.nil
                ↔ book.findRecipe name = BinaryNode.nil)
            ∧ ∀ name r, (∃ left right, balanced.findRecipe name = BinaryNode.node left r right)
                ↔ (∃ left right, book.findRecipe name = BinaryNode.node left r right)) := by
  obtain ⟨root, h1, h2, -⟩ := balance_spec book
  refine ⟨{ root := root }, h1, h2, fun r => by rw [h2], ?_⟩
  intro hordered
  have hordered' : OrderedByName root := by
    rw [orderedByName_iff_pairwise, h2, ← orderedByName_iff_pairwise]
    exact hordered
  refine ⟨hordered', ?_, ?_⟩
  · intro name
    unfold RecipeBook.findRecipe
    rw [findNodeByName_eq_nil_iff root name hordered',
      findNodeByName_eq_nil_iff book.root name hordered, h2]
  · intro name r
    unfold RecipeBook.findRecipe
    rw [findNodeByName_iff root name r hordered', findNodeByName_iff book.root name r hordered,
      h2]

/-- Witness for C32 on the five recipes chained to the right. -/
theorem balance_preserves_order_witness :
    OrderedByName chainOfFive.root
      ∧ chainOfFive.balance.map (fun b => (getSortedList b.root).map Recipe.name_)
          = some ["Bread", "Cake", "Pasta", "Soup", "Tart"]
      ∧ ∃ balanced, chainOfFive.balance = some balanced
          ∧ OrderedByName balanced.root
          ∧ ∀ name, balanced.findRecipe name = BinaryNode.nil
              ↔ chainOfFive.findRecipe name = BinaryNode.nil := by
  have hordered : OrderedByName chainOfFive.root := by
    simp only [OrderedByName, BinaryNode.All, chainOfFive, recipeOf, String.lt_iff_toList_lt]
    decide
  obtain ⟨balanced, h1, -, -, h4⟩ := balance_preserves_order chainOfFive
  exact ⟨hordered, by decide, balanced, h1, (h4 hordered).1, (h4 hordered).2.1⟩

/-! ## A failed draw during the pass -/

/-- C33, which the code does not meet: for a required ingredient that the
station has in stock, a failed draw only leaves the scan of the stock, and the
loop over the required ingredients goes on.  At the station Grill (stock
Salt 1, Pepper 0; recipe Salt 5, Pepper 3; backup Pepper 3) the draw of Salt 4
fails, and the pass then draws Pepper 3: afterwards the backup pool is empty,
the station stocks Pepper 3, the history holds the one draw made after the
failed one, and the order is still in the queue. -/
theorem replenishment_goes_on_after_failed_draw :
    (grillSaltFailsFirst.replenishStationIngredientFromBackup "Grill" "Salt" 4).1 = false
      ∧ (grillSaltFailsFirst.replenishStationIngredientFromBackup "Grill" "Salt" 4).2
          = grillSaltFailsFirst
      ∧ replenishRequired 0 chickenSaltPepper.ingredients grillSaltFailsFirst
          = { grillSaltFailsFirst with
              stations :=
                [⟨"Grill", [chickenSaltPepper], [⟨"Salt", 1, 0, 1⟩, ⟨"Pepper", 3, 0, 1⟩]⟩]
              backup_ingredients := []
              draw_log := [("Pepper", 3)] }
      ∧ grillSaltFailsFirst.processAllDishes
          = { grillSaltFailsFirst with
              stations :=
                [⟨"Grill", [chickenSaltPepper], [⟨"Salt", 1, 0, 1⟩, ⟨"Pepper", 3, 0, 1⟩]⟩]
              backup_ingredients := []
              draw_log := [("Pepper", 3)] } := by
  decide

/-- C38: a failed order is not atomic with respect to stock.  At the station
Grill (empty stock; recipe Pepper 3, Salt 5; backup Pepper 3 and no Salt) the
pass draws Pepper 3 into the station, fails to draw Salt, and leaves the order
unprepared: the order is still in the queue, and the backup pool and the
station's stock both differ from what they were before the pass. -/
theorem failed_order_is_not_atomic :
    ∃ m : StationManager, ∃ dish ∈ m.dish_queue,
      dish ∈ m.processAllDishes.dish_queue
        ∧ m.processAllDishes.dish_queue = m.dish_queue
        ∧ m.processAllDishes.backup_ingredients ≠ m.backup_ingredients
        ∧ m.processAllDishes.stations.map KitchenStation.ingredients_stock
            ≠ m.stations.map KitchenStation.ingredients_stock
        ∧ poolQuantity m.backup_ingredients "Pepper" = 3
        ∧ poolQuantity m.processAllDishes.backup_ingredients "Pepper" = 0
        ∧ m.stations.map (fun s => stockQuantity s.ingredients_stock "Pepper") = [0]
        ∧ m.processAllDishes.stations.map (fun s => stockQuantity s.ingredients_stock "Pepper")
            = [3] :=
  ⟨grillEmptyStock, chickenPepperSalt, by decide, by decide, by decide, by decide, by decide,
    by decide, by decide, by decide, by decide⟩

/-! ## The pass runs each order once -/

theorem processQueue_fst (queue : List Dish) (m : StationManager)
    (unPreparedDishes : List Dish) :
    (processQueue queue m unPreparedDishes).1 = passEnd queue m := by
  induction queue generalizing m unPreparedDishes with
  | nil => rfl
  | cons dish rest ih =>
    rw [processQueue, passEnd]
    cases h : processDish m dish with
    | mk m' flag =>
      cases flag <;> simp only [ih]

theorem passStates_length (queue : List Dish) (m : StationManager) :
    (passStates queue m).length = queue.length := by
  induction queue generalizing m with
  | nil => rfl
  | cons dish rest ih => simp [passStates, ih]

theorem passStates_dish_queue (queue : List Dish) (m : StationManager)
    (hqueue : m.dish_queue = queue) (k : Nat) (s : StationManager)
    (hs : (passStates queue m)[k]? = some s) : s.dish_queue = queue.drop k := by
  induction queue generalizing m k with
  | nil => simp [passStates] at hs
  | cons dish rest ih =>
    rw [passStates] at hs
    cases k with
    | zero =>
      simp only [List.getElem?_cons_zero, Option.some.injEq] at hs
      rw [← hs, hqueue]
      rfl
    | succ k =>
      simp only [List.getElem?_cons_succ] at hs
      rw [List.drop_succ_cons]
      exact ih _ rfl k hs

theorem passFlags_eq_map (queue : List Dish) (m : StationManager) :
    passFlags queue m
      = (queue.zip (passStates queue m)).map (fun p => (processDish p.2 p.1).2) := by
  induction queue generalizing m with
  | nil => rfl
  | cons dish rest ih => simp [passFlags, passStates, ih]

/-- C36: `processAllDishes` is a total function of the manager (the loops of
its embedding recurse on the finite queue, registry and recipes), so it
terminates for every registry, backup pool and queue.  It runs the per-order
procedure exactly once for each order of the original queue, front first: the
managers the procedure is run at are as many as the orders, the k-th run sees
as live queue the original queue without its first k orders (no order is put
back during the pass), its outcome flag is the k-th flag, and the manager
after the last run, with the unprepared orders as queue, is the result.  The
queue after the pass is a sublist of the queue before it and no longer. -/
theorem processAllDishes_once_per_order (m : StationManager) :
    m.processAllDishes
        = (passEnd m.dish_queue m).setDishQueue
            (keepUnprepared m.dish_queue (passFlags m.dish_queue m))
      ∧ (passStates m.dish_queue m).length = m.dish_queue.length
      ∧ (∀ k s, (passStates m.dish_queue m)[k]? = some s →
          s.dish_queue = m.dish_queue.drop k)
      ∧ passFlags m.dish_queue m
          = (m.dish_queue.zip (passStates m.dish_queue m)).map
              (fun p => (processDish p.2 p.1).2)
      ∧ (∀ (s : StationManager) (dish : Dish),
          (processDish s dish).1.dish_queue = s.dish_queue)
      ∧ m.processAllDishes.dish_queue.Sublist m.dish_queue
      ∧ m.processAllDishes.dish_queue.length ≤ m.dish_queue.length := by
  have hq : m.processAllDishes.dish_queue
      = keepUnprepared m.dish_queue (passFlags m.dish_queue m) := by
    rw [processAllDishes_dish_queue, processQueue_unprepared]
    rfl
  have hsub : m.processAllDishes.dish_queue.Sublist m.dish_queue := by
    rw [hq]
    exact keepUnprepared_sublist _ _
  refine ⟨?_, passStates_length _ _, passStates_dish_queue _ m rfl, passFlags_eq_map _ _,
    fun s dish => (processDish_frame s dish).2, hsub, hsub.length_le⟩
  unfold StationManager.processAllDishes
  rw [processQueue_fst, processQueue_unprepared]
  rfl

/-! ## One station's replenishment, step by step -/

theorem replenishRequired_cons_found (i : Nat) (req : Ingredient) (rest : List Ingredient)
    (m : StationManager) (ks : KitchenStation) (r : Ingredient)
    (hks : m.stations[i]? = some ks)
    (hf : findStock ks.ingredients_stock req.name = some r) :
    replenishRequired i (req :: rest) m
      = if req.required_quantity - r.quantity > 0 then
          replenishRequired i rest
            (m.replenishStationIngredientFromBackup ks.name req.name
              (req.required_quantity - r.quantity)).2
        else replenishRequired i rest m := by
  rw [replenishRequired]
  simp only [hks, find?_name_eq_findStock, hf]

theorem replenishRequired_cons_absent (i : Nat) (req : Ingredient) (rest : List Ingredient)
    (m : StationManager) (ks : KitchenStation) (hks : m.stations[i]? = some ks)
    (hf : findStock ks.ingredients_stock req.name = none) :
    replenishRequired i (req :: rest) m
      = if (m.replenishStationIngredientFromBackup ks.name req.name
            req.required_quantity).1 = true then
          replenishRequired i rest
            (m.replenishStationIngredientFromBackup ks.name req.name req.required_quantity).2
        else (m.replenishStationIngredientFromBackup ks.name req.name
          req.required_quantity).2 := by
  rw [replenishRequired]
  simp only [hks, find?_name_eq_findStock, hf]
  cases hres : m.replenishStationIngredientFromBackup ks.name req.name req.required_quantity with
  | mk ok m1 => cases ok <;> simp

theorem replenish_false_unchanged (m : StationManager) (station_name ingredient_name : String)
    (quantity : Int)
    (h : (m.replenishStationIngredientFromBackup station_name ingredient_name quantity).1
      = false) :
    (m.replenishStationIngredientFromBackup station_name ingredient_name quantity).2 = m := by
  unfold StationManager.replenishStationIngredientFromBackup at h ⊢
  cases hst : m.findStation station_name with
  | none => simp
  | some st =>
    cases hd : drawBackup ingredient_name quantity m.backup_ingredients with
    | none => simp
    | some res => simp [hst, hd] at h

theorem replenishAtStation_getElem? (station_name : String) (ing : Ingredient)
    (stations : List KitchenStation) (i : Nat) (ks : KitchenStation)
    (hks : stations[i]? = some ks) :
    (replenishAtStation station_name ing stations)[i]? = some ks
      ∨ (replenishAtStation station_name ing stations)[i]?
          = some (ks.replenishStationIngredients ing) := by
  induction stations generalizing i with
  | nil => simp at hks
  | cons s rest ih =>
    rw [replenishAtStation]
    by_cases hs : s.name = station_name
    · rw [if_pos hs]
      cases i with
      | zero =>
        simp only [List.getElem?_cons_zero, Option.some.injEq] at hks ⊢
        right
        rw [hks]
      | succ j =>
        simp only [List.getElem?_cons_succ] at hks ⊢
        left
        exact hks
    · rw [if_neg hs]
      cases i with
      | zero =>
        simp only [List.getElem?_cons_zero] at hks ⊢
        left
        exact hks
      | succ j =>
        simp only [List.getElem?_cons_succ] at hks ⊢
        exact ih j hks

theorem drawBackup_found_name (ingredient_name : String) (quantity : Int)
    (pool : List Ingredient) (found : Ingredient) (pool' : List Ingredient)
    (h : drawBackup ingredient_name quantity pool = some (found, pool')) :
    found.name = ingredient_name := by
  induction pool generalizing pool' with
  | nil => simp [drawBackup] at h
  | cons x rest ih =>
    rw [drawBackup] at h
    by_cases hx : x.name = ingredient_name ∧ x.quantity ≥ quantity
    · rw [if_pos hx] at h
      simp only [Option.some.injEq, Prod.mk.injEq] at h
      rw [← h.1]
      exact hx.1
    · rw [if_neg hx] at h
      cases hrest : drawBackup ingredient_name quantity rest with
      | none => simp [hrest] at h
      | some res =>
        obtain ⟨f, p⟩ := res
        simp only [hrest, Option.some.injEq, Prod.mk.injEq] at h
        rw [h.1] at hrest
        exact ih p hrest

theorem replenish_station_at (m : StationManager) (station_name ingredient_name : String)
    (quantity : Int) (i : Nat) (ks : KitchenStation) (hks : m.stations[i]? = some ks) :
    ∃ ks', (m.replenishStationIngredientFromBackup station_name ingredient_name
          quantity).2.stations[i]? = some ks'
      ∧ ks'.name = ks.name ∧ ks'.dishes = ks.dishes
      ∧ ∀ n, n ≠ ingredient_name →
          findStock ks'.ingredients_stock n = findStock ks.ingredients_stock n := by
  unfold StationManager.replenishStationIngredientFromBackup
  cases hst : m.findStation station_name with
  | none => exact ⟨ks, hks, rfl, rfl, fun _ _ => rfl⟩
  | some st =>
    cases hd : drawBackup ingredient_name quantity m.backup_ingredients with
    | none => exact ⟨ks, hks, rfl, rfl, fun _ _ => rfl⟩
    | some res =>
      obtain ⟨found, pool'⟩ := res
      have hname := drawBackup_found_name _ _ _ _ _ hd
      simp only
      rcases replenishAtStation_getElem? station_name ⟨found.name, quantity, 0, found.price⟩
        m.stations i ks hks with h | h
      · exact ⟨ks, h, rfl, rfl, fun _ _ => rfl⟩
      · refine ⟨_, h, rfl, rfl, ?_⟩
        intro n hn
        simp only [KitchenStation.replenishStationIngredients, findStock_mergeStock]
        rw [if_neg (by rw [hname]; exact hn)]

theorem replenishRequired_station_at (i : Nat) (reqs : List Ingredient) :
    ∀ (m : StationManager) (ks : KitchenStation), m.stations[i]? = some ks →
      ∃ ks', (replenishRequired i reqs m).stations[i]? = some ks'
        ∧ ks'.name = ks.name ∧ ks'.dishes = ks.dishes
        ∧ ∀ n, (∀ req ∈ reqs, req.name ≠ n) →
            findStock ks'.ingredients_stock n = findStock ks.ingredients_stock n := by
  induction reqs with
  | nil => intro m ks hks; exact ⟨ks, hks, rfl, rfl, fun _ _ => rfl⟩
  | cons req rest ih =>
    intro m ks hks
    have hstep : ∀ q : Int,
        ∃ ks', (replenishRequired i rest
              (m.replenishStationIngredientFromBackup ks.name req.name q).2).stations[i]?
            = some ks'
          ∧ ks'.name = ks.name ∧ ks'.dishes = ks.dishes
          ∧ ∀ n, (∀ r ∈ req :: rest, r.name ≠ n) →
              findStock ks'.ingredients_stock n = findStock ks.ingredients_stock n := by
      intro q
      obtain ⟨ks1, h1, hn1, hd1, hs1⟩ := replenish_station_at m ks.name req.name q i ks hks
      obtain ⟨ks2, h2, hn2, hd2, hs2⟩ := ih _ ks1 h1
      refine ⟨ks2, h2, hn2.trans hn1, hd2.trans hd1, ?_⟩
      intro n hn
      rw [hs2 n (fun r hr => hn r (List.mem_cons_of_mem _ hr)),
        hs1 n (fun h => hn req (List.mem_cons_self _ _) h.symm)]
    have hsame : ∃ ks', (replenishRequired i rest m).stations[i]? = some ks'
        ∧ ks'.name = ks.name ∧ ks'.dishes = ks.dishes
        ∧ ∀ n, (∀ r ∈ req :: rest, r.name ≠ n) →
            findStock ks'.ingredients_stock n = findStock ks.ingredients_stock n := by
      obtain ⟨ks2, h2, hn2, hd2, hs2⟩ := ih m ks hks
      exact ⟨ks2, h2, hn2, hd2, fun n hn => hs2 n (fun r hr => hn r (List.mem_cons_of_mem _ hr))⟩
    cases hf : findStock ks.ingredients_stock req.name with
    | some r =>
      rw [replenishRequired_cons_found i req rest m ks r hks hf]
      split
      · exact hstep _
      · exact hsame
    | none =>
      rw [replenishRequired_cons_absent i req rest m ks hks hf]
      split
      · exact hstep _
      · obtain ⟨ks1, h1, hn1, hd1, hs1⟩ :=
          replenish_station_at m ks.name req.name req.required_quantity i ks hks
        exact ⟨ks1, h1, hn1, hd1,
          fun n hn => hs1 n (fun h => hn req (List.mem_cons_self _ _) h.symm)⟩

theorem lacks_of_drawFails (i : Nat) (reqs : List Ingredient) :
    ∀ (m : StationManager) (ks : KitchenStation), m.stations[i]? = some ks →
      (reqs.map Ingredient.name).Nodup → drawFails i reqs m = true →
      ∃ ks', (replenishRequired i reqs m).stations[i]? = some ks'
        ∧ ks'.name = ks.name ∧ ks'.dishes = ks.dishes
        ∧ ∃ req ∈ reqs, lacks ks'.ingredients_stock req = true := by
  induction reqs with
  | nil => intro m ks _ _ h; simp [drawFails] at h
  | cons req rest ih =>
    intro m ks hks hnames hfail
    rw [List.map_cons, List.nodup_cons] at hnames
    have hfresh : ∀ r ∈ rest, r.name ≠ req.name := fun r hr h =>
      hnames.1 (h ▸ List.mem_map_of_mem _ hr)
    have hgo : ∀ q : Int,
        (m.replenishStationIngredientFromBackup ks.name req.name q).1 = true →
        drawFails i rest (m.replenishStationIngredientFromBackup ks.name req.name q).2 = true →
        ∃ ks', (replenishRequired i rest
              (m.replenishStationIngredientFromBackup ks.name req.name q).2).stations[i]?
            = some ks'
          ∧ ks'.name = ks.name ∧ ks'.dishes = ks.dishes
          ∧ ∃ r ∈ req :: rest, lacks ks'.ingredients_stock r = true := by
      intro q _ hrest
      obtain ⟨ks1, h1, hn1, hd1, -⟩ := replenish_station_at m ks.name req.name q i ks hks
      obtain ⟨ks2, h2, hn2, hd2, r, hr, hl⟩ := ih _ ks1 h1 hnames.2 hrest
      exact ⟨ks2, h2, hn2.trans hn1, hd2.trans hd1, r, List.mem_cons_of_mem _ hr, hl⟩
    rw [drawFails] at hfail
    simp only [hks] at hfail
    cases hf : findStock ks.ingredients_stock req.name with
    | some r =>
      rw [replenishRequired_cons_found i req rest m ks r hks hf]
      simp only [hf] at hfail
      by_cases hpos : req.required_quantity - r.quantity > 0
      · rw [if_pos hpos] at hfail ⊢
        cases hok : (m.replenishStationIngredientFromBackup ks.name req.name
            (req.required_quantity - r.quantity)).1 with
        | true =>
          rw [hok] at hfail
          exact hgo _ hok (by simpa using hfail)
        | false =>
          rw [replenish_false_unchanged m _ _ _ hok]
          obtain ⟨ks2, h2, hn2, hd2, hs2⟩ := replenishRequired_station_at i rest m ks hks
          refine ⟨ks2, h2, hn2, hd2, req, List.mem_cons_self _ _, ?_⟩
          simp only [lacks, hs2 req.name hfresh, hf, decide_eq_true_eq]
          omega
      · rw [if_neg hpos] at hfail ⊢
        obtain ⟨ks2, h2, hn2, hd2, r', hr', hl⟩ := ih m ks hks hnames.2 hfail
        exact ⟨ks2, h2, hn2, hd2, r', List.mem_cons_of_mem _ hr', hl⟩
    | none =>
      rw [replenishRequired_cons_absent i req rest m ks hks hf]
      simp only [hf] at hfail
      cases hok : (m.replenishStationIngredientFromBackup ks.name req.name
          req.required_quantity).1 with
      | true =>
        rw [hok] at hfail
        rw [if_pos rfl]
        exact hgo _ hok (by simpa using hfail)
      | false =>
        rw [if_neg (by simp), replenish_false_unchanged m _ _ _ hok]
        exact ⟨ks, hks, rfl, rfl, req, List.mem_cons_self _ _, by simp [lacks, hf]⟩

theorem dishes_split_of_findDish (ks : KitchenStation) (dish_name : String) (d : Dish)
    (hset : (ks.dishes.map Dish.name).Nodup) (hreg : ks.findDish dish_name = some d) :
    ∃ pre post, ks.dishes = pre ++ d :: post ∧ d.name = dish_name
      ∧ (∀ x ∈ pre, x.name ≠ dish_name) ∧ (∀ x ∈ post, x.name ≠ dish_name) := by
  unfold KitchenStation.findDish at hreg
  rw [List.find?_eq_some] at hreg
  obtain ⟨hname, pre, post, hsplit, hpre⟩ := hreg
  have hname' : d.name = dish_name := by simpa using hname
  refine ⟨pre, post, hsplit, hname', fun x hx => by simpa using hpre x hx, ?_⟩
  intro x hx hxn
  rw [hsplit, List.map_append, List.map_cons, List.nodup_append] at hset
  exact (List.nodup_cons.mp hset.2.1).1 (hname' ▸ hxn ▸ List.mem_map_of_mem _ hx)

theorem dishLoop_skip (dish_name : String) (i : Nat) (pre ds : List Dish)
    (st : StationManager × Bool) (hpre : ∀ x ∈ pre, x.name ≠ dish_name) :
    dishLoop dish_name i (pre ++ ds) st = dishLoop dish_name i ds st := by
  induction pre with
  | nil => rfl
  | cons x rest ih =>
    obtain ⟨m, isPrepared⟩ := st
    rw [List.cons_append, dishLoop, if_neg (hpre x (List.mem_cons_self _ _))]
    exact ih (fun y hy => hpre y (List.mem_cons_of_mem _ hy))

theorem dishLoop_cons_cannot (dish_name : String) (i : Nat) (d : Dish) (rest : List Dish)
    (m : StationManager) (isPrepared : Bool) (ks : KitchenStation)
    (hks : m.stations[i]? = some ks) (hname : d.name = dish_name)
    (hcannot : ks.canCompleteOrder dish_name = false) :
    dishLoop dish_name i (d :: rest) (m, isPrepared)
      = if (prepareDishAt (replenishRequired i d.ingredients m) i dish_name).1 = true then
          ((prepareDishAt (replenishRequired i d.ingredients m) i dish_name).2, true)
        else dishLoop dish_name i rest
          ((prepareDishAt (replenishRequired i d.ingredients m) i dish_name).2, isPrepared) := by
  rw [dishLoop, if_pos hname]
  simp only [hks, hcannot, Bool.false_eq_true, if_false]
  cases hres : prepareDishAt (replenishRequired i d.ingredients m) i dish_name with
  | mk ok m' => cases ok <;> simp

theorem dishLoop_cons_can (dish_name : String) (i : Nat) (d : Dish) (rest : List Dish)
    (m : StationManager) (isPrepared : Bool) (ks : KitchenStation)
    (hks : m.stations[i]? = some ks) (hname : d.name = dish_name)
    (hcan : ks.canCompleteOrder dish_name = true) :
    dishLoop dish_name i (d :: rest) (m, isPrepared)
      = dishLoop dish_name i rest ((prepareDishAt m i dish_name).2, true) := by
  rw [dishLoop, if_pos hname]
  simp only [hks, hcan, if_true, prepareDishAt_of_can m i dish_name ks hks hcan]

theorem findDish_congr (ks ks' : KitchenStation) (dish_name : String)
    (h : ks'.dishes = ks.dishes) : ks'.findDish dish_name = ks.findDish dish_name := by
  unfold KitchenStation.findDish
  rw [h]

theorem cannot_of_lacks (ks : KitchenStation) (dish_name : String) (d : Dish)
    (hreg : ks.findDish dish_name = some d)
    (hl : ∃ req ∈ d.ingredients, lacks ks.ingredients_stock req = true) :
    ks.canCompleteOrder dish_name = false := by
  unfold KitchenStation.canCompleteOrder
  rw [hreg]
  simp only
  rw [Bool.eq_false_iff]
  intro hall
  rw [List.all_eq_true] at hall
  obtain ⟨req, hreq, hlack⟩ := hl
  have := hall req hreq
  simp [hlack] at this

/-! ## Which station prepares an order -/

theorem drawsOnly_trans (a b c : StationManager) (h1 : DrawsOnly a b) (h2 : DrawsOnly b c) :
    DrawsOnly a c := by
  induction h2 with
  | refl => exact h1
  | draw m' station_name ingredient_name quantity _ ih =>
    exact DrawsOnly.draw a m' station_name ingredient_name quantity ih

theorem drawsOnly_single (m : StationManager) (station_name ingredient_name : String)
    (quantity : Int) :
    DrawsOnly m (m.replenishStationIngredientFromBackup station_name ingredient_name
      quantity).2 :=
  DrawsOnly.draw m m station_name ingredient_name quantity (DrawsOnly.refl m)

theorem replenishRequired_drawsOnly (i : Nat) (reqs : List Ingredient) (m : StationManager) :
    DrawsOnly m (replenishRequired i reqs m) := by
  induction reqs generalizing m with
  | nil => exact DrawsOnly.refl m
  | cons req rest ih =>
    unfold replenishRequired
    split
    · exact DrawsOnly.refl m
    · next ks _ =>
      split
      · next stockIngredient _ =>
        simp only
        split
        · exact drawsOnly_trans _ _ _ (drawsOnly_single m ks.name req.name
            (req.required_quantity - stockIngredient.quantity)) (ih _)
        · exact ih m
      · have h1 := drawsOnly_single m ks.name req.name req.required_quantity
        split
        · next m' hm' =>
          rw [hm'] at h1
          exact drawsOnly_trans _ _ _ h1 (ih m')
        · next m' hm' =>
          rw [hm'] at h1
          exact h1

theorem drawsOnly_registrations (a b : StationManager) (h : DrawsOnly a b) :
    registrations b.stations = registrations a.stations := by
  induction h with
  | refl => rfl
  | draw m' station_name ingredient_name quantity _ ih =>
    rw [(replenish_frame m' station_name ingredient_name quantity).1, ih]

theorem dishesOnce_of_registrations (a b : List KitchenStation)
    (h : registrations b = registrations a) (ha : DishesOnce a) : DishesOnce b := by
  have key : ∀ l : List KitchenStation,
      DishesOnce l ↔ ∀ p ∈ registrations l, (p.2.map Dish.name).Nodup := by
    intro l
    unfold DishesOnce registrations
    simp
  rw [key, h, ← key]
  exact ha

theorem replenishAtStation_after (station_name : String) (ing : Ingredient)
    (stations : List KitchenStation) (i : Nat) (ks : KitchenStation)
    (hks : stations[i]? = some ks) (hname : ks.name = station_name) (j : Nat) (hj : i < j) :
    (replenishAtStation station_name ing stations)[j]? = stations[j]? := by
  induction stations generalizing i j with
  | nil => simp at hks
  | cons s rest ih =>
    rw [replenishAtStation]
    by_cases hs : s.name = station_name
    · rw [if_pos hs]
      cases j with
      | zero => omega
      | succ j' => simp
    · rw [if_neg hs]
      cases j with
      | zero => omega
      | succ j' =>
        cases i with
        | zero =>
          simp only [List.getElem?_cons_zero, Option.some.injEq] at hks
          exact absurd (hks ▸ hname) hs
        | succ i' =>
          simp only [List.getElem?_cons_succ] at hks ⊢
          exact ih i' hks j' (by omega)

theorem replenish_after (m : StationManager) (ingredient_name : String) (quantity : Int)
    (i : Nat) (ks : KitchenStation) (hks : m.stations[i]? = some ks) (j : Nat) (hj : i < j) :
    (m.replenishStationIngredientFromBackup ks.name ingredient_name quantity).2.stations[j]?
      = m.stations[j]? := by
  unfold StationManager.replenishStationIngredientFromBackup
  cases hst : m.findStation ks.name with
  | none => rfl
  | some st =>
    cases hd : drawBackup ingredient_name quantity m.backup_ingredients with
    | none => rfl
    | some res =>
      simp only
      exact replenishAtStation_after ks.name _ m.stations i ks hks rfl j hj

theorem replenishRequired_after (i : Nat) (reqs : List Ingredient) :
    ∀ (m : StationManager) (ks : KitchenStation), m.stations[i]? = some ks →
      ∀ j, i < j → (replenishRequired i reqs m).stations[j]? = m.stations[j]? := by
  induction reqs with
  | nil => intro m ks _ j _; rfl
  | cons req rest ih =>
    intro m ks hks j hj
    have hstep : ∀ q : Int,
        (replenishRequired i rest
            (m.replenishStationIngredientFromBackup ks.name req.name q).2).stations[j]?
          = m.stations[j]? := by
      intro q
      obtain ⟨ks1, h1, -, -, -⟩ := replenish_station_at m ks.name req.name q i ks hks
      rw [ih _ ks1 h1 j hj, replenish_after m req.name q i ks hks j hj]
    cases hf : findStock ks.ingredients_stock req.name with
    | some r =>
      rw [replenishRequired_cons_found i req rest m ks r hks hf]
      split
      · exact hstep _
      · exact ih m ks hks j hj
    | none =>
      rw [replenishRequired_cons_absent i req rest m ks hks hf]
      split
      · exact hstep _
      · exact replenish_after m req.name _ i ks hks j hj

theorem prepareDishAt_other (m : StationManager) (i : Nat) (dish_name : String) (j : Nat)
    (hj : i ≠ j) : (prepareDishAt m i dish_name).2.stations[j]? = m.stations[j]? := by
  unfold prepareDishAt
  cases h : m.stations[i]? with
  | none => rfl
  | some ks =>
    simp only
    exact List.getElem?_set_ne hj

theorem prepareDishAt_false_unchanged (m : StationManager) (i : Nat) (dish_name : String)
    (h : (prepareDishAt m i dish_name).1 = false) : (prepareDishAt m i dish_name).2 = m := by
  unfold prepareDishAt at h ⊢
  cases hks : m.stations[i]? with
  | none => rfl
  | some ks =>
    simp only [hks] at h
    simp only
    rw [prepareDish_unchanged_of_fail ks dish_name h, set_of_getElem? _ _ _ hks]

theorem stationLoop_cons_unregistered (dish_name : String) (i : Nat) (later : List Nat)
    (m : StationManager) (ks : KitchenStation) (hks : m.stations[i]? = some ks)
    (hreg : ks.findDish dish_name = none) :
    stationLoop dish_name (i :: later) m = stationLoop dish_name later m := by
  have hnone : ∀ d ∈ ks.dishes, d.name ≠ dish_name := by
    unfold KitchenStation.findDish at hreg
    rw [List.find?_eq_none] at hreg
    intro d hd
    simpa using hreg d hd
  rw [stationLoop]
  simp only [hks, dishLoop_no_match dish_name i ks.dishes _ hnone]

theorem stationLoop_cons_can (dish_name : String) (i : Nat) (later : List Nat)
    (m : StationManager) (ks : KitchenStation) (d : Dish) (hks : m.stations[i]? = some ks)
    (hset : (ks.dishes.map Dish.name).Nodup) (hreg : ks.findDish dish_name = some d)
    (hcan : ks.canCompleteOrder dish_name = true) :
    stationLoop dish_name (i :: later) m = ((prepareDishAt m i dish_name).2, true) := by
  obtain ⟨pre, post, hsplit, hname, -, -⟩ := dishes_split_of_findDish ks dish_name d hset hreg
  rw [stationLoop]
  simp only [hks]
  rw [dishLoop_of_can dish_name i ks.dishes m false ks hks hcan hset
    ⟨d, by rw [hsplit]; simp, hname⟩, prepareDishAt_of_can m i dish_name ks hks hcan]

theorem stationLoop_cons_cannot (dish_name : String) (i : Nat) (later : List Nat)
    (m : StationManager) (ks : KitchenStation) (d : Dish) (hks : m.stations[i]? = some ks)
    (hset : (ks.dishes.map Dish.name).Nodup) (hreg : ks.findDish dish_name = some d)
    (hcannot : ks.canCompleteOrder dish_name = false) :
    stationLoop dish_name (i :: later) m
      = if (prepareDishAt (replenishRequired i d.ingredients m) i dish_name).1 = true then
          ((prepareDishAt (replenishRequired i d.ingredients m) i dish_name).2, true)
        else stationLoop dish_name later (replenishRequired i d.ingredients m) := by
  obtain ⟨pre, post, hsplit, hname, hpre, hpost⟩ :=
    dishes_split_of_findDish ks dish_name d hset hreg
  rw [stationLoop]
  simp only [hks]
  rw [hsplit, dishLoop_skip dish_name i pre _ _ hpre,
    dishLoop_cons_cannot dish_name i d post m false ks hks hname hcannot]
  by_cases hp : (prepareDishAt (replenishRequired i d.ingredients m) i dish_name).1 = true
  · rw [if_pos hp, if_pos hp]
  · rw [if_neg hp, if_neg hp, dishLoop_no_match dish_name i post _ hpost]
    simp only
    rw [prepareDishAt_false_unchanged _ i dish_name (by simpa using hp)]

theorem registered_of_registrations (a b : List KitchenStation)
    (h : registrations b = registrations a) (ks : KitchenStation) (hks : ks ∈ b) :
    ∃ s ∈ a, s.dishes = ks.dishes := by
  have hmem : (ks.name, ks.dishes) ∈ registrations b := by
    unfold registrations
    exact List.mem_map.mpr ⟨ks, hks, rfl⟩
  rw [h] at hmem
  unfold registrations at hmem
  obtain ⟨s, hs, heq⟩ := List.mem_map.mp hmem
  exact ⟨s, hs, (Prod.mk.inj heq).2⟩

theorem replenishAtStation_first (station_name : String) (ing : Ingredient)
    (stations : List KitchenStation) :
    ∀ (i : Nat) (ks : KitchenStation), stations[i]? = some ks → ks.name = station_name →
      (∀ j ks_j, j < i → stations[j]? = some ks_j → ks_j.name ≠ station_name) →
      replenishAtStation station_name ing stations
        = stations.set i (ks.replenishStationIngredients ing) := by
  induction stations with
  | nil => intro i ks hks; simp at hks
  | cons s rest ih =>
    intro i ks hks hname hfirst
    cases i with
    | zero =>
      simp only [List.getElem?_cons_zero, Option.some.injEq] at hks
      subst hks
      rw [replenishAtStation, if_pos hname, List.set_cons_zero]
    | succ j =>
      simp only [List.getElem?_cons_succ] at hks
      have hs : s.name ≠ station_name := hfirst 0 s (Nat.succ_pos j) (by simp)
      rw [replenishAtStation, if_neg hs, List.set_cons_succ,
        ih j ks hks hname (fun k ks_k hk hget =>
          hfirst (k + 1) ks_k (Nat.succ_lt_succ hk) (by simpa using hget))]

theorem replenish_first (m : StationManager) (ingredient_name : String) (quantity : Int)
    (i : Nat) (ks : KitchenStation) (hks : m.stations[i]? = some ks)
    (hfirst : ∀ j ks_j, j < i → m.stations[j]? = some ks_j → ks_j.name ≠ ks.name) :
    ∃ ks', (m.replenishStationIngredientFromBackup ks.name ingredient_name
          quantity).2.stations[i]? = some ks'
      ∧ ks'.name = ks.name ∧ ks'.dishes = ks.dishes
      ∧ (∀ j ks_j, j < i →
          (m.replenishStationIngredientFromBackup ks.name ingredient_name
            quantity).2.stations[j]? = some ks_j → ks_j.name ≠ ks.name)
      ∧ (∀ n, stockQuantity ks'.ingredients_stock n
            + poolQuantity (m.replenishStationIngredientFromBackup ks.name ingredient_name
                quantity).2.backup_ingredients n
          = stockQuantity ks.ingredients_stock n + poolQuantity m.backup_ingredients n)
      ∧ (NonNegative m.backup_ingredients →
          NonNegative (m.replenishStationIngredientFromBackup ks.name ingredient_name
            quantity).2.backup_ingredients) := by
  unfold StationManager.replenishStationIngredientFromBackup
  cases hst : m.findStation ks.name with
  | none => exact ⟨ks, hks, rfl, rfl, hfirst, fun _ => rfl, fun h => h⟩
  | some st =>
    cases hd : drawBackup ingredient_name quantity m.backup_ingredients with
    | none => exact ⟨ks, hks, rfl, rfl, hfirst, fun _ => rfl, fun h => h⟩
    | some res =>
      obtain ⟨found, pool'⟩ := res
      have hname := drawBackup_found_name _ _ _ _ _ hd
      obtain ⟨hnn, hpool⟩ := drawBackup_conserves _ _ _ _ _ hd
      have hlt : i < m.stations.length := by
        rcases Nat.lt_or_ge i m.stations.length with h | h
        · exact h
        · rw [List.getElem?_eq_none h] at hks
          exact absurd hks (by simp)
      have hstations := replenishAtStation_first ks.name
        ⟨found.name, quantity, 0, found.price⟩ m.stations i ks hks rfl hfirst
      simp only
      rw [hstations]
      refine ⟨ks.replenishStationIngredients ⟨found.name, quantity, 0, found.price⟩,
        ?_, rfl, rfl, ?_, ?_, hnn⟩
      · rw [List.getElem?_set_self hlt]
      · intro j ks_j hj hget
        rw [List.getElem?_set_ne (by omega)] at hget
        exact hfirst j ks_j hj hget
      · intro n
        have := hpool n
        simp only [KitchenStation.replenishStationIngredients, stockQuantity_mergeStock, hname]
        omega

theorem drawBackup_none_of_replenish_false (m : StationManager) (ingredient_name : String)
    (quantity : Int) (i : Nat) (ks : KitchenStation) (hks : m.stations[i]? = some ks)
    (h : (m.replenishStationIngredientFromBackup ks.name ingredient_name quantity).1 = false) :
    drawBackup ingredient_name quantity m.backup_ingredients = none := by
  unfold StationManager.replenishStationIngredientFromBackup at h
  cases hst : m.findStation ks.name with
  | none =>
    exact absurd rfl ((findStation_eq_none_iff m ks.name).mp hst ks (List.getElem?_mem hks))
  | some st =>
    cases hd : drawBackup ingredient_name quantity m.backup_ingredients with
    | none => rfl
    | some res =>
      rw [hst, hd] at h
      simp at h

theorem lacks_of_stockQuantity_lt (stock : List Ingredient) (req : Ingredient)
    (hlt : stockQuantity stock req.name < req.required_quantity) :
    lacks stock req = true := by
  unfold lacks
  unfold stockQuantity at hlt
  cases hf : findStock stock req.name with
  | none => rfl
  | some r =>
    rw [hf] at hlt
    simpa using hlt

theorem replenishRequired_short (i : Nat) (n : String) (bound : Int) (reqs : List Ingredient) :
    ∀ (m : StationManager) (ks : KitchenStation), m.stations[i]? = some ks →
      (∀ j ks_j, j < i → m.stations[j]? = some ks_j → ks_j.name ≠ ks.name) →
      NonNegative m.backup_ingredients →
      stockQuantity ks.ingredients_stock n + poolQuantity m.backup_ingredients n < bound →
      ∃ ks', (replenishRequired i reqs m).stations[i]? = some ks'
        ∧ ks'.name = ks.name ∧ ks'.dishes = ks.dishes
        ∧ stockQuantity ks'.ingredients_stock n < bound := by
  induction reqs with
  | nil =>
    intro m ks hks _ hnn hlt
    have := poolQuantity_nonneg _ hnn n
    exact ⟨ks, hks, rfl, rfl, by omega⟩
  | cons req rest ih =>
    intro m ks hks hfirst hnn hlt
    have hgo : ∀ q : Int,
        ∃ ks', (replenishRequired i rest
              (m.replenishStationIngredientFromBackup ks.name req.name q).2).stations[i]?
            = some ks'
          ∧ ks'.name = ks.name ∧ ks'.dishes = ks.dishes
          ∧ stockQuantity ks'.ingredients_stock n < bound := by
      intro q
      obtain ⟨ks1, h1, hn1, hd1, hf1, hq1, hnn1⟩ :=
        replenish_first m req.name q i ks hks hfirst
      obtain ⟨ks2, h2, hn2, hd2, hl2⟩ := ih _ ks1 h1 (hn1 ▸ hf1) (hnn1 hnn)
        (by rw [hq1 n]; exact hlt)
      exact ⟨ks2, h2, hn2.trans hn1, hd2.trans hd1, hl2⟩
    cases hf : findStock ks.ingredients_stock req.name with
    | some r =>
      rw [replenishRequired_cons_found i req rest m ks r hks hf]
      by_cases hpos : req.required_quantity - r.quantity > 0
      · rw [if_pos hpos]
        exact hgo _
      · rw [if_neg hpos]
        exact ih m ks hks hfirst hnn hlt
    | none =>
      rw [replenishRequired_cons_absent i req rest m ks hks hf]
      split
      · exact hgo _
      · obtain ⟨ks1, h1, hn1, hd1, -, hq1, hnn1⟩ :=
          replenish_first m req.name req.required_quantity i ks hks hfirst
        have := poolQuantity_nonneg _ (hnn1 hnn) n
        have := hq1 n
        exact ⟨ks1, h1, hn1, hd1, by omega⟩

theorem poolQuantity_lt_of_drawBackup_none (ingredient_name : String) (quantity : Int)
    (pool : List Ingredient) (hdistinct : DistinctNames pool) (hpos : 0 < quantity)
    (h : drawBackup ingredient_name quantity pool = none) :
    poolQuantity pool ingredient_name < quantity := by
  rw [poolQuantity_eq_stockQuantity pool ingredient_name hdistinct]
  unfold stockQuantity
  cases hf : findStock pool ingredient_name with
  | none => exact hpos
  | some p =>
    unfold findStock at hf
    have hmem := List.mem_of_find?_eq_some hf
    have hname : p.name = ingredient_name := by simpa using List.find?_some hf
    exact (drawBackup_eq_none_iff ingredient_name quantity pool).mp h p hmem hname

theorem lacks_of_drawFails_first (i : Nat) (reqs : List Ingredient) :
    ∀ (m : StationManager) (ks : KitchenStation), m.stations[i]? = some ks →
      (∀ j ks_j, j < i → m.stations[j]? = some ks_j → ks_j.name ≠ ks.name) →
      DistinctNames m.backup_ingredients → NonNegative m.backup_ingredients →
      drawFails i reqs m = true →
      ∃ ks', (replenishRequired i reqs m).stations[i]? = some ks'
        ∧ ks'.name = ks.name ∧ ks'.dishes = ks.dishes
        ∧ ∃ req ∈ reqs, lacks ks'.ingredients_stock req = true := by
  induction reqs with
  | nil => intro m ks _ _ _ _ h; simp [drawFails] at h
  | cons req rest ih =>
    intro m ks hks hfirst hdistinct hnn hfail
    have hgo : ∀ q : Int,
        drawFails i rest (m.replenishStationIngredientFromBackup ks.name req.name q).2 = true →
        ∃ ks', (replenishRequired i rest
              (m.replenishStationIngredientFromBackup ks.name req.name q).2).stations[i]?
            = some ks'
          ∧ ks'.name = ks.name ∧ ks'.dishes = ks.dishes
          ∧ ∃ r ∈ req :: rest, lacks ks'.ingredients_stock r = true := by
      intro q hrest
      obtain ⟨ks1, h1, hn1, hd1, hf1, -, hnn1⟩ := replenish_first m req.name q i ks hks hfirst
      obtain ⟨ks2, h2, hn2, hd2, r, hr, hl⟩ := ih _ ks1 h1 (hn1 ▸ hf1)
        (distinctNames_replenish m ks.name req.name q hdistinct) (hnn1 hnn) hrest
      exact ⟨ks2, h2, hn2.trans hn1, hd2.trans hd1, r, List.mem_cons_of_mem _ hr, hl⟩
    rw [drawFails] at hfail
    simp only [hks] at hfail
    cases hf : findStock ks.ingredients_stock req.name with
    | some r =>
      rw [replenishRequired_cons_found i req rest m ks r hks hf]
      simp only [hf] at hfail
      by_cases hpos : req.required_quantity - r.quantity > 0
      · rw [if_pos hpos] at hfail ⊢
        cases hok : (m.replenishStationIngredientFromBackup ks.name req.name
            (req.required_quantity - r.quantity)).1 with
        | true =>
          rw [hok] at hfail
          exact hgo _ (by simpa using hfail)
        | false =>
          rw [replenish_false_unchanged m _ _ _ hok]
          have hnone := drawBackup_none_of_replenish_false m req.name _ i ks hks hok
          have hpool := poolQuantity_lt_of_drawBackup_none req.name _ m.backup_ingredients
            hdistinct hpos hnone
          have hstock : stockQuantity ks.ingredients_stock req.name = r.quantity := by
            unfold stockQuantity
            rw [hf]
          obtain ⟨ks2, h2, hn2, hd2, hl2⟩ := replenishRequired_short i req.name
            req.required_quantity rest m ks hks hfirst hnn (by rw [hstock]; omega)
          exact ⟨ks2, h2, hn2, hd2, req, List.mem_cons_self _ _,
            lacks_of_stockQuantity_lt _ req hl2⟩
      · rw [if_neg hpos] at hfail ⊢
        obtain ⟨ks2, h2, hn2, hd2, r', hr', hl⟩ := ih m ks hks hfirst hdistinct hnn hfail
        exact ⟨ks2, h2, hn2, hd2, r', List.mem_cons_of_mem _ hr', hl⟩
    | none =>
      rw [replenishRequired_cons_absent i req rest m ks hks hf]
      simp only [hf] at hfail
      cases hok : (m.replenishStationIngredientFromBackup ks.name req.name
          req.required_quantity).1 with
      | true =>
        rw [hok] at hfail
        rw [if_pos rfl]
        exact hgo _ (by simpa using hfail)
      | false =>
        rw [if_neg (by simp), replenish_false_unchanged m _ _ _ hok]
        exact ⟨ks, hks, rfl, rfl, req, List.mem_cons_self _ _, by simp [lacks, hf]⟩

theorem replenishRequired_shadowed (i : Nat) (reqs : List Ingredient) :
    ∀ (m : StationManager) (ks : KitchenStation) (j : Nat) (ks_j : KitchenStation),
      m.stations[i]? = some ks → j < i → m.stations[j]? = some ks_j → ks_j.name = ks.name →
      (replenishRequired i reqs m).stations[i]? = some ks := by
  induction reqs with
  | nil => intro m ks j ks_j hks _ _ _; exact hks
  | cons req rest ih =>
    intro m ks j ks_j hks hj hget hname
    have hgo : ∀ q : Int,
        (replenishRequired i rest
          (m.replenishStationIngredientFromBackup ks.name req.name q).2).stations[i]?
          = some ks := by
      intro q
      obtain ⟨ks_j', hget', hname', -, -⟩ := replenish_station_at m ks.name req.name q j ks_j hget
      have hsame := replenish_after m req.name q j ks_j hget i hj
      rw [hname] at hsame
      exact ih _ ks j ks_j' (hsame.trans hks) hj hget' (hname'.trans hname)
    have hone : ∀ q : Int,
        (m.replenishStationIngredientFromBackup ks.name req.name q).2.stations[i]?
          = some ks := by
      intro q
      have hsame := replenish_after m req.name q j ks_j hget i hj
      rw [hname] at hsame
      exact hsame.trans hks
    cases hf : findStock ks.ingredients_stock req.name with
    | some r =>
      rw [replenishRequired_cons_found i req rest m ks r hks hf]
      split
      · exact hgo _
      · exact ih m ks j ks_j hks hj hget hname
    | none =>
      rw [replenishRequired_cons_absent i req rest m ks hks hf]
      split
      · exact hgo _
      · exact hone _

theorem cannot_after_failed_draw (m : StationManager) (i : Nat) (ks : KitchenStation)
    (dish_name : String) (station_dish : Dish)
    (hks : m.stations[i]? = some ks)
    (hreg : ks.findDish dish_name = some station_dish)
    (hdata : (station_dish.ingredients.map Ingredient.name).Nodup
      ∨ (DistinctNames m.backup_ingredients ∧ NonNegative m.backup_ingredients))
    (hcannot : ks.canCompleteOrder dish_name = false)
    (hfail : drawFails i station_dish.ingredients m = true) :
    ∃ ks', (replenishRequired i station_dish.ingredients m).stations[i]? = some ks'
      ∧ ks'.canCompleteOrder dish_name = false := by
  have hof : (∃ ks', (replenishRequired i station_dish.ingredients m).stations[i]? = some ks'
        ∧ ks'.name = ks.name ∧ ks'.dishes = ks.dishes
        ∧ ∃ req ∈ station_dish.ingredients, lacks ks'.ingredients_stock req = true) →
      ∃ ks', (replenishRequired i station_dish.ingredients m).stations[i]? = some ks'
        ∧ ks'.canCompleteOrder dish_name = false := by
    rintro ⟨ks', hks', -, hdishes, hl⟩
    have hreg' : ks'.findDish dish_name = some station_dish := by
      rw [findDish_congr ks ks' dish_name hdishes, hreg]
    exact ⟨ks', hks', cannot_of_lacks ks' dish_name station_dish hreg' hl⟩
  rcases hdata with hnames | ⟨hdistinct, hnn⟩
  · exact hof (lacks_of_drawFails i station_dish.ingredients m ks hks hnames hfail)
  · by_cases hfirst : ∀ j ks_j, j < i → m.stations[j]? = some ks_j → ks_j.name ≠ ks.name
    · exact hof (lacks_of_drawFails_first i station_dish.ingredients m ks hks hfirst hdistinct
        hnn hfail)
    · push_neg at hfirst
      obtain ⟨j, ks_j, hj, hget, hname⟩ := hfirst
      exact ⟨ks, replenishRequired_shadowed i station_dish.ingredients m ks j ks_j hks hj hget
        hname, hcannot⟩

/-- C34, counterexample: at the station Grill (stock Salt 0; recipe
Salt 3, Salt 2, Salt 3; backup pool with two records Salt 2) the station
cannot complete the order, the first draw (Salt 3) fails, the draws of 2 and
of 1 succeed, and the retried `prepareDish` then prepares the order at that
very station: the order leaves the queue and the station has consumed 8. -/
theorem failed_draw_then_prepared :
    (∀ s ∈ grillSaltThrice.stations, s.canCompleteOrder "Chicken" = false)
      ∧ (grillSaltThrice.replenishStationIngredientFromBackup "Grill" "Salt" 3).1 = false
      ∧ drawFails 0 chickenSaltThrice.ingredients grillSaltThrice = true
      ∧ (replenishRequired 0 chickenSaltThrice.ingredients grillSaltThrice).stations
          = [⟨"Grill", [chickenSaltThrice], [⟨"Salt", 3, 0, 1⟩]⟩]
      ∧ (prepareDishAt (replenishRequired 0 chickenSaltThrice.ingredients grillSaltThrice) 0
          "Chicken").1 = true
      ∧ (processDish grillSaltThrice chickenSaltThrice).2 = true
      ∧ grillSaltThrice.processAllDishes.dish_queue = []
      ∧ grillSaltThrice.processAllDishes.stations
          = [⟨"Grill", [chickenSaltThrice], [⟨"Salt", -5, 0, 1⟩]⟩]
      ∧ grillSaltThrice.processAllDishes.backup_ingredients = [⟨"Salt", 1, 0, 1⟩] := by
  decide

/-- C34, amended: when the backup pool meets its invariants (no two records
share a name, no quantity is negative) or the recipe lists each ingredient
once, an order is not prepared during the pass at a station at which one of
its replenishment draws failed.  For a station that has the order's dish
registered and cannot complete the order as it is, when some draw of the
station's replenishment loop fails, the retried `prepareDish` returns false
and leaves the manager as the replenishment loop left it (the station consumes
nothing for the order), the loop over the station's dishes goes on to the next
registered dish, and, the station registering each dish name once, the
dispatch proceeds to the next station in registry order. -/
theorem failed_draw_blocks_preparation (m : StationManager) (i : Nat) (ks : KitchenStation)
    (dish_name : String) (station_dish : Dish) (rest : List Dish) (isPrepared : Bool)
    (later : List Nat)
    (hks : m.stations[i]? = some ks)
    (hreg : ks.findDish dish_name = some station_dish)
    (hdata : (DistinctNames m.backup_ingredients ∧ NonNegative m.backup_ingredients)
      ∨ (station_dish.ingredients.map Ingredient.name).Nodup)
    (hcannot : ks.canCompleteOrder dish_name = false)
    (hfail : drawFails i station_dish.ingredients m = true) :
    prepareDishAt (replenishRequired i station_dish.ingredients m) i dish_name
        = (false, replenishRequired i station_dish.ingredients m)
      ∧ dishLoop dish_name i (station_dish :: rest) (m, isPrepared)
          = dishLoop dish_name i rest
              (replenishRequired i station_dish.ingredients m, isPrepared)
      ∧ ((ks.dishes.map Dish.name).Nodup →
          stationLoop dish_name (i :: later) m
            = stationLoop dish_name later (replenishRequired i station_dish.ingredients m)) := by
  obtain ⟨ks', hks', hcannot'⟩ :=
    cannot_after_failed_draw m i ks dish_name station_dish hks hreg hdata.symm hcannot hfail
  have hprep := prepareDishAt_of_cannot _ i dish_name ks' hks' hcannot'
  have hname : station_dish.name = dish_name := by
    unfold KitchenStation.findDish at hreg
    have := List.find?_some hreg
    simpa using this
  have hloop : ∀ (ds : List Dish) (flag : Bool),
      dishLoop dish_name i (station_dish :: ds) (m, flag)
        = dishLoop dish_name i ds (replenishRequired i station_dish.ingredients m, flag) := by
    intro ds flag
    rw [dishLoop_cons_cannot dish_name i station_dish ds m flag ks hks hname hcannot, hprep]
    simp
  refine ⟨hprep, hloop rest isPrepared, ?_⟩
  intro hset
  obtain ⟨pre, post, hsplit, -, hpre, hpost⟩ :=
    dishes_split_of_findDish ks dish_name station_dish hset hreg
  rw [stationLoop]
  simp only [hks]
  rw [hsplit, dishLoop_skip dish_name i pre _ _ hpre, hloop post false,
    dishLoop_no_match dish_name i post _ hpost]

/-- Witness for C34: at the station Grill (stock Salt 1, Pepper 0; recipe
Salt 5, Pepper 3; backup Pepper 3) the draw of Salt fails; the retried
preparation fails and the station loop, having no further station, ends with
the order unprepared. -/
theorem failed_draw_blocks_preparation_witness :
    drawFails 0 chickenSaltPepper.ingredients grillSaltFailsFirst = true
      ∧ (prepareDishAt (replenishRequired 0 chickenSaltPepper.ingredients grillSaltFailsFirst)
          0 "Chicken").1 = false
      ∧ (stationLoop "Chicken" [0] grillSaltFailsFirst).2 = false := by
  have h := failed_draw_blocks_preparation grillSaltFailsFirst 0
    ⟨"Grill", [chickenSaltPepper], [⟨"Salt", 1, 0, 1⟩, ⟨"Pepper", 0, 0, 1⟩]⟩ "Chicken"
    chickenSaltPepper [] false [] rfl rfl
    (Or.inl ⟨by unfold DistinctNames; decide, by unfold NonNegative; decide⟩) (by decide)
    (by decide)
  refine ⟨by decide, ?_, ?_⟩
  · rw [h.1]
  · rw [h.2.2 (by decide)]
    rfl

/-! ## The first capable station prepares the order -/

theorem replenish_eq_canDraw (m : StationManager) (ingredient_name : String) (quantity : Int)
    (i : Nat) (ks : KitchenStation) (hks : m.stations[i]? = some ks) :
    (m.replenishStationIngredientFromBackup ks.name ingredient_name quantity).1
      = canDraw m.backup_ingredients ingredient_name quantity := by
  cases hok : (m.replenishStationIngredientFromBackup ks.name ingredient_name quantity).1 with
  | false =>
    have hnone := drawBackup_none_of_replenish_false m ingredient_name quantity i ks hks hok
    have hall := (drawBackup_eq_none_iff ingredient_name quantity m.backup_ingredients).mp hnone
    symm
    unfold canDraw
    rw [List.any_eq_false]
    intro x hx
    simp only [decide_eq_true_eq, not_and, not_le]
    intro hname
    exact hall x hx hname
  | true =>
    symm
    by_contra hcontra
    have hfalse : canDraw m.backup_ingredients ingredient_name quantity = false := by
      simpa using hcontra
    unfold canDraw at hfalse
    rw [List.any_eq_false] at hfalse
    have hnone : drawBackup ingredient_name quantity m.backup_ingredients = none := by
      rw [drawBackup_eq_none_iff]
      intro x hx hname
      have := hfalse x hx
      simp only [decide_eq_true_eq, not_and, not_le] at this
      exact this hname
    unfold StationManager.replenishStationIngredientFromBackup at hok
    rw [hnone] at hok
    cases hst : m.findStation ks.name with
    | none => rw [hst] at hok; simp at hok
    | some st => rw [hst] at hok; simp at hok

theorem canDraw_drawBackup_other (ingredient_name : String) (quantity : Int) (n : String)
    (q : Int) (hn : n ≠ ingredient_name) :
    ∀ (pool : List Ingredient) (found : Ingredient) (pool' : List Ingredient),
      drawBackup ingredient_name quantity pool = some (found, pool') →
      canDraw pool' n q = canDraw pool n q := by
  intro pool
  induction pool with
  | nil => intro found pool' h; simp [drawBackup] at h
  | cons b rest ih =>
    intro found pool' h
    rw [drawBackup] at h
    by_cases hb : b.name = ingredient_name ∧ b.quantity ≥ quantity
    · rw [if_pos hb] at h
      have hbn : ¬ b.name = n := fun hc => hn (hc ▸ hb.1)
      simp only [Option.some.injEq, Prod.mk.injEq] at h
      rw [← h.2]
      unfold canDraw
      split <;> simp [hbn]
    · rw [if_neg hb] at h
      cases hd : drawBackup ingredient_name quantity rest with
      | none => rw [hd] at h; simp at h
      | some res =>
        obtain ⟨found', rest'⟩ := res
        rw [hd] at h
        simp only [Option.some.injEq, Prod.mk.injEq] at h
        rw [← h.2]
        have := ih found' rest' hd
        unfold canDraw at this ⊢
        simp only [List.any_cons, this]

theorem canDraw_replenish_other (m : StationManager) (station_name ingredient_name : String)
    (quantity : Int) (n : String) (q : Int) (hn : n ≠ ingredient_name) :
    canDraw (m.replenishStationIngredientFromBackup station_name ingredient_name
        quantity).2.backup_ingredients n q
      = canDraw m.backup_ingredients n q := by
  unfold StationManager.replenishStationIngredientFromBackup
  cases hst : m.findStation station_name with
  | none => rfl
  | some st =>
    cases hd : drawBackup ingredient_name quantity m.backup_ingredients with
    | none => rfl
    | some res =>
      obtain ⟨found, pool'⟩ := res
      exact canDraw_drawBackup_other ingredient_name quantity n q hn _ found pool' hd

theorem coverable_congr (stock stock' pool pool' : List Ingredient) (reqs : List Ingredient)
    (hstock : ∀ req ∈ reqs, findStock stock' req.name = findStock stock req.name)
    (hpool : ∀ req ∈ reqs, ∀ q, canDraw pool' req.name q = canDraw pool req.name q) :
    coverable stock' pool' reqs = coverable stock pool reqs := by
  unfold coverable
  induction reqs with
  | nil => rfl
  | cons req rest ih =>
    rw [List.all_cons, List.all_cons,
      ih (fun r hr => hstock r (List.mem_cons_of_mem _ hr))
        (fun r hr => hpool r (List.mem_cons_of_mem _ hr)),
      hstock req (List.mem_cons_self _ _)]
    simp only [hpool req (List.mem_cons_self _ _)]

theorem coverable_cons (stock pool : List Ingredient) (req : Ingredient)
    (rest : List Ingredient) :
    coverable stock pool (req :: rest)
      = ((match findStock stock req.name with
          | some r =>
            decide (req.required_quantity - r.quantity ≤ 0)
              || canDraw pool req.name (req.required_quantity - r.quantity)
          | none => canDraw pool req.name req.required_quantity)
        && coverable stock pool rest) := by
  unfold coverable
  rw [List.all_cons]

theorem drawFails_eq_not_coverable (i : Nat) (reqs : List Ingredient) :
    ∀ (m : StationManager) (ks : KitchenStation), m.stations[i]? = some ks →
      (reqs.map Ingredient.name).Nodup →
      drawFails i reqs m = !coverable ks.ingredients_stock m.backup_ingredients reqs := by
  induction reqs with
  | nil => intro m ks _ _; simp [drawFails, coverable]
  | cons req rest ih =>
    intro m ks hks hnames
    rw [List.map_cons, List.nodup_cons] at hnames
    have hfresh : ∀ r ∈ rest, r.name ≠ req.name := fun r hr h =>
      hnames.1 (h ▸ List.mem_map_of_mem _ hr)
    have hgo : ∀ q : Int,
        drawFails i rest (m.replenishStationIngredientFromBackup ks.name req.name q).2
          = !coverable ks.ingredients_stock m.backup_ingredients rest := by
      intro q
      obtain ⟨ks1, h1, -, -, hs1⟩ := replenish_station_at m ks.name req.name q i ks hks
      rw [ih _ ks1 h1 hnames.2,
        coverable_congr ks.ingredients_stock ks1.ingredients_stock m.backup_ingredients _ rest
          (fun r hr => hs1 r.name (hfresh r hr))
          (fun r hr q' => canDraw_replenish_other m ks.name req.name q r.name q' (hfresh r hr))]
    rw [drawFails, coverable_cons]
    simp only [hks]
    cases hf : findStock ks.ingredients_stock req.name with
    | some r =>
      simp only
      by_cases hpos : req.required_quantity - r.quantity > 0
      · rw [if_pos hpos, hgo, replenish_eq_canDraw m req.name _ i ks hks]
        have hle : ¬ req.required_quantity - r.quantity ≤ 0 := by omega
        simp [hle]
      · rw [if_neg hpos, ih m ks hks hnames.2]
        have hle : req.required_quantity - r.quantity ≤ 0 := by omega
        simp [hle]
    | none =>
      simp only
      rw [hgo, replenish_eq_canDraw m req.name _ i ks hks]
      simp

theorem first_of_name (stations : List KitchenStation)
    (hnames : (stations.map KitchenStation.name).Nodup) (i j : Nat) (ks ks_j : KitchenStation)
    (hks : stations[i]? = some ks) (hj : stations[j]? = some ks_j) (hne : j ≠ i) :
    ks_j.name ≠ ks.name := by
  intro heq
  have hi' : (stations.map KitchenStation.name)[i]? = some ks.name := by
    rw [List.getElem?_map, hks]; rfl
  have hj' : (stations.map KitchenStation.name)[j]? = some ks.name := by
    rw [List.getElem?_map, hj, ← heq]; rfl
  obtain ⟨hil, hi''⟩ := List.getElem?_eq_some.mp hi'
  obtain ⟨hjl, hj''⟩ := List.getElem?_eq_some.mp hj'
  exact hne ((List.Nodup.getElem_inj_iff hnames).mp (hj''.trans hi''.symm))

theorem replenish_first_station (m : StationManager) (ingredient_name : String)
    (quantity : Int) (i : Nat) (ks : KitchenStation) (hks : m.stations[i]? = some ks)
    (hfirst : ∀ j ks_j, j < i → m.stations[j]? = some ks_j → ks_j.name ≠ ks.name)
    (hok : (m.replenishStationIngredientFromBackup ks.name ingredient_name quantity).1
      = true) :
    ∃ price, (m.replenishStationIngredientFromBackup ks.name ingredient_name
          quantity).2.stations[i]?
        = some (ks.replenishStationIngredients ⟨ingredient_name, quantity, 0, price⟩) := by
  unfold StationManager.replenishStationIngredientFromBackup at hok ⊢
  cases hst : m.findStation ks.name with
  | none => rw [hst] at hok; simp at hok
  | some st =>
    cases hd : drawBackup ingredient_name quantity m.backup_ingredients with
    | none => rw [hst, hd] at hok; simp at hok
    | some res =>
      obtain ⟨found, pool'⟩ := res
      have hname := drawBackup_found_name _ _ _ _ _ hd
      have hlt : i < m.stations.length := by
        rcases Nat.lt_or_ge i m.stations.length with h | h
        · exact h
        · rw [List.getElem?_eq_none h] at hks
          exact absurd hks (by simp)
      simp only
      rw [replenishAtStation_first ks.name ⟨found.name, quantity, 0, found.price⟩ m.stations i
        ks hks rfl hfirst, List.getElem?_set_self hlt, hname]
      exact ⟨found.price, rfl⟩

theorem not_lacks_after_draw (stock : List Ingredient) (req : Ingredient) (price : Nat) :
    lacks (mergeStock stock
        ⟨req.name,
          (match findStock stock req.name with
            | some r => req.required_quantity - r.quantity
            | none => req.required_quantity), 0, price⟩) req = false := by
  unfold lacks
  rw [findStock_mergeStock, if_pos rfl]
  cases hf : findStock stock req.name with
  | none => simp
  | some r => simp

theorem not_lacks_of_no_failed_draw (i : Nat) (reqs : List Ingredient) :
    ∀ (m : StationManager) (ks : KitchenStation), m.stations[i]? = some ks →
      (∀ j ks_j, j < i → m.stations[j]? = some ks_j → ks_j.name ≠ ks.name) →
      (reqs.map Ingredient.name).Nodup → drawFails i reqs m = false →
      ∃ ks', (replenishRequired i reqs m).stations[i]? = some ks'
        ∧ ks'.name = ks.name ∧ ks'.dishes = ks.dishes
        ∧ (∀ req ∈ reqs, lacks ks'.ingredients_stock req = false)
        ∧ ∀ n, (∀ req ∈ reqs, req.name ≠ n) →
            findStock ks'.ingredients_stock n = findStock ks.ingredients_stock n := by
  induction reqs with
  | nil => intro m ks hks _ _ _; exact ⟨ks, hks, rfl, rfl, by simp, fun _ _ => rfl⟩
  | cons req rest ih =>
    intro m ks hks hfirst hnames hfail
    rw [List.map_cons, List.nodup_cons] at hnames
    have hfresh : ∀ r ∈ rest, r.name ≠ req.name := fun r hr h =>
      hnames.1 (h ▸ List.mem_map_of_mem _ hr)
    have hgo : ∀ q : Int,
        (match findStock ks.ingredients_stock req.name with
          | some r => req.required_quantity - r.quantity
          | none => req.required_quantity) = q →
        (m.replenishStationIngredientFromBackup ks.name req.name q).1 = true →
        drawFails i rest (m.replenishStationIngredientFromBackup ks.name req.name q).2
          = false →
        ∃ ks', (replenishRequired i rest
              (m.replenishStationIngredientFromBackup ks.name req.name q).2).stations[i]?
            = some ks'
          ∧ ks'.name = ks.name ∧ ks'.dishes = ks.dishes
          ∧ (∀ r ∈ req :: rest, lacks ks'.ingredients_stock r = false)
          ∧ ∀ n, (∀ r ∈ req :: rest, r.name ≠ n) →
              findStock ks'.ingredients_stock n = findStock ks.ingredients_stock n := by
      intro q hq hok hrest
      obtain ⟨price, h1⟩ := replenish_first_station m req.name q i ks hks hfirst hok
      obtain ⟨_, -, -, -, hf1, -, -⟩ := replenish_first m req.name q i ks hks hfirst
      obtain ⟨ks2, h2, hn2, hd2, hl2, hs2⟩ := ih _ _ h1 hf1 hnames.2 hrest
      refine ⟨ks2, h2, hn2, hd2, ?_, ?_⟩
      · intro r hr
        rcases List.mem_cons.mp hr with rfl | hr'
        · rw [lacks_congr _ _ r (hs2 r.name hfresh)]
          have := not_lacks_after_draw ks.ingredients_stock r price
          rw [hq] at this
          exact this
        · exact hl2 r hr'
      · intro n hn
        rw [hs2 n (fun r hr => hn r (List.mem_cons_of_mem _ hr))]
        simp only [KitchenStation.replenishStationIngredients, findStock_mergeStock]
        rw [if_neg (fun h => hn req (List.mem_cons_self _ _) h.symm)]
    rw [drawFails] at hfail
    simp only [hks] at hfail
    cases hf : findStock ks.ingredients_stock req.name with
    | some r =>
      rw [replenishRequired_cons_found i req rest m ks r hks hf]
      simp only [hf] at hfail hgo
      by_cases hpos : req.required_quantity - r.quantity > 0
      · rw [if_pos hpos] at hfail ⊢
        simp only [Bool.or_eq_false_iff, Bool.not_eq_false'] at hfail
        exact hgo _ rfl hfail.1 hfail.2
      · rw [if_neg hpos] at hfail ⊢
        obtain ⟨ks2, h2, hn2, hd2, hl2, hs2⟩ := ih m ks hks hfirst hnames.2 hfail
        refine ⟨ks2, h2, hn2, hd2, ?_, fun n hn =>
          hs2 n (fun r hr => hn r (List.mem_cons_of_mem _ hr))⟩
        intro r' hr'
        rcases List.mem_cons.mp hr' with rfl | hr''
        · rw [lacks_congr _ _ r' (hs2 r'.name hfresh)]
          unfold lacks
          rw [hf]
          simp only [decide_eq_false_iff_not, not_lt]
          omega
        · exact hl2 r' hr''
    | none =>
      rw [replenishRequired_cons_absent i req rest m ks hks hf]
      simp only [hf] at hfail hgo
      simp only [Bool.or_eq_false_iff, Bool.not_eq_false'] at hfail
      rw [if_pos hfail.1]
      exact hgo _ rfl hfail.1 hfail.2

theorem can_of_not_lacks (ks : KitchenStation) (dish_name : String) (d : Dish)
    (hreg : ks.findDish dish_name = some d)
    (h : ∀ req ∈ d.ingredients, lacks ks.ingredients_stock req = false) :
    ks.canCompleteOrder dish_name = true := by
  unfold KitchenStation.canCompleteOrder
  rw [hreg]
  simp only [List.all_eq_true, Bool.not_eq_true']
  exact h

theorem recipesOnce_of_registrations (a b : List KitchenStation)
    (h : registrations b = registrations a) (ha : RecipesOnce a) : RecipesOnce b := by
  intro s hs d hd
  obtain ⟨s', hs', hdishes⟩ := registered_of_registrations a b h s hs
  exact ha s' hs' d (hdishes ▸ hd)

theorem names_nodup_of_registrations (a b : List KitchenStation)
    (h : registrations b = registrations a) (ha : (a.map KitchenStation.name).Nodup) :
    (b.map KitchenStation.name).Nodup := by
  rw [names_of_registrations, h, ← names_of_registrations]
  exact ha

theorem length_of_registrations (a b : List KitchenStation)
    (h : registrations b = registrations a) : b.length = a.length := by
  have := congrArg List.length h
  simpa [registrations] using this

theorem afterReplenishment_none (dish_name : String) (m : StationManager) (i : Nat)
    (hks : m.stations[i]? = none) : afterReplenishment dish_name m i = m := by
  simp only [afterReplenishment, hks]

theorem afterReplenishment_unregistered (dish_name : String) (m : StationManager) (i : Nat)
    (ks : KitchenStation) (hks : m.stations[i]? = some ks)
    (hreg : ks.findDish dish_name = none) : afterReplenishment dish_name m i = m := by
  simp only [afterReplenishment, hks, hreg]

theorem afterReplenishment_can (dish_name : String) (m : StationManager) (i : Nat)
    (ks : KitchenStation) (hks : m.stations[i]? = some ks)
    (hcan : ks.canCompleteOrder dish_name = true) : afterReplenishment dish_name m i = m := by
  simp only [afterReplenishment, hks, hcan]
  cases ks.findDish dish_name <;> simp

theorem afterReplenishment_cannot (dish_name : String) (m : StationManager) (i : Nat)
    (ks : KitchenStation) (d : Dish) (hks : m.stations[i]? = some ks)
    (hreg : ks.findDish dish_name = some d) (hcan : ks.canCompleteOrder dish_name = false) :
    afterReplenishment dish_name m i = replenishRequired i d.ingredients m := by
  simp [afterReplenishment, hks, hreg, hcan]

theorem capableAt_unregistered (dish_name : String) (m : StationManager) (i : Nat)
    (ks : KitchenStation) (hks : m.stations[i]? = some ks)
    (hreg : ks.findDish dish_name = none) : capableAt dish_name m i = false := by
  simp only [capableAt, hks, hreg]

theorem capableAt_registered (dish_name : String) (m : StationManager) (i : Nat)
    (ks : KitchenStation) (d : Dish) (hks : m.stations[i]? = some ks)
    (hreg : ks.findDish dish_name = some d) :
    capableAt dish_name m i
      = (ks.canCompleteOrder dish_name
          || coverable ks.ingredients_stock m.backup_ingredients d.ingredients) := by
  simp only [capableAt, hks, hreg]

theorem afterReplenishment_drawsOnly (dish_name : String) (m : StationManager) (i : Nat) :
    DrawsOnly m (afterReplenishment dish_name m i) := by
  cases hks : m.stations[i]? with
  | none => rw [afterReplenishment_none dish_name m i hks]; exact DrawsOnly.refl m
  | some ks =>
    cases hreg : ks.findDish dish_name with
    | none =>
      rw [afterReplenishment_unregistered dish_name m i ks hks hreg]
      exact DrawsOnly.refl m
    | some d =>
      cases hcan : ks.canCompleteOrder dish_name with
      | true => rw [afterReplenishment_can dish_name m i ks hks hcan]; exact DrawsOnly.refl m
      | false =>
        rw [afterReplenishment_cannot dish_name m i ks d hks hreg hcan]
        exact replenishRequired_drawsOnly i d.ingredients m

theorem afterReplenishment_after (dish_name : String) (m : StationManager) (i j : Nat)
    (hj : i < j) : (afterReplenishment dish_name m i).stations[j]? = m.stations[j]? := by
  cases hks : m.stations[i]? with
  | none => rw [afterReplenishment_none dish_name m i hks]
  | some ks =>
    cases hreg : ks.findDish dish_name with
    | none => rw [afterReplenishment_unregistered dish_name m i ks hks hreg]
    | some d =>
      cases hcan : ks.canCompleteOrder dish_name with
      | true => rw [afterReplenishment_can dish_name m i ks hks hcan]
      | false =>
        rw [afterReplenishment_cannot dish_name m i ks d hks hreg hcan]
        exact replenishRequired_after i d.ingredients m ks hks j hj

theorem passOver_drawsOnly (dish_name : String) (idxs : List Nat) :
    ∀ m : StationManager, DrawsOnly m (passOver dish_name idxs m) := by
  induction idxs with
  | nil => intro m; exact DrawsOnly.refl m
  | cons i later ih =>
    intro m
    rw [passOver]
    exact drawsOnly_trans _ _ _ (afterReplenishment_drawsOnly dish_name m i) (ih _)

theorem passOver_after (dish_name : String) (n : Nat) :
    ∀ (k : Nat) (m : StationManager) (j : Nat), k + n ≤ j →
      (passOver dish_name (List.range' k n) m).stations[j]? = m.stations[j]? := by
  induction n with
  | zero => intro k m j _; rfl
  | succ n ih =>
    intro k m j hj
    rw [List.range'_succ, passOver, ih (k + 1) _ j (by omega),
      afterReplenishment_after dish_name m k j (by omega)]

theorem stationLoop_cons_not_capable (dish_name : String) (i : Nat) (later : List Nat)
    (m : StationManager) (hi : i < m.stations.length) (hset : DishesOnce m.stations)
    (hrecipes : RecipesOnce m.stations) (hcap : capableAt dish_name m i = false) :
    stationLoop dish_name (i :: later) m
      = stationLoop dish_name later (afterReplenishment dish_name m i) := by
  obtain ⟨ks, hks⟩ : ∃ ks, m.stations[i]? = some ks := ⟨_, List.getElem?_eq_getElem hi⟩
  have hmem : ks ∈ m.stations := List.getElem?_mem hks
  cases hreg : ks.findDish dish_name with
  | none =>
    rw [afterReplenishment_unregistered dish_name m i ks hks hreg]
    exact stationLoop_cons_unregistered dish_name i later m ks hks hreg
  | some d =>
    rw [capableAt_registered dish_name m i ks d hks hreg] at hcap
    simp only [Bool.or_eq_false_iff] at hcap
    have hd : d ∈ ks.dishes := by
      unfold KitchenStation.findDish at hreg
      exact List.mem_of_find?_eq_some hreg
    have hnodup := hrecipes ks hmem d hd
    have hfail : drawFails i d.ingredients m = true := by
      rw [drawFails_eq_not_coverable i d.ingredients m ks hks hnodup, hcap.2]
      rfl
    obtain ⟨ks', hks', hcannot'⟩ := cannot_after_failed_draw m i ks dish_name d hks hreg
      (Or.inl hnodup) hcap.1 hfail
    rw [afterReplenishment_cannot dish_name m i ks d hks hreg hcap.1,
      stationLoop_cons_cannot dish_name i later m ks d hks (hset ks hmem) hreg hcap.1,
      prepareDishAt_of_cannot _ i dish_name ks' hks' hcannot']
    simp

theorem stationLoop_cons_capable (dish_name : String) (i : Nat) (later : List Nat)
    (m : StationManager) (hi : i < m.stations.length) (hset : DishesOnce m.stations)
    (hnames : (m.stations.map KitchenStation.name).Nodup)
    (hrecipes : RecipesOnce m.stations) (hcap : capableAt dish_name m i = true) :
    ∃ ks d, (afterReplenishment dish_name m i).stations[i]? = some ks
      ∧ ks.findDish dish_name = some d ∧ ks.canCompleteOrder dish_name = true
      ∧ stationLoop dish_name (i :: later) m
          = ((prepareDishAt (afterReplenishment dish_name m i) i dish_name).2, true) := by
  obtain ⟨ks, hks⟩ : ∃ ks, m.stations[i]? = some ks := ⟨_, List.getElem?_eq_getElem hi⟩
  have hmem : ks ∈ m.stations := List.getElem?_mem hks
  cases hreg : ks.findDish dish_name with
  | none =>
    rw [capableAt_unregistered dish_name m i ks hks hreg] at hcap
    simp at hcap
  | some d =>
    rw [capableAt_registered dish_name m i ks d hks hreg] at hcap
    cases hcan : ks.canCompleteOrder dish_name with
    | true =>
      rw [afterReplenishment_can dish_name m i ks hks hcan]
      exact ⟨ks, d, hks, hreg, hcan,
        stationLoop_cons_can dish_name i later m ks d hks (hset ks hmem) hreg hcan⟩
    | false =>
      rw [hcan] at hcap
      simp only [Bool.false_or] at hcap
      have hd : d ∈ ks.dishes := by
        unfold KitchenStation.findDish at hreg
        exact List.mem_of_find?_eq_some hreg
      have hnodup := hrecipes ks hmem d hd
      have hfail : drawFails i d.ingredients m = false := by
        rw [drawFails_eq_not_coverable i d.ingredients m ks hks hnodup, hcap]
        rfl
      obtain ⟨ks', hks', -, hdishes, hl, -⟩ := not_lacks_of_no_failed_draw i d.ingredients m ks
        hks (fun j ks_j hj hget => first_of_name m.stations hnames i j ks ks_j hks hget
          (by omega)) hnodup hfail
      have hreg' : ks'.findDish dish_name = some d := by
        rw [findDish_congr ks ks' dish_name hdishes, hreg]
      have hcan' := can_of_not_lacks ks' dish_name d hreg' hl
      rw [afterReplenishment_cannot dish_name m i ks d hks hreg hcan]
      refine ⟨ks', d, hks', hreg', hcan', ?_⟩
      rw [stationLoop_cons_cannot dish_name i later m ks d hks (hset ks hmem) hreg hcan,
        prepareDishAt_of_can _ i dish_name ks' hks' hcan']
      simp

theorem passOver_shift (dish_name : String) (m : StationManager) (k j : Nat) (hj : k < j) :
    passOver dish_name (List.range' k (j - k)) m
      = passOver dish_name (List.range' (k + 1) (j - (k + 1)))
          (afterReplenishment dish_name m k) := by
  have h : j - k = (j - (k + 1)) + 1 := by omega
  rw [h, List.range'_succ, passOver]

theorem stationLoop_first_capable (dish_name : String) (c : Nat) :
    ∀ (k : Nat) (m : StationManager), k + c ≤ m.stations.length → DishesOnce m.stations →
      (m.stations.map KitchenStation.name).Nodup → RecipesOnce m.stations →
      (∀ i, k ≤ i → i < k + c →
          (∀ j, k ≤ j → j < i →
            capableAt dish_name (passOver dish_name (List.range' k (j - k)) m) j = false) →
          capableAt dish_name (passOver dish_name (List.range' k (i - k)) m) i = true →
          stationLoop dish_name (List.range' k c) m
            = ((prepareDishAt
                (afterReplenishment dish_name
                  (passOver dish_name (List.range' k (i - k)) m) i) i dish_name).2, true))
        ∧ ((∀ j, k ≤ j → j < k + c →
            capableAt dish_name (passOver dish_name (List.range' k (j - k)) m) j = false) →
          stationLoop dish_name (List.range' k c) m
            = (passOver dish_name (List.range' k c) m, false)) := by
  induction c with
  | zero =>
    intro k m _ _ _ _
    refine ⟨fun i h1 h2 => by omega, fun _ => rfl⟩
  | succ c ih =>
    intro k m hlen hset hnames hrecipes
    have hregs := drawsOnly_registrations _ _ (afterReplenishment_drawsOnly dish_name m k)
    have hlen1 := length_of_registrations _ _ hregs
    obtain ⟨ihA, ihB⟩ := ih (k + 1) (afterReplenishment dish_name m k)
      (by rw [hlen1]; omega) (dishesOnce_of_registrations _ _ hregs hset)
      (names_nodup_of_registrations _ _ hregs hnames)
      (recipesOnce_of_registrations _ _ hregs hrecipes)
    have hzero : passOver dish_name (List.range' k (k - k)) m = m := by
      rw [Nat.sub_self]; rfl
    refine ⟨?_, ?_⟩
    · intro i hki hic hbefore hcap
      rcases Nat.eq_or_lt_of_le hki with heq | hlt
      · subst heq
        rw [hzero] at hcap ⊢
        obtain ⟨_, _, -, -, -, hloop⟩ := stationLoop_cons_capable dish_name k
          (List.range' (k + 1) c) m (by omega) hset hnames hrecipes hcap
        rw [List.range'_succ, hloop]
      · have hk := hbefore k (le_refl k) hlt
        rw [hzero] at hk
        rw [List.range'_succ, stationLoop_cons_not_capable dish_name k _ m (by omega) hset
          hrecipes hk, passOver_shift dish_name m k i hlt]
        apply ihA i (by omega) (by omega)
        · intro j hj1 hj2
          rw [← passOver_shift dish_name m k j (by omega)]
          exact hbefore j (by omega) hj2
        · rw [← passOver_shift dish_name m k i hlt]
          exact hcap
    · intro hnone
      have hk := hnone k (le_refl k) (by omega)
      rw [hzero] at hk
      rw [List.range'_succ, stationLoop_cons_not_capable dish_name k _ m (by omega) hset
        hrecipes hk, passOver]
      apply ihB
      intro j hj1 hj2
      rw [← passOver_shift dish_name m k j (by omega)]
      exact hnone j (by omega) (by omega)

/-- C35, counterexample: with two stations both named Grill, the first
registering no dish and the second registering Soup (Water 1), no stock, and
Water 1 in the backup pool, each station registers a dish name at most once
and the second station can complete the order after its one shortfall is
drawn from backup; yet the order is not prepared: the draw made for the second
station goes to the first station of that name, and the order stays in the
queue. -/
theorem second_station_of_a_name_is_not_served :
    DishesOnce twoGrills.stations
      ∧ capableAt "Soup" twoGrills 0 = false
      ∧ capableAt "Soup" (passOver "Soup" [0] twoGrills) 1 = true
      ∧ (processDish twoGrills soup).2 = false
      ∧ twoGrills.processAllDishes.dish_queue = [soup]
      ∧ twoGrills.processAllDishes.stations
          = [⟨"Grill", [], [⟨"Water", 1, 0, 10⟩]⟩, ⟨"Grill", [soup], []⟩]
      ∧ twoGrills.processAllDishes.backup_ingredients = [] :=
  ⟨by unfold DishesOnce; decide, by decide, by decide, by decide, by decide, by decide,
    by decide⟩

/-- C35, amended: for a registry in which no two stations share a name, each
station registers a dish name at most once and every registered recipe lists
each ingredient once, and for every single order processed by
`processAllDishes`: call a station capable when it is registered for the dish
and either can complete it immediately or has every shortfall covered by a
backup record of that name holding at least the shortfall, in the state in
which the station loop reaches it (the stations before it keep what was drawn
for them).  The order is prepared by the first capable station in registry
order: up to there only backup draws were made, that station then has its
shortfalls drawn and consumes its recipe once, the station loop stops, and
every station later in the registry is as it was before the order was
processed.  When no station is capable the order is not prepared and only
backup draws were made.  So the order is prepared exactly when some station is
capable. -/
theorem processDish_first_capable_station (m : StationManager) (dish : Dish)
    (hset : DishesOnce m.stations)
    (hnames : (m.stations.map KitchenStation.name).Nodup)
    (hrecipes : RecipesOnce m.stations) :
    (∀ i, i < m.stations.length →
        (∀ j, j < i →
          capableAt dish.name (passOver dish.name (List.range j) m) j = false) →
        capableAt dish.name (passOver dish.name (List.range i) m) i = true →
        ∃ ks d,
          DrawsOnly m (afterReplenishment dish.name (passOver dish.name (List.range i) m) i)
            ∧ (afterReplenishment dish.name
                (passOver dish.name (List.range i) m) i).stations[i]? = some ks
            ∧ ks.findDish dish.name = some d ∧ ks.canCompleteOrder dish.name = true
            ∧ processDish m dish
                = ({ afterReplenishment dish.name (passOver dish.name (List.range i) m) i with
                      stations :=
                        (afterReplenishment dish.name
                          (passOver dish.name (List.range i) m) i).stations.set i
                          { ks with
                            ingredients_stock :=
                              d.ingredients.foldl consume ks.ingredients_stock } }, true)
            ∧ ∀ j, i < j → (processDish m dish).1.stations[j]? = m.stations[j]?)
      ∧ ((∀ i, i < m.stations.length →
            capableAt dish.name (passOver dish.name (List.range i) m) i = false) →
          processDish m dish = (passOver dish.name (List.range m.stations.length) m, false)
            ∧ DrawsOnly m (processDish m dish).1)
      ∧ ((processDish m dish).2 = true
          ↔ ∃ i, i < m.stations.length
              ∧ capableAt dish.name (passOver dish.name (List.range i) m) i = true) := by
  obtain ⟨hmainA, hmainB⟩ := stationLoop_first_capable dish.name m.stations.length 0 m
    (by omega) hset hnames hrecipes
  simp only [Nat.sub_zero, ← List.range_eq_range', Nat.zero_add, Nat.zero_le,
    forall_true_left] at hmainA hmainB
  have hA : ∀ i, i < m.stations.length →
      (∀ j, j < i →
        capableAt dish.name (passOver dish.name (List.range j) m) j = false) →
      capableAt dish.name (passOver dish.name (List.range i) m) i = true →
      ∃ ks d,
        DrawsOnly m (afterReplenishment dish.name (passOver dish.name (List.range i) m) i)
          ∧ (afterReplenishment dish.name
              (passOver dish.name (List.range i) m) i).stations[i]? = some ks
          ∧ ks.findDish dish.name = some d ∧ ks.canCompleteOrder dish.name = true
          ∧ processDish m dish
              = ({ afterReplenishment dish.name (passOver dish.name (List.range i) m) i with
                    stations :=
                      (afterReplenishment dish.name
                        (passOver dish.name (List.range i) m) i).stations.set i
                        { ks with
                          ingredients_stock :=
                            d.ingredients.foldl consume ks.ingredients_stock } }, true)
          ∧ ∀ j, i < j → (processDish m dish).1.stations[j]? = m.stations[j]? := by
    intro i hi hbefore hcap
    have hloop : processDish m dish
        = ((prepareDishAt
            (afterReplenishment dish.name (passOver dish.name (List.range i) m) i) i
            dish.name).2, true) := hmainA i hi hbefore hcap
    have hdraws := passOver_drawsOnly dish.name (List.range i) m
    have hregs := drawsOnly_registrations _ _ hdraws
    obtain ⟨ks, d, hks, hreg, hcan, -⟩ := stationLoop_cons_capable dish.name i []
      (passOver dish.name (List.range i) m)
      (by rw [length_of_registrations _ _ hregs]; exact hi)
      (dishesOnce_of_registrations _ _ hregs hset)
      (names_nodup_of_registrations _ _ hregs hnames)
      (recipesOnce_of_registrations _ _ hregs hrecipes) hcap
    refine ⟨ks, d, drawsOnly_trans _ _ _ hdraws (afterReplenishment_drawsOnly _ _ _), hks,
      hreg, hcan, ?_, ?_⟩
    · rw [hloop, prepareDishAt_of_can _ i dish.name ks hks hcan,
        prepareDish_of_can ks dish.name d hreg hcan]
    · intro j hj
      rw [hloop]
      simp only
      rw [prepareDishAt_other _ i dish.name j (by omega),
        afterReplenishment_after dish.name _ i j hj, List.range_eq_range',
        passOver_after dish.name i 0 m j (by omega)]
  have hB : (∀ i, i < m.stations.length →
        capableAt dish.name (passOver dish.name (List.range i) m) i = false) →
      processDish m dish = (passOver dish.name (List.range m.stations.length) m, false) :=
    fun hnone => hmainB hnone
  refine ⟨hA, fun hnone => ?_, ?_, ?_⟩
  · refine ⟨hB hnone, ?_⟩
    rw [hB hnone]
    exact passOver_drawsOnly dish.name _ m
  · intro hflag
    by_contra hcontra
    push_neg at hcontra
    have hnone : ∀ i, i < m.stations.length →
        capableAt dish.name (passOver dish.name (List.range i) m) i = false := by
      intro i hi
      have := hcontra i hi
      simpa using this
    rw [hB hnone] at hflag
    simp at hflag
  · intro hex
    classical
    obtain ⟨hlt, hcap⟩ := Nat.find_spec hex
    obtain ⟨_, _, -, -, -, -, hloop, -⟩ := hA (Nat.find hex) hlt
      (fun j hj => by
        have := Nat.find_min hex hj
        simp only [not_and, Bool.not_eq_true] at this
        exact this (by omega)) hcap
    rw [hloop]

/-- Witness for C35: with Counter (no dish), Range (Soup, no Water) and Oven
(Soup, Water 1) and Water 1 in the backup pool, Counter is not capable and
Range is, its shortfall being covered by the pool; the order Soup is prepared
at Range after one draw, and Oven is as it was. -/
theorem processDish_first_capable_station_witness :
    capableAt "Soup" threeSoupStations 0 = false
      ∧ capableAt "Soup" (passOver "Soup" (List.range 1) threeSoupStations) 1 = true
      ∧ processDish threeSoupStations soup
          = ({ threeSoupStations with
                stations := [⟨"Counter", [], []⟩, ⟨"Range", [soup], [⟨"Water", 0, 0, 10⟩]⟩,
                  ⟨"Oven", [soup], [⟨"Water", 1, 0, 10⟩]⟩]
                backup_ingredients := []
                draw_log := [("Water", 1)] }, true)
      ∧ ∃ (ks : KitchenStation) (d : Dish),
          DrawsOnly threeSoupStations
              (afterReplenishment soup.name
                (passOver soup.name (List.range 1) threeSoupStations) 1)
            ∧ ks.findDish soup.name = some d ∧ ks.canCompleteOrder soup.name = true
            ∧ ∀ j, 1 < j →
                (processDish threeSoupStations soup).1.stations[j]?
                  = threeSoupStations.stations[j]? := by
  obtain ⟨ks, d, h1, -, h3, h4, -, h6⟩ :=
    (processDish_first_capable_station threeSoupStations soup
      (by unfold DishesOnce; decide) (by decide) (by unfold RecipesOnce; decide)).1 1
      (by decide) (by decide) (by decide)
  exact ⟨by decide, by decide, by decide, ks, d, h1, h3, h4, h6⟩


end VirtualBistro
